import Mathlib

/-!
# vcf_line_splitter: a shallow embedding of `vcf_line_splitter.cc`

The program reads a VCF text stream, captures the `#` header, and cuts the
record lines into parts that background threads write out behind a copy of
the header.

Modelling conventions.

* Bytes are `Char`s, a `std::string` is a `List Char`, standard input is a
  finite `List Char` together with the `eofbit` and `failbit` of the stream.
* An exception is a value of `Exn`; a function that can throw returns its
  result together with the state it leaves behind.
* `unsigned int lines` in `part` is kept modulo `2 ^ 32`, and its conversion
  to the `int` parameter of `part_finished` is `toInt32`.  The `size_t`
  counters (`bytes`, `records_read`, ...) are kept as natural numbers:
  `bytes` is only consulted in byte mode, where it is below
  `size_t(FLAGS_MB) * 1048576 < 2 ^ 51` before a line shorter than
  `std::string::max_size()` is added, so it cannot wrap where it is read.
* `while` loops are structural recursions on a fuel argument; running out of
  fuel is `none`.
* The worker threads are represented by the list of `writer_thread` calls in
  the order `part` launches them.  Their interleaving with `part` under
  `master_lock` is the step function `Pool.step`, with a dispatch step (the
  critical section of `part`, entered with a thread slot free) and a finish
  step (the end of `writer_thread`); `Pool.exec` cuts the critical section of
  `part` in two at its wait for a slot, which releases the lock.
* `int part_num` is a natural number: the driver loop would need `2 ^ 31`
  calls of `part` to overflow it.
-/

namespace VcfLineSplitter

/-- A `std::string`: a sequence of bytes. -/
abbrev Line := List Char

/-- The exceptions raised by the program: `end_of_file` and
`std::runtime_error` with its message. -/
inductive Exn where
  | end_of_file
  | runtime_error (msg : String)
  deriving DecidableEq, Repr

/-- The part of a `std::istream` the program observes: the bytes not yet
extracted and the two state bits `getline` can set (`badbit` throws). -/
structure istream where
  data : List Char
  eofbit : Bool
  failbit : Bool
  deriving DecidableEq, Repr

/-- Character extraction of `std::getline`: the characters before the first
`'\n'`, and the rest of the stream after that delimiter, or `none` when the
end of the stream was reached before a delimiter. -/
def extract : List Char → Line × Option (List Char)
  | [] => ([], none)
  | c :: cs =>
    if c = '\n' then ([], some cs)
    else ((c :: (extract cs).1), (extract cs).2)

/-- The call `std::getline(input, str)`: when the stream is not good the
sentry fails, `failbit` is set and `str` is left alone; otherwise `str` is
erased and filled up to the delimiter (extracted and dropped) or to the end
of the stream (`eofbit`); `failbit` is set when nothing was extracted. -/
def getline (s : istream) (str : Line) : istream × Line :=
  if s.eofbit || s.failbit then ({ s with failbit := true }, str)
  else
    match extract s.data with
    | (l, some rest) => ({ data := rest, eofbit := false, failbit := false }, l)
    | (l, none) =>
      if l.length = 0 then ({ data := [], eofbit := true, failbit := true }, l)
      else ({ data := [], eofbit := true, failbit := false }, l)

/-- The class `linepeeker` (the field `_count` is never read or written). -/
structure linepeeker where
  _input : istream
  _next : Line
  _full : Bool
  _last_size : Nat
  deriving DecidableEq, Repr

namespace linepeeker

/-- The constructor `linepeeker(istream& input)`. -/
def mk_from (input : istream) : linepeeker :=
  { _input := input, _next := [], _full := false, _last_size := 0 }

/-- The method `peek()`: the cached line, reading one when none is cached. -/
def peek (p : linepeeker) : Except Exn Line × linepeeker :=
  if !p._full then
    match getline p._input p._next with
    | (inp, nxt) =>
      if inp.failbit then
        if inp.eofbit then (.error .end_of_file, { p with _input := inp, _next := nxt })
        else (.error (.runtime_error "input failure"), { p with _input := inp, _next := nxt })
      else (.ok nxt, { _input := inp, _next := nxt, _full := true, _last_size := nxt.length })
  else (.ok p._next, p)

/-- The method `drop()`. -/
def drop (p : linepeeker) : linepeeker :=
  { p with _full := false }

/-- The method `get()`: `peek()`, then the cached line is moved out (the
moved-from `_next` is left empty). -/
def get (p : linepeeker) : Except Exn Line × linepeeker :=
  match p.peek with
  | (.ok _, q) => (.ok q._next, { q with _full := false, _next := [] })
  | (.error e, q) => (.error e, q)

end linepeeker

/-- Standard input holding `data`, before anything is read. -/
def cin (data : List Char) : istream :=
  { data := data, eofbit := false, failbit := false }

/-- The loop of `read_header`: `buf` is the string stream, and an
`end_of_file` on the way is rethrown as the premature-EOF runtime error. -/
def read_header_loop : Nat → linepeeker → List Char → Option (Except Exn (List Char) × linepeeker)
  | 0, _, _ => none
  | fuel + 1, input, buf =>
    match input.peek with
    | (.error .end_of_file, input1) =>
      some (.error (.runtime_error "Premature EOF while reading VCF header"), input1)
    | (.error e, input1) => some (.error e, input1)
    | (.ok line, input1) =>
      if line.length < 1 || line.head? != some '#' then some (.ok buf, input1)
      else read_header_loop fuel input1.drop (buf ++ line ++ ['\n'])

/-- The function `read_header`; the loop drops one line per iteration, so the
number of bytes left plus two bounds its iterations. -/
def read_header (input : linepeeker) : Option (Except Exn (List Char) × linepeeker) :=
  read_header_loop (input._input.data.length + 2) input []

/-- The command-line flags (`DEFINE_int32`, `DEFINE_bool`, `DEFINE_string`);
an `int32` flag lies between `-2147483648` and `2147483647`. -/
structure Flags where
  lines : Int
  MB : Int
  threads : Int
  part_column : Bool
  quiet : Bool
  range : Line

/-- Conversion of an `unsigned int` to `int` (two's complement), as happens
when `part` passes `lines` to `part_finished`. -/
def toInt32 (n : Nat) : Int :=
  if n % 4294967296 < 2147483648 then ((n % 4294967296 : Nat) : Int)
  else ((n % 4294967296 : Nat) : Int) - 4294967296

/-- The function `part_finished`.  `FLAGS_MB` is a positive `int32` in the
first branch, so `size_t(FLAGS_MB)*1048576` is their product. -/
def part_finished (F : Flags) (lines : Int) (bytes : Nat) : Bool :=
  if F.MB > 0 then decide (bytes ≥ F.MB.toNat * 1048576)
  else decide (lines ≥ F.lines)

/-- Search of `std::string::find`, with `i` the index of the head of the list. -/
def find_at : Line → Char → Nat → Option Nat
  | [], _, _ => none
  | c :: cs, ch, i => if c = ch then some i else find_at cs ch (i + 1)

/-- The call `s.find(ch, pos)`; `none` is `string::npos`. -/
def find (s : Line) (ch : Char) (pos : Nat) : Option Nat :=
  find_at (s.drop pos) ch pos

/-- The call `s.substr(pos, n)` for `pos <= s.size()`. -/
def substr (s : Line) (pos n : Nat) : Line :=
  (s.drop pos).take n

/-- The C string `s.c_str()` as C functions see it: the bytes before the
first NUL. -/
def c_str (s : Line) : Line :=
  s.takeWhile (fun c => c != Char.ofNat 0)

/-- The C function `strncmp` on two C strings. -/
def strncmp : Line → Line → Nat → Int
  | _, _, 0 => 0
  | [], [], _ + 1 => 0
  | [], b :: _, _ + 1 => 0 - (b.toNat : Int)
  | a :: _, [], _ + 1 => (a.toNat : Int)
  | a :: as, b :: bs, n + 1 =>
    if a = b then strncmp as bs n else (a.toNat : Int) - (b.toNat : Int)

/-- The C function `isspace` in the "C" locale. -/
def isspace (c : Char) : Bool :=
  c = ' ' || c = '\t' || c = '\n' || c = Char.ofNat 11 || c = Char.ofNat 12 || c = '\r'

/-- The C function `isdigit`. -/
def isdigit (c : Char) : Bool :=
  decide (48 ≤ c.toNat ∧ c.toNat ≤ 57)

/-- Value of a run of decimal digits. -/
def digits_value (ds : Line) : Nat :=
  ds.foldl (fun acc c => 10 * acc + (c.toNat - 48)) 0

/-- The sign part of the subject sequence of `strtoull`. -/
def strtoull_sign : Line → Bool × Line
  | '-' :: r => (true, r)
  | '+' :: r => (false, r)
  | s => (false, s)

/-- The C function `strtoull(nptr, nullptr, 10)` on a C string, as in glibc:
leading white space is skipped, an optional sign is read, then the longest
run of decimal digits; text after the digits is ignored.  The result is the
returned value and whether `errno` was set (to `ERANGE`): without digits the
value is 0 and `errno` is untouched, a value above `ULLONG_MAX` gives
`ULLONG_MAX` with `ERANGE`, and a minus sign negates modulo `2 ^ 64`. -/
def strtoull (nptr : Line) : Nat × Bool :=
  match strtoull_sign (nptr.dropWhile isspace) with
  | (neg, s) =>
    if digits_value (s.takeWhile isdigit) ≥ 18446744073709551616 then
      (18446744073709551615, true)
    else if neg then
      ((18446744073709551616 - digits_value (s.takeWhile isdigit)) % 18446744073709551616, false)
    else (digits_value (s.takeWhile isdigit), false)

/-- The function `in_range`. -/
def in_range (line : Line) (range_chrom : Line) (range_beg range_end : Nat) : Bool :=
  if range_chrom.length = 0 then true
  else
    match find line '\t' 0 with
    | none => false
    | some p =>
      if p = range_chrom.length then
        if strncmp (c_str range_chrom) (c_str line) p = 0 then
          match find line '\t' (p + 1) with
          | none => false
          | some p2 =>
            if p2 > p + 1 then
              match strtoull (c_str (substr line (p + 1) (p2 - p - 1))) with
              | (pos, erange) => !erange && decide (pos ≥ range_beg) && decide (pos ≤ range_end)
            else false
        else false
      else false

/-- The arguments of one `writer_thread` call. -/
structure WriterCall where
  dest_prefix : Line
  part_num : Nat
  header : List Char
  buf : List Line
  deriving DecidableEq, Repr

/-- The coordination globals that `part` updates, with the worker threads it
has launched (in launch order) in place of the running threads. -/
structure Globals where
  threads_launched : Nat
  records_read : Nat
  records_skipped : Nat
  workers : List WriterCall
  deriving DecidableEq, Repr

/-- The locals of `part` when its read loop is left. -/
structure PartLocals where
  buf : List Line
  lines : Nat
  bytes : Nat
  more : Bool
  deriving DecidableEq, Repr

/-- The read loop of `part` with its `catch` of `end_of_file`; the last
component is the global `records_skipped`. -/
def part_loop (F : Flags) (range_chrom : Line) (range_beg range_end : Nat) :
    Nat → linepeeker → List Line → Nat → Nat → Nat →
    Option (Except Exn PartLocals × linepeeker × Nat)
  | 0, _, _, _, _, _ => none
  | fuel + 1, input, buf, lines, bytes, records_skipped =>
    if part_finished F (toInt32 lines) bytes then
      some (.ok { buf := buf, lines := lines, bytes := bytes, more := true }, input,
        records_skipped)
    else
      match input.get with
      | (.error .end_of_file, input1) =>
        some (.ok { buf := buf, lines := lines, bytes := bytes, more := false }, input1,
          records_skipped)
      | (.error e, input1) => some (.error e, input1, records_skipped)
      | (.ok line, input1) =>
        if !in_range line range_chrom range_beg range_end then
          part_loop F range_chrom range_beg range_end fuel input1 buf lines bytes
            (records_skipped + 1)
        else
          part_loop F range_chrom range_beg range_end fuel input1 (buf ++ [line])
            ((lines + 1) % 4294967296) (bytes + (line.length + 1)) records_skipped

/-- The function `part`.  Every iteration of the read loop takes a line, so
the bytes left plus two bound it.  The wait for a thread slot ends once the
running workers have finished, unless `FLAGS_threads` is not positive: then
`threads_active >= FLAGS_threads` stays true and `part` never returns. -/
def part (F : Flags) ( dest_prefix : Line) (part_num : Nat) (header : List Char)
    (input : linepeeker) (range_chrom : Line) (range_beg range_end : Nat) (g : Globals) :
    Option (Except Exn Bool × linepeeker × Globals) :=
  match part_loop F range_chrom range_beg range_end (input._input.data.length + 2) input
      [] 0 0 g.records_skipped with
  | none => none
  | some (.error e, input1, skipped) => some (.error e, input1, { g with records_skipped := skipped })
  | some (.ok l, input1, skipped) =>
    if l.lines ≠ 0 then
      if F.threads ≤ 0 then none
      else
        some (.ok l.more, input1,
          { threads_launched := g.threads_launched + 1
            records_read := g.records_read + l.lines
            records_skipped := skipped
            workers := g.workers ++
              [{ dest_prefix := dest_prefix, part_num := part_num, header := header,
                 buf := l.buf }] })
    else some (.ok l.more, input1, { g with records_skipped := skipped })

/-- The loop `while(part( dest_prefix, part_num++, ...));` of `main`; the
result carries the value of `part_num` after the loop. -/
def part_driver (F : Flags) ( dest_prefix : Line) (hdr : List Char) (range_chrom : Line)
    (range_beg range_end : Nat) :
    Nat → Nat → linepeeker → Globals → Option (Except Exn Nat × linepeeker × Globals)
  | 0, _, _, _ => none
  | fuel + 1, part_num, input, g =>
    match part F dest_prefix part_num hdr input range_chrom range_beg range_end g with
    | none => none
    | some (.error e, input1, g1) => some (.error e, input1, g1)
    | some (.ok more, input1, g1) =>
      if more then
        part_driver F dest_prefix hdr range_chrom range_beg range_end fuel (part_num + 1)
          input1 g1
      else some (.ok (part_num + 1), input1, g1)

/-- Decimal digits of `n`, most significant first, prepended to `acc`. -/
def decimal_digits : Nat → Nat → List Char → List Char
  | 0, _, acc => acc
  | fuel + 1, n, acc =>
    if n / 10 = 0 then Char.ofNat (48 + n % 10) :: acc
    else decimal_digits fuel (n / 10) (Char.ofNat (48 + n % 10) :: acc)

/-- The output of `setfill('0') << setw(6) << part_num` for `part_num >= 0`:
the decimal digits, padded on the left with `'0'` to width six. -/
def setw6 (part_num : Nat) : List Char :=
  List.replicate (6 - (decimal_digits (part_num + 1) part_num []).length) '0' ++
    decimal_digits (part_num + 1) part_num []

/-- What one `writer_thread` call leaves behind when every `bgzf` call and
the `write` to standard output succeed: the path of its file, the bytes it
passed to `bgzf_write` in order, its line on standard output, and its
counters `ct` and `sz`. -/
structure PartFile where
  path : List Char
  content : List Char
  outstr : List Char
  ct : Nat
  sz : Nat
  deriving DecidableEq, Repr

/-- The function `writer_thread`. -/
def writer_thread (F : Flags) (w : WriterCall) : PartFile :=
  { path := WriterCall.dest_prefix w ++ setw6 w.part_num ++ ".vcf.gz".toList
    content := w.buf.foldl (fun out it => out ++ it ++ ['\n']) w.header
    outstr :=
      (WriterCall.dest_prefix w ++ setw6 w.part_num ++ ".vcf.gz".toList) ++
        (if F.part_column then '\t' :: setw6 w.part_num else []) ++ ['\n']
    ct := w.buf.foldl (fun ct _ => ct + 1) 0
    sz := w.buf.foldl (fun sz it => sz + (it.length + 1)) w.header.length }

/-- The value `(unsigned long long) -1`. -/
def ULLONG_MAX : Nat := 18446744073709551615

/-- The `--range` parsing of `main`: `none` when it reports
"Unable to parse --range as chr:beg-end", otherwise the triple
`(range_chrom, range_beg, range_end)`. -/
def parse_range (range : Line) : Option (Line × Nat × Nat) :=
  if range.length = 0 then some ([], ULLONG_MAX, ULLONG_MAX)
  else
    match
      (match find range ':' 0 with
        | none => (([] : Line), ULLONG_MAX, ULLONG_MAX, false)
        | some pc =>
          if pc > 0 then
            match find range '-' pc with
            | none => (substr range 0 pc, ULLONG_MAX, ULLONG_MAX, false)
            | some pd =>
              if pd > pc + 1 then
                (substr range 0 pc,
                  (strtoull (c_str (substr range (pc + 1) (pd - pc - 1)))).1,
                  (strtoull (c_str (range.drop (pd + 1)))).1,
                  (strtoull (c_str (substr range (pc + 1) (pd - pc - 1)))).2 ||
                    (strtoull (c_str (range.drop (pd + 1)))).2)
              else (substr range 0 pc, ULLONG_MAX, ULLONG_MAX, false)
          else (([] : Line), ULLONG_MAX, ULLONG_MAX, false)) with
    | (range_chrom, range_beg, range_end, errno) =>
      if range_chrom.length = 0 || decide (range_beg ≤ 0) || decide (range_end < range_beg)
          || errno then none
      else some (range_chrom, range_beg, range_end)

/-- The initial value of the coordination globals. -/
def Globals.init : Globals :=
  { threads_launched := 0, records_read := 0, records_skipped := 0, workers := [] }

/-- How a run of `main` ends. -/
inductive MainResult where
  /-- Usage is shown (`ShowUsageWithFlags`), `return 1`. -/
  | usage
  /-- The message "Unable to parse --range as chr:beg-end", `return -1`. -/
  | range_error
  /-- An exception leaves `main`: `std::terminate`. -/
  | uncaught (e : Exn) (g : Globals)
  /-- The message "BUG!!!", `return -1`. -/
  | bug (g : Globals) (files : List PartFile)
  /-- The summary is printed with `part_num`, `return 0`. -/
  | success (part_num : Nat) (hdr : List Char) (g : Globals) (files : List PartFile)
  deriving DecidableEq, Repr

/-- The exit status of the process; `none` when it ends in `std::terminate`
(which aborts). -/
def MainResult.exit_status : MainResult → Option Int
  | .usage => some 1
  | .range_error => some (-1)
  | .uncaught _ _ => none
  | .bug _ _ => some (-1)
  | .success _ _ _ _ => some 0

/-- The function `main`: `argv1` is the positional argument when there is one,
`stdin_tty` the result of `isatty(STDIN_FILENO)`, `stdin` the bytes on
standard input, and `fuel` bounds the number of `part` calls.  The wait for
the running threads ends when all launched workers have finished, so
`threads_completed` is their number and `records_written` the sum of their
`ct`. -/
def main (F : Flags) (argv1 : Option Line) (stdin_tty : Bool) (stdin : List Char)
    (fuel : Nat) : Option MainResult :=
  match argv1 with
  | none => some .usage
  | some dest_prefix =>
    if stdin_tty then some .usage
    else
      match parse_range F.range with
      | none => some .range_error
      | some (range_chrom, range_beg, range_end) =>
        match read_header (linepeeker.mk_from (cin stdin)) with
        | none => none
        | some (.error e, _) => some (.uncaught e Globals.init)
        | some (.ok hdr, input) =>
          match part_driver F dest_prefix hdr range_chrom range_beg range_end fuel 0 input
              Globals.init with
          | none => none
          | some (.error e, _, g) => some (.uncaught e g)
          | some (.ok part_num, _, g) =>
            if g.threads_launched ≠ (g.workers.map (writer_thread F)).length ||
                g.records_read ≠ ((g.workers.map (writer_thread F)).map PartFile.ct).sum then
              some (.bug g (g.workers.map (writer_thread F)))
            else some (.success part_num hdr g (g.workers.map (writer_thread F)))

/-! ## Vocabulary of the specification -/

/-- The lines of an input: the maximal runs of bytes between `'\n'`
delimiters; a last run without a delimiter is a line when it is not empty. -/
def lines_of : List Char → List Line
  | [] => []
  | c :: cs =>
    if c = '\n' then [] :: lines_of cs
    else
      match lines_of cs with
      | [] => [[c]]
      | l :: ls => (c :: l) :: ls

/-- Each line followed by one `'\n'`. -/
def terminated : List Line → List Char
  | [] => []
  | l :: ls => l ++ '\n' :: terminated ls

/-- A header line: a non-empty line whose first byte is `'#'`. -/
def is_header_line (l : Line) : Bool :=
  l.head? == some '#'

/-- The header lines of an input: its maximal prefix of header lines. -/
def header_lines (data : List Char) : List Line :=
  (lines_of data).takeWhile is_header_line

/-- The record lines of an input: the lines from the first non-header line on. -/
def record_lines (data : List Char) : List Line :=
  (lines_of data).dropWhile is_header_line

/-- The lines a `linepeeker` has yet to hand out: the cached line, if any,
then the lines of the bytes still in a good stream. -/
def pending (p : linepeeker) : List Line :=
  (if p._full then [p._next] else []) ++
    (if p._input.eofbit || p._input.failbit then [] else lines_of p._input.data)

/-- Size of a batch as `part` counts it: each line and its newline. -/
def batch_bytes : List Line → Nat
  | [] => 0
  | l :: ls => (l.length + 1) + batch_bytes ls

/-- A stream state the program can reach: `failbit` is only ever set
together with `eofbit`. -/
def linepeeker.reachable (p : linepeeker) : Prop :=
  p._input.failbit = true → p._input.eofbit = true

instance (p : linepeeker) : Decidable p.reachable := by
  unfold linepeeker.reachable; infer_instance

/-- The read loop of `part` as a function of the lines the line source still
has to hand out: the locals when the loop is left, the lines not taken, and
the global `records_skipped`. -/
def batch (F : Flags) (range_chrom : Line) (range_beg range_end : Nat) :
    List Line → List Line → Nat → Nat → Nat → PartLocals × List Line × Nat
  | [], buf, lines, bytes, records_skipped =>
    ({ buf := buf, lines := lines, bytes := bytes,
       more := part_finished F (toInt32 lines) bytes }, [], records_skipped)
  | l :: ls, buf, lines, bytes, records_skipped =>
    if part_finished F (toInt32 lines) bytes then
      ({ buf := buf, lines := lines, bytes := bytes, more := true }, l :: ls, records_skipped)
    else if !in_range l range_chrom range_beg range_end then
      batch F range_chrom range_beg range_end ls buf lines bytes (records_skipped + 1)
    else
      batch F range_chrom range_beg range_end ls (buf ++ [l]) ((lines + 1) % 4294967296)
        (bytes + (l.length + 1)) records_skipped

/-- The function `part` as a function of the lines the line source still has
to hand out. -/
def part_on (F : Flags) ( dest_prefix : Line) (part_num : Nat) (header : List Char)
    (range_chrom : Line) (range_beg range_end : Nat) (ls : List Line) (g : Globals) :
    Option (Bool × List Line × Globals) :=
  match batch F range_chrom range_beg range_end ls [] 0 0 g.records_skipped with
  | (l, rest, skipped) =>
    if l.lines ≠ 0 then
      if F.threads ≤ 0 then none
      else
        some (l.more, rest,
          { threads_launched := g.threads_launched + 1
            records_read := g.records_read + l.lines
            records_skipped := skipped
            workers := g.workers ++
              [{ dest_prefix := dest_prefix, part_num := part_num, header := header,
                 buf := l.buf }] })
    else some (l.more, rest, { g with records_skipped := skipped })

/-- The record lines that pass the range filter. -/
def kept (range_chrom : Line) (range_beg range_end : Nat) (ls : List Line) : List Line :=
  ls.filter (fun l => in_range l range_chrom range_beg range_end)

/-- Flags of the first scenario of the specification: `lines=2`, one thread,
no range. -/
def scenario_flags : Flags :=
  { lines := 2, MB := 0, threads := 1, part_column := false, quiet := false, range := [] }

/-- Input of the scenarios of the specification. -/
def scenario_input : List Char :=
  "##A\n##B\n#CHROM\tPOS\nchr1\t10\nchr1\t20\nchr1\t30\n".toList

/-- Header of `scenario_input`. -/
def scenario_header : List Char :=
  "##A\n##B\n#CHROM\tPOS\n".toList

/-- The line source after header capture on `scenario_input`. -/
def scenario_records : linepeeker :=
  { _input := { data := "chr1\t20\nchr1\t30\n".toList, eofbit := false, failbit := false }
    _next := "chr1\t10".toList, _full := true, _last_size := 7 }

/-- The line source at the end of input. -/
def scenario_end : linepeeker :=
  { _input := { data := [], eofbit := true, failbit := true }
    _next := [], _full := false, _last_size := 7 }

/-- The globals after the driver loop of the first scenario. -/
def scenario_globals : Globals :=
  { threads_launched := 2, records_read := 3, records_skipped := 0
    workers :=
      [{ dest_prefix := [], part_num := 0, header := scenario_header,
         buf := ["chr1\t10".toList, "chr1\t20".toList] },
       { dest_prefix := [], part_num := 1, header := scenario_header,
         buf := ["chr1\t30".toList] }] }

/-- The files of the first scenario. -/
def scenario_files : List PartFile :=
  scenario_globals.workers.map (writer_thread scenario_flags)

/-- An input whose last line has no terminating newline. -/
def unterminated_input : List Char :=
  "#h\nA".toList

/-- Flags of the fourth scenario of the specification: `lines=3`, `threads=4`. -/
def scenario4_flags : Flags :=
  { lines := 3, MB := 0, threads := 4, part_column := false, quiet := false, range := [] }

/-- An input with one header line and ten records. -/
def ten_records_input : List Char :=
  "#h\nr0\nr1\nr2\nr3\nr4\nr5\nr6\nr7\nr8\nr9\n".toList

/-- The line source after header capture on `ten_records_input`. -/
def ten_records : linepeeker :=
  { _input := { data := "r1\nr2\nr3\nr4\nr5\nr6\nr7\nr8\nr9\n".toList, eofbit := false,
                failbit := false }
    _next := "r0".toList, _full := true, _last_size := 2 }

/-- Flags with byte mode at one MiB per part. -/
def flags_1MB : Flags :=
  { lines := 1000000, MB := 1, threads := 1, part_column := false, quiet := false,
    range := [] }

/-- The globals after the driver loop on `scenario_input` with `flags_1MB`. -/
def scenario_globals_1MB : Globals :=
  { threads_launched := 1, records_read := 3, records_skipped := 0
    workers :=
      [{ dest_prefix := [], part_num := 0, header := scenario_header,
         buf := ["chr1\t10".toList, "chr1\t20".toList, "chr1\t30".toList] }] }

/-- Flags of the second scenario of the specification: `range=chr1:15-25`. -/
def scenario2_flags : Flags :=
  { lines := 2, MB := 0, threads := 1, part_column := false, quiet := false,
    range := "chr1:15-25".toList }

/-- An input that is only a header, its last line without a newline. -/
def header_only_input : List Char :=
  "##A\n#B".toList

/-- An input of two header lines and nothing else. -/
def empty_body_input : List Char :=
  "##A\n##B\n".toList

/-- An input without any header line. -/
def no_header_input : List Char :=
  "chr1\t10\n".toList

/-- Flags with byte mode at 4096 MiB per part, which is `2 ^ 32` bytes. -/
def flags_4096MB : Flags :=
  { lines := 1000000, MB := 4096, threads := 1, part_column := false, quiet := false,
    range := [] }

/-- An input with one header line followed by `2 ^ 32` empty record lines. -/
def input_2_32_empty_lines : List Char :=
  '#' :: 'h' :: '\n' :: List.replicate 4294967296 '\n'

/-- The three operations of the line source. -/
inductive LineOp where
  | peek
  | drop
  | get
  deriving DecidableEq, Repr

/-- One operation on a line source: what the caller sees (nothing for
`drop()`, the line or the exception otherwise) and the state left. -/
def linepeeker.apply (p : linepeeker) : LineOp → Option (Except Exn Line) × linepeeker
  | .peek => (some p.peek.1, p.peek.2)
  | .drop => (none, p.drop)
  | .get => (some p.get.1, p.get.2)

/-- What a caller sees of a sequence of operations, each exception being
caught by the caller. -/
def linepeeker.run_ops (p : linepeeker) : List LineOp → List (Option (Except Exn Line))
  | [] => []
  | op :: ops => (p.apply op).1 :: linepeeker.run_ops (p.apply op).2 ops

/-- The statement sequence `peek(); drop();`: `drop()` is not reached when
`peek()` throws. -/
def linepeeker.peek_drop (p : linepeeker) : Except Exn Line × linepeeker :=
  match p.peek with
  | (.ok line, q) => (.ok line, q.drop)
  | (.error e, q) => (.error e, q)

/-- The results of `n` successive `get()` calls. -/
def linepeeker.gets : Nat → linepeeker → List (Except Exn Line)
  | 0, _ => []
  | n + 1, p => p.get.1 :: linepeeker.gets n p.get.2

/-- The coordination globals shared by `part` and the workers, with the
batch `part` holds while it waits for a thread slot and the buffers owned by
the running workers. -/
structure Pool where
  threads_launched : Int
  threads_completed : Int
  threads_active : Int
  records_read : Nat
  records_written : Nat
  waiting : Option (List Line)
  running : List (List Line)
  deriving DecidableEq, Repr

/-- The pool when `main` enters the driver loop. -/
def Pool.init : Pool :=
  { threads_launched := 0, threads_completed := 0, threads_active := 0, records_read := 0,
    records_written := 0, waiting := none, running := [] }

/-- The steps taken under `master_lock`.  `read` is the start of the critical
section of `part` (`records_read += lines`, with the counter `lines` and the
buffer `part` has built); `launch` is its end, once `threads_active` is below
`FLAGS_threads` (the wait in between releases the lock); `finish` is the
critical section at the end of the `i`-th running `writer_thread`. -/
inductive PoolEvent where
  | read (lines : Nat) (buf : List Line)
  | launch
  | finish (i : Nat)
  deriving DecidableEq, Repr

/-- One step of the pool, `none` when the step cannot be taken.  A batch
reaches the critical section of `part` only with `lines` not zero, and
`lines` is the size of the buffer modulo `2 ^ 32`; a worker adds its count
`ct`, the size of its buffer, to `records_written`. -/
def Pool.exec (FLAGS_threads : Int) (s : Pool) : PoolEvent → Option Pool
  | .read lines buf =>
    if s.waiting.isNone ∧ lines ≠ 0 ∧ lines = buf.length % 4294967296 then
      some { s with records_read := s.records_read + lines, waiting := some buf }
    else none
  | .launch =>
    match s.waiting with
    | none => none
    | some buf =>
      if s.threads_active < FLAGS_threads then
        some { s with threads_launched := s.threads_launched + 1
                      threads_active := s.threads_active + 1
                      waiting := none
                      running := s.running ++ [buf] }
      else none
  | .finish i =>
    match s.running.get? i with
    | none => none
    | some buf =>
      some { s with threads_active := s.threads_active - 1
                    threads_completed := s.threads_completed + 1
                    records_written := s.records_written + buf.length
                    running := s.running.eraseIdx i }

/-- A sequence of steps of the pool. -/
def Pool.run (FLAGS_threads : Int) : Pool → List PoolEvent → Option Pool
  | s, [] => some s
  | s, e :: es =>
    match Pool.exec FLAGS_threads s e with
    | none => none
    | some t => Pool.run FLAGS_threads t es

/-- The pool as a relation of two steps: `dispatch` is the critical section
of `part` entered when a thread slot is free (`threads_active` below
`FLAGS_threads`), so that it runs through without waiting; `finish` is the
critical section at the end of the `i`-th running `writer_thread`. -/
inductive PoolStep where
  | dispatch (lines : Nat) (buf : List Line)
  | finish (i : Nat)
  deriving DecidableEq, Repr

/-- One step of the two-step pool, `none` when the step is not enabled. -/
def Pool.step (FLAGS_threads : Int) (s : Pool) : PoolStep → Option Pool
  | .dispatch lines buf =>
    if s.threads_active < FLAGS_threads then
      match Pool.exec FLAGS_threads s (.read lines buf) with
      | none => none
      | some t => Pool.exec FLAGS_threads t .launch
    else none
  | .finish i => Pool.exec FLAGS_threads s (.finish i)

/-- A sequence of steps of the two-step pool. -/
def Pool.steps (FLAGS_threads : Int) : Pool → List PoolStep → Option Pool
  | s, [] => some s
  | s, e :: es =>
    match Pool.step FLAGS_threads s e with
    | none => none
    | some t => Pool.steps FLAGS_threads t es

/-- The default flags with a given `--range`. -/
def flags_with_range (range : Line) : Flags :=
  { lines := 1000000, MB := 0, threads := 1, part_column := false, quiet := false,
    range := range }

/-- Flags with a line limit of zero and byte mode off. -/
def flags_lines_0 : Flags :=
  { lines := 0, MB := 0, threads := 1, part_column := false, quiet := false, range := [] }

/-- An input with one header line and four records. -/
def four_records_input : List Char :=
  "#h\nr0\nr1\nr2\nr3\n".toList

/-- Flags with byte mode at 4097 MiB per part, a threshold above `2 ^ 32`
bytes. -/
def flags_4097MB : Flags :=
  { lines := 1000000, MB := 4097, threads := 1, part_column := false, quiet := false,
    range := [] }

/-- An input with one header line followed by `2 ^ 32 + 1` empty record
lines. -/
def input_2_32_plus_1_empty_lines : List Char :=
  '#' :: 'h' :: '\n' :: List.replicate 4294967297 '\n'

/-- An input with one header line followed by `2 ^ 32` empty record lines
and the record line `x`. -/
def input_2_32_empty_lines_and_x : List Char :=
  '#' :: 'h' :: '\n' :: (List.replicate 4294967296 '\n' ++ ['x', '\n'])

/-- Two line-source states no sequence of operations tells apart: the same
stream, the same `_full` and `_last_size`, and the same cached line when one
is cached (`_next` is overwritten or never returned otherwise). -/
def linepeeker.same_behaviour (p q : linepeeker) : Prop :=
  p._input = q._input ∧ p._full = q._full ∧ p._last_size = q._last_size ∧
    (p._full = true → p._next = q._next)

theorem extract_some_lines (data : List Char) :
    ∀ (l : Line) (rest : List Char), extract data = (l, some rest) →
      lines_of data = l :: lines_of rest := by
  induction data with
  | nil => intro l rest h; simp [extract] at h
  | cons c cs ih =>
    intro l rest h
    by_cases hc : c = '\n'
    · simp [extract, hc] at h
      obtain ⟨h1, h2⟩ := h
      subst h1; subst h2
      simp [lines_of, hc]
    · simp only [extract, hc, if_false, Prod.mk.injEq] at h
      obtain ⟨h1, h2⟩ := h
      have := ih (extract cs).1 rest (by rw [← h2])
      simp [lines_of, hc, this, ← h1]

theorem extract_none_lines (data : List Char) :
    ∀ (l : Line), extract data = (l, none) →
      lines_of data = (if l.length = 0 then [] else [l]) := by
  induction data with
  | nil => intro l h; simp [extract] at h; simp [lines_of, ← h]
  | cons c cs ih =>
    intro l h
    by_cases hc : c = '\n'
    · simp [extract, hc] at h
    · simp only [extract, hc, if_false, Prod.mk.injEq] at h
      obtain ⟨h1, h2⟩ := h
      have := ih (extract cs).1 (by rw [← h2])
      subst h1
      by_cases hl : (extract cs).1.length = 0
      · simp [lines_of, hc, this, hl]
        simpa using hl
      · simp [lines_of, hc, this, hl]

theorem lines_of_length_le (data : List Char) : (lines_of data).length ≤ data.length := by
  induction data with
  | nil => simp [lines_of]
  | cons c cs ih =>
    by_cases hc : c = '\n'
    · simp [lines_of, hc]; exact ih
    · simp only [lines_of, hc, if_false]
      cases h : lines_of cs with
      | nil => simp
      | cons l ls => rw [h] at ih; simp at ih ⊢; omega

theorem pending_length_le (p : linepeeker) :
    (pending p).length ≤ p._input.data.length + 1 := by
  have := lines_of_length_le p._input.data
  unfold pending
  cases p._full <;> cases p._input.eofbit <;> cases p._input.failbit <;> simp <;> omega

/-- On a line source with a line left, `peek` returns that line and caches it. -/
theorem peek_cons (p : linepeeker) (l : Line) (ls : List Line) (hp : p.reachable)
    (h : pending p = l :: ls) :
    ∃ q, p.peek = (.ok l, q) ∧ q.reachable ∧ q._full = true ∧ q._next = l ∧
      pending q = l :: ls ∧ pending q.drop = ls ∧ q.drop.reachable := by
  obtain ⟨inp, nxt, full, last⟩ := p
  obtain ⟨data, eofbit, failbit⟩ := inp
  cases full with
  | true =>
    simp only [pending, if_true, List.singleton_append, List.cons.injEq] at h
    obtain ⟨h1, h2⟩ := h
    subst h1
    refine ⟨_, by simp [linepeeker.peek], hp, rfl, rfl, ?_, ?_, hp⟩
    · simp only [pending, if_true, List.singleton_append, h2]
    · simp only [pending, linepeeker.drop, Bool.false_eq_true, if_false, List.nil_append, h2]
  | false =>
    cases eofbit with
    | true => simp [pending] at h
    | false =>
      cases failbit with
      | true => simp [linepeeker.reachable] at hp
      | false =>
        simp only [pending, Bool.false_eq_true, if_false, List.nil_append, Bool.or_self] at h
        cases hx : extract data with
        | mk l1 r =>
          cases r with
          | some rest =>
            have h2 := extract_some_lines data l1 rest hx
            rw [h2] at h
            simp only [List.cons.injEq] at h
            obtain ⟨h3, h4⟩ := h
            subst h3; subst h4
            refine ⟨⟨⟨rest, false, false⟩, l1, true, l1.length⟩, ?_, ?_, rfl, rfl, ?_, ?_, ?_⟩
            · simp [linepeeker.peek, getline, hx]
            · simp [linepeeker.reachable]
            · simp [pending]
            · simp [pending, linepeeker.drop]
            · simp [linepeeker.reachable, linepeeker.drop]
          | none =>
            have h2 := extract_none_lines data l1 hx
            rw [h2] at h
            by_cases hl : l1.length = 0
            · simp [hl] at h
            · simp only [hl, if_false, List.cons.injEq] at h
              obtain ⟨h3, h4⟩ := h
              subst h3; subst h4
              refine ⟨⟨⟨[], true, false⟩, l1, true, l1.length⟩, ?_, ?_, rfl, rfl, ?_, ?_, ?_⟩
              · simp [linepeeker.peek, getline, hx, hl]
              · simp [linepeeker.reachable]
              · simp [pending]
              · simp [pending, linepeeker.drop]
              · simp [linepeeker.reachable, linepeeker.drop]

/-- On an exhausted line source `peek` throws `end_of_file`. -/
theorem peek_nil (p : linepeeker) (hp : p.reachable) (h : pending p = []) :
    ∃ q, p.peek = (.error .end_of_file, q) ∧ q.reachable ∧ pending q = [] := by
  obtain ⟨inp, nxt, full, last⟩ := p
  obtain ⟨data, eofbit, failbit⟩ := inp
  cases full with
  | true => simp [pending] at h
  | false =>
    cases eofbit with
    | true =>
      refine ⟨_, by simp [linepeeker.peek, getline]; rfl, ?_, ?_⟩
      · simp [linepeeker.reachable]
      · simp [pending]
    | false =>
      cases failbit with
      | true => simp [linepeeker.reachable] at hp
      | false =>
        simp only [pending, Bool.false_eq_true, if_false, List.nil_append, Bool.or_self] at h
        cases hx : extract data with
        | mk l1 r =>
          cases r with
          | some rest =>
            have h2 := extract_some_lines data l1 rest hx
            rw [h2] at h
            simp at h
          | none =>
            have h2 := extract_none_lines data l1 hx
            rw [h2] at h
            by_cases hl : l1.length = 0
            · refine ⟨_, by simp [linepeeker.peek, getline, hx, hl]; rfl, ?_, ?_⟩
              · simp [linepeeker.reachable]
              · simp [pending]
            · simp [hl] at h

/-- On a line source with a line left, `get` returns that line and moves on. -/
theorem get_cons (p : linepeeker) (l : Line) (ls : List Line) (hp : p.reachable)
    (h : pending p = l :: ls) :
    ∃ q, p.get = (.ok l, q) ∧ q.reachable ∧ pending q = ls := by
  obtain ⟨q, h1, h2, h3, h4, _, h6, h7⟩ := peek_cons p l ls hp h
  refine ⟨{ q with _full := false, _next := [] }, by simp [linepeeker.get, h1, h4], h7, ?_⟩
  rw [← h6]
  simp [pending, linepeeker.drop]

/-- On an exhausted line source `get` throws `end_of_file`. -/
theorem get_nil (p : linepeeker) (hp : p.reachable) (h : pending p = []) :
    ∃ q, p.get = (.error .end_of_file, q) ∧ q.reachable ∧ pending q = [] := by
  obtain ⟨q, h1, h2, h3⟩ := peek_nil p hp h
  exact ⟨q, by simp [linepeeker.get, h1], h2, h3⟩

theorem mk_from_cin_reachable (data : List Char) :
    (linepeeker.mk_from (cin data)).reachable := by
  simp [linepeeker.reachable, linepeeker.mk_from, cin]

theorem pending_mk_from_cin (data : List Char) :
    pending (linepeeker.mk_from (cin data)) = lines_of data := by
  simp [pending, linepeeker.mk_from, cin]

/-! ## Header capture -/

theorem header_test (l : Line) :
    (decide (l.length < 1) || l.head? != some '#') = !is_header_line l := by
  cases l with
  | nil => simp [is_header_line]
  | cons c cs => simp [is_header_line, bne]

/-- The header loop on a source whose header lines are followed by a line
that is not one: the header lines are appended, each with its newline, and
the next line stays cached. -/
theorem read_header_loop_ok (hs : List Line) :
    ∀ (fuel : Nat) (p : linepeeker) (buf : List Char) (l : Line) (rest : List Line),
      p.reachable → pending p = hs ++ l :: rest → (∀ h ∈ hs, is_header_line h = true) →
      is_header_line l = false → hs.length + 1 ≤ fuel →
      ∃ q, read_header_loop fuel p buf = some (.ok (buf ++ terminated hs), q) ∧
        q.reachable ∧ q._full = true ∧ q._next = l ∧ pending q = l :: rest := by
  induction hs with
  | nil =>
    intro fuel p buf l rest hp h _ hl hf
    obtain ⟨q, h1, h2, h3, h4, h5, _, _⟩ := peek_cons p l rest hp h
    cases fuel with
    | zero => omega
    | succ fuel =>
      refine ⟨q, ?_, h2, h3, h4, h5⟩
      simp only [read_header_loop, h1, header_test, hl]
      simp [terminated]
  | cons x hs ih =>
    intro fuel p buf l rest hp h hh hl hf
    obtain ⟨q, h1, h2, h3, h4, h5, h6, h7⟩ := peek_cons p x (hs ++ l :: rest) hp h
    cases fuel with
    | zero => omega
    | succ fuel =>
      have hx : is_header_line x = true := hh x (by simp)
      obtain ⟨r, hr⟩ := ih fuel q.drop (buf ++ x ++ ['\n']) l rest h7 h6
        (fun h hm => hh h (by simp [hm])) hl (by simp at hf; omega)
      refine ⟨r, ?_, hr.2⟩
      simp only [read_header_loop, h1, header_test, hx, hr.1]
      simp [terminated]

/-- The header loop on a source that only has header lines left ends in the
premature-EOF error. -/
theorem read_header_loop_eof (hs : List Line) :
    ∀ (fuel : Nat) (p : linepeeker) (buf : List Char),
      p.reachable → pending p = hs → (∀ h ∈ hs, is_header_line h = true) →
      hs.length + 1 ≤ fuel →
      ∃ q, read_header_loop fuel p buf =
        some (.error (.runtime_error "Premature EOF while reading VCF header"), q) := by
  induction hs with
  | nil =>
    intro fuel p buf hp h _ hf
    obtain ⟨q, h1, _, _⟩ := peek_nil p hp h
    cases fuel with
    | zero => omega
    | succ fuel => exact ⟨q, by simp [read_header_loop, h1]⟩
  | cons x hs ih =>
    intro fuel p buf hp h hh hf
    obtain ⟨q, h1, h2, h3, h4, h5, h6, h7⟩ := peek_cons p x hs hp h
    cases fuel with
    | zero => omega
    | succ fuel =>
      have hx : is_header_line x = true := hh x (by simp)
      obtain ⟨r, hr⟩ := ih fuel q.drop (buf ++ x ++ ['\n']) h7 h6
        (fun h hm => hh h (by simp [hm])) (by simp at hf; omega)
      exact ⟨r, by simp only [read_header_loop, h1, header_test, hx, hr]; simp⟩

theorem header_record_lines (data : List Char) :
    lines_of data = header_lines data ++ record_lines data := by
  simp [header_lines, record_lines]

theorem header_lines_all (data : List Char) :
    ∀ h ∈ header_lines data, is_header_line h = true := by
  intro h hm
  exact List.mem_takeWhile_imp hm

theorem record_lines_head (data : List Char) (l : Line) (rest : List Line)
    (h : record_lines data = l :: rest) : is_header_line l = false := by
  have h1 := List.head_dropWhile_not is_header_line (lines_of data)
    (by unfold record_lines at h; rw [h]; simp)
  have h2 : (List.dropWhile is_header_line (lines_of data)).head
      (by unfold record_lines at h; rw [h]; simp) = l := by
    simp only [record_lines] at h
    simp [h]
  rw [h2] at h1
  simpa using h1

theorem header_lines_length_le (data : List Char) :
    (header_lines data).length ≤ data.length := by
  have h1 := lines_of_length_le data
  have h2 : (header_lines data).length ≤ (lines_of data).length := by
    rw [header_record_lines data]; simp
  omega

/-- Header capture on a whole input with a record line. -/
theorem read_header_cin_ok (data : List Char) (l : Line) (rest : List Line)
    (h : record_lines data = l :: rest) :
    ∃ q, read_header (linepeeker.mk_from (cin data)) =
        some (.ok (terminated (header_lines data)), q) ∧
      q.reachable ∧ q._full = true ∧ q._next = l ∧ pending q = l :: rest := by
  have := read_header_loop_ok (header_lines data) (data.length + 2)
    (linepeeker.mk_from (cin data)) [] l rest (mk_from_cin_reachable data)
    (by rw [pending_mk_from_cin, header_record_lines data, h]) (header_lines_all data)
    (record_lines_head data l rest h) (by have := header_lines_length_le data; omega)
  simpa [read_header, linepeeker.mk_from, cin] using this

/-- Header capture on a whole input without a record line. -/
theorem read_header_cin_eof (data : List Char) (h : record_lines data = []) :
    ∃ q, read_header (linepeeker.mk_from (cin data)) =
      some (.error (.runtime_error "Premature EOF while reading VCF header"), q) := by
  have := read_header_loop_eof (header_lines data) (data.length + 2)
    (linepeeker.mk_from (cin data)) [] (mk_from_cin_reachable data)
    (by rw [pending_mk_from_cin, header_record_lines data, h]; simp) (header_lines_all data)
    (by have := header_lines_length_le data; omega)
  simpa [read_header, linepeeker.mk_from, cin] using this

/-! ## The read loop of `part` -/

theorem part_loop_eq (F : Flags) (range_chrom : Line) (range_beg range_end : Nat)
    (ls : List Line) :
    ∀ (fuel : Nat) (p : linepeeker) (buf : List Line) (lines bytes skipped : Nat),
      p.reachable → pending p = ls → ls.length + 1 ≤ fuel →
      ∃ q, q.reachable ∧
        pending q = (batch F range_chrom range_beg range_end ls buf lines bytes skipped).2.1 ∧
        part_loop F range_chrom range_beg range_end fuel p buf lines bytes skipped =
          some (.ok (batch F range_chrom range_beg range_end ls buf lines bytes skipped).1, q,
            (batch F range_chrom range_beg range_end ls buf lines bytes skipped).2.2) := by
  induction ls with
  | nil =>
    intro fuel p buf lines bytes skipped hp h hf
    cases fuel with
    | zero => omega
    | succ fuel =>
      by_cases hfin : part_finished F (toInt32 lines) bytes = true
      · exact ⟨p, hp, by simp [batch, h], by simp [part_loop, batch, hfin]⟩
      · obtain ⟨q, h1, h2, h3⟩ := get_nil p hp h
        exact ⟨q, h2, by simp [batch, h3], by simp [part_loop, batch, hfin, h1]⟩
  | cons l ls ih =>
    intro fuel p buf lines bytes skipped hp h hf
    cases fuel with
    | zero => omega
    | succ fuel =>
      by_cases hfin : part_finished F (toInt32 lines) bytes = true
      · exact ⟨p, hp, by simp [batch, hfin, h], by simp [part_loop, batch, hfin]⟩
      · obtain ⟨q, h1, h2, h3⟩ := get_cons p l ls hp h
        by_cases hr : in_range l range_chrom range_beg range_end = true
        · obtain ⟨r, hr1, hr2, hr3⟩ := ih fuel q (buf ++ [l]) ((lines + 1) % 4294967296)
            (bytes + (l.length + 1)) skipped h2 h3 (by simp at hf; omega)
          exact ⟨r, hr1, by simp [batch, hfin, hr, hr2], by simp [part_loop, batch, hfin, h1, hr, hr3]⟩
        · obtain ⟨r, hr1, hr2, hr3⟩ := ih fuel q buf lines bytes (skipped + 1) h2 h3
            (by simp at hf; omega)
          exact ⟨r, hr1, by simp [batch, hfin, hr, hr2], by simp [part_loop, batch, hfin, h1, hr, hr3]⟩

/-- The function `part` on a reachable line source is `part_on` on the lines
it has left, and leaves a source that has the lines `part_on` did not take. -/
theorem part_eq (F : Flags) ( dest_prefix : Line) (part_num : Nat) (header : List Char)
    (range_chrom : Line) (range_beg range_end : Nat) (p : linepeeker) (g : Globals)
    (hp : p.reachable) :
    ∃ q, q.reachable ∧
      pending q = (batch F range_chrom range_beg range_end (pending p) [] 0 0
        g.records_skipped).2.1 ∧
      part F dest_prefix part_num header p range_chrom range_beg range_end g =
        (part_on F dest_prefix part_num header range_chrom range_beg range_end (pending p) g).map
          (fun r => (.ok r.1, q, r.2.2)) := by
  obtain ⟨q, h1, h2, h3⟩ := part_loop_eq F range_chrom range_beg range_end (pending p)
    (p._input.data.length + 2) p [] 0 0 g.records_skipped hp rfl
    (by have := pending_length_le p; omega)
  refine ⟨q, h1, h2, ?_⟩
  simp only [part, h3, part_on]
  by_cases hl : (batch F range_chrom range_beg range_end (pending p) [] 0 0
      g.records_skipped).1.lines = 0
  · simp [hl]
  · by_cases ht : F.threads ≤ 0
    · simp [hl, ht]
    · simp [hl, ht]

theorem kept_cons (range_chrom : Line) (range_beg range_end : Nat) (l : Line)
    (ls : List Line) :
    kept range_chrom range_beg range_end (l :: ls) =
      if in_range l range_chrom range_beg range_end then
        l :: kept range_chrom range_beg range_end ls
      else kept range_chrom range_beg range_end ls := by
  simp [kept, List.filter_cons]

theorem kept_append (range_chrom : Line) (range_beg range_end : Nat) (xs ys : List Line) :
    kept range_chrom range_beg range_end (xs ++ ys) =
      kept range_chrom range_beg range_end xs ++ kept range_chrom range_beg range_end ys := by
  simp [kept]

theorem kept_no_range (range_beg range_end : Nat) (ls : List Line) :
    kept [] range_beg range_end ls = ls := by
  simp [kept, in_range]

theorem batch_bytes_append (xs ys : List Line) :
    batch_bytes (xs ++ ys) = batch_bytes xs + batch_bytes ys := by
  induction xs with
  | nil => simp [batch_bytes]
  | cons x xs ih => simp [batch_bytes, ih]; omega

/-- What one run of the read loop does to the lines it is given: it takes a
prefix `consumed`, appends the lines of it that pass the filter to the
buffer and counts the others as skipped. -/
theorem batch_facts (F : Flags) (range_chrom : Line) (range_beg range_end : Nat)
    (ls : List Line) :
    ∀ (buf : List Line) (lines bytes skipped : Nat) (r : PartLocals × List Line × Nat),
      batch F range_chrom range_beg range_end ls buf lines bytes skipped = r →
      ∃ consumed, ls = consumed ++ r.2.1 ∧
        r.1.buf = buf ++ kept range_chrom range_beg range_end consumed ∧
        r.2.2 + (kept range_chrom range_beg range_end consumed).length =
          skipped + consumed.length ∧
        r.1.bytes = bytes + batch_bytes (kept range_chrom range_beg range_end consumed) ∧
        r.1.lines % 4294967296 =
          (lines + (kept range_chrom range_beg range_end consumed).length) % 4294967296 ∧
        (r.1.more = false → r.2.1 = []) ∧
        (r.1.more = true → part_finished F (toInt32 r.1.lines) r.1.bytes = true) ∧
        (lines < 4294967296 → r.1.lines < 4294967296) := by
  induction ls with
  | nil =>
    intro buf lines bytes skipped r h
    subst h
    refine ⟨[], ?_⟩
    simp [batch, kept, batch_bytes]
  | cons l ls ih =>
    intro buf lines bytes skipped r h
    by_cases hfin : part_finished F (toInt32 lines) bytes = true
    · subst h
      refine ⟨[], ?_⟩
      simp [batch, hfin, kept, batch_bytes]
    · by_cases hr : in_range l range_chrom range_beg range_end = true
      · simp only [batch, hfin, hr, Bool.not_true, Bool.false_eq_true, if_false] at h
        obtain ⟨c, h1, h2, h3, h4, h5, h6, h7, h8⟩ := ih _ _ _ _ r h
        refine ⟨l :: c, by simp [← h1], ?_, ?_, ?_, ?_, h6, h7, ?_⟩
        · simp [h2, kept_cons, hr]
        · simp [kept_cons, hr]; omega
        · simp [h4, kept_cons, hr, batch_bytes]; omega
        · simp [h5, kept_cons, hr]; omega
        · intro _; exact h8 (Nat.mod_lt _ (by decide))
      · simp only [batch, hfin, hr, Bool.not_false, if_true, Bool.false_eq_true, if_false] at h
        obtain ⟨c, h1, h2, h3, h4, h5, h6, h7, h8⟩ := ih _ _ _ _ r h
        refine ⟨l :: c, by simp [← h1], ?_, ?_, ?_, ?_, h6, h7, h8⟩
        · simp [h2, kept_cons, hr]
        · simp [kept_cons, hr]; omega
        · simp [h4, kept_cons, hr]
        · simp [h5, kept_cons, hr]

/-- In line mode with an `int32` limit, and whenever fewer than `2 ^ 32`
lines can reach the buffer, the counter `lines` is the size of the buffer. -/
theorem batch_lines_exact (F : Flags) (range_chrom : Line) (range_beg range_end : Nat)
    (ls : List Line) :
    ∀ (buf : List Line) (lines bytes skipped : Nat),
      ((F.MB ≤ 0 ∧ F.lines ≤ 2147483647 ∧ lines < 2147483648) ∨
        buf.length + (kept range_chrom range_beg range_end ls).length < 4294967296) →
      lines = buf.length →
      (batch F range_chrom range_beg range_end ls buf lines bytes skipped).1.lines =
        (batch F range_chrom range_beg range_end ls buf lines bytes skipped).1.buf.length := by
  induction ls with
  | nil => intro buf lines bytes skipped _ h; simp [batch, h]
  | cons l ls ih =>
    intro buf lines bytes skipped hw h
    by_cases hfin : part_finished F (toInt32 lines) bytes = true
    · simp [batch, hfin, h]
      rw [h] at hfin
      simp [hfin]
    · by_cases hr : in_range l range_chrom range_beg range_end = true
      · simp only [batch, hfin, hr, Bool.not_true, Bool.false_eq_true, if_false]
        have hk : (lines + 1) % 4294967296 = lines + 1 := by
          rcases hw with hw | hw
          · omega
          · simp [kept_cons, hr] at hw; omega
        rw [hk]
        apply ih
        · rcases hw with ⟨h1, h2, h3⟩ | hw
          · left
            refine ⟨h1, h2, ?_⟩
            have hnf : part_finished F (toInt32 lines) bytes = false := by simpa using hfin
            have hmb : ¬ F.MB > 0 := by omega
            simp only [part_finished, hmb, if_false, decide_eq_false_iff_not, toInt32] at hnf
            have h4 : lines % 4294967296 = lines := Nat.mod_eq_of_lt (by omega)
            rw [h4] at hnf
            simp only [h3, if_true] at hnf
            omega
          · right
            simp [kept_cons, hr] at hw
            simp; omega
        · simp [h]
      · simp only [batch, hfin, hr, Bool.not_false, if_true, Bool.false_eq_true, if_false]
        apply ih
        · rcases hw with hw | hw
          · left; exact hw
          · right; simpa [kept_cons, hr] using hw
        · exact h

/-- One turn of the driver loop on a reachable line source. -/
theorem part_driver_succ (F : Flags) ( dest_prefix : Line) (hdr : List Char)
    (range_chrom : Line) (range_beg range_end : Nat) (fuel part_num : Nat) (p : linepeeker)
    (g : Globals) (hp : p.reachable) :
    ∃ q, q.reachable ∧
      pending q = (batch F range_chrom range_beg range_end (pending p) [] 0 0
        g.records_skipped).2.1 ∧
      part_driver F dest_prefix hdr range_chrom range_beg range_end (fuel + 1) part_num p g =
        match part_on F dest_prefix part_num hdr range_chrom range_beg range_end (pending p)
            g with
        | none => none
        | some (more, _, g1) =>
          if more then
            part_driver F dest_prefix hdr range_chrom range_beg range_end fuel (part_num + 1)
              q g1
          else some (.ok (part_num + 1), q, g1) := by
  obtain ⟨q, h1, h2, h3⟩ := part_eq F dest_prefix part_num hdr range_chrom range_beg
    range_end p g hp
  refine ⟨q, h1, h2, ?_⟩
  simp only [part_driver, h3]
  cases part_on F dest_prefix part_num hdr range_chrom range_beg range_end (pending p) g with
  | none => simp
  | some r => simp

/-- Lossless partition for the driver loop started on any reachable line
source, when the counter `lines` cannot wrap. -/
theorem part_driver_lossless (F : Flags) ( dest_prefix : Line) (hdr : List Char)
    (range_chrom : Line) (range_beg range_end : Nat) :
    ∀ (fuel part_num : Nat) (p : linepeeker) (g : Globals) (r : Except Exn Nat)
      (q : linepeeker) (g1 : Globals),
      p.reachable →
      ((F.MB ≤ 0 ∧ F.lines ≤ 2147483647) ∨
        (kept range_chrom range_beg range_end (pending p)).length < 4294967296) →
      part_driver F dest_prefix hdr range_chrom range_beg range_end fuel part_num p g =
        some (r, q, g1) →
      (g1.workers.map WriterCall.buf).flatten =
        (g.workers.map WriterCall.buf).flatten ++
          kept range_chrom range_beg range_end (pending p) := by
  intro fuel
  induction fuel with
  | zero => intro part_num p g r q g1 _ _ h; simp [part_driver] at h
  | succ fuel ih =>
    intro part_num p g r q g1 hp hw h
    obtain ⟨p1, hp1, hq2, hq3⟩ := part_driver_succ F dest_prefix hdr range_chrom range_beg
      range_end fuel part_num p g hp
    rw [hq3] at h
    obtain ⟨c, hc1, hc2, _, _, _, hc6, _, _⟩ := batch_facts F range_chrom range_beg range_end
      (pending p) [] 0 0 g.records_skipped _ rfl
    have hex := batch_lines_exact F range_chrom range_beg range_end (pending p) [] 0 0
      g.records_skipped (by
        rcases hw with hw | hw
        · left; exact ⟨hw.1, hw.2, by decide⟩
        · right; simpa using hw) rfl
    have hw1 : (F.MB ≤ 0 ∧ F.lines ≤ 2147483647) ∨
        (kept range_chrom range_beg range_end (pending p1)).length < 4294967296 := by
      rcases hw with hw | hw
      · left; exact hw
      · right
        rw [hc1, kept_append, ← hq2] at hw
        simp at hw; omega
    have hkept : kept range_chrom range_beg range_end (pending p) =
        (batch F range_chrom range_beg range_end (pending p) [] 0 0 g.records_skipped).1.buf ++
          kept range_chrom range_beg range_end (pending p1) := by
      conv_lhs => rw [hc1]
      rw [kept_append, hc2, hq2]
      simp
    simp only [part_on] at h
    by_cases hl : (batch F range_chrom range_beg range_end (pending p) [] 0 0
        g.records_skipped).1.lines = 0
    · have hb : (batch F range_chrom range_beg range_end (pending p) [] 0 0
          g.records_skipped).1.buf = [] := by
        rw [hl] at hex
        exact List.length_eq_zero.mp hex.symm
      rw [hb] at hkept
      simp only [hl, ne_eq, not_true_eq_false, if_false] at h
      by_cases hm : (batch F range_chrom range_beg range_end (pending p) [] 0 0
          g.records_skipped).1.more = true
      · simp only [hm, if_true] at h
        have := ih _ _ _ _ _ _ hp1 hw1 h
        simpa [hkept] using this
      · simp only [hm, Bool.false_eq_true, if_false, Option.some.injEq, Prod.mk.injEq] at h
        have hrest := hc6 (by simpa using hm)
        rw [hq2, hrest] at hkept
        rw [← h.2.2, hkept]
        simp [kept]
    · by_cases ht : F.threads ≤ 0
      · simp [hl, ht] at h
      · simp only [hl, ne_eq, not_false_eq_true, if_true, ht, if_false] at h
        by_cases hm : (batch F range_chrom range_beg range_end (pending p) [] 0 0
            g.records_skipped).1.more = true
        · simp only [hm, if_true] at h
          have := ih _ _ _ _ _ _ hp1 hw1 h
          rw [this, hkept]
          simp
        · simp only [hm, Bool.false_eq_true, if_false, Option.some.injEq, Prod.mk.injEq] at h
          have hrest := hc6 (by simpa using hm)
          rw [hq2, hrest] at hkept
          rw [← h.2.2, hkept]
          simp [kept]

/-- A successful header capture on a whole input returns its header lines and
leaves exactly its record lines, of which there is at least one. -/
theorem read_header_cin_inv (data hdr : List Char) (input : linepeeker)
    (h : read_header (linepeeker.mk_from (cin data)) = some (.ok hdr, input)) :
    hdr = terminated (header_lines data) ∧ input.reachable ∧
      pending input = record_lines data ∧ record_lines data ≠ [] := by
  cases hr : record_lines data with
  | nil =>
    obtain ⟨q, hq⟩ := read_header_cin_eof data hr
    rw [hq] at h
    simp at h
  | cons l rest =>
    obtain ⟨q, hq, h1, _, _, h4⟩ := read_header_cin_ok data l rest hr
    rw [hq] at h
    simp only [Option.some.injEq, Prod.mk.injEq, Except.ok.injEq] at h
    obtain ⟨h5, h6⟩ := h
    subst h5; subst h6
    exact ⟨rfl, h1, h4, by simp⟩

theorem foldl_content (buf : List Line) :
    ∀ (out : List Char),
      buf.foldl (fun out it => out ++ it ++ ['\n']) out = out ++ terminated buf := by
  induction buf with
  | nil => intro out; simp [terminated]
  | cons l ls ih =>
    intro out
    simp only [List.foldl_cons, terminated]
    rw [ih]
    simp

/-- The bytes a worker writes: the header, then each line with its newline. -/
theorem writer_thread_content (F : Flags) (w : WriterCall) :
    (writer_thread F w).content = w.header ++ terminated w.buf := by
  simp only [writer_thread]
  exact foldl_content _ _

theorem terminated_append (xs ys : List Line) :
    terminated (xs ++ ys) = terminated xs ++ terminated ys := by
  induction xs with
  | nil => simp [terminated]
  | cons x xs ih => simp [terminated, ih]

theorem terminated_flatten (bs : List (List Line)) :
    terminated bs.flatten = (bs.map terminated).flatten := by
  induction bs with
  | nil => simp [terminated]
  | cons b bs ih => simp [terminated_append, ih]

/-- The workers the driver loop launches come after those already launched,
carry the header and prefix of the run, and have increasing part numbers
starting at the current one. -/
theorem part_driver_workers (F : Flags) ( dest_prefix : Line) (hdr : List Char)
    (range_chrom : Line) (range_beg range_end : Nat) :
    ∀ (fuel part_num : Nat) (p : linepeeker) (g : Globals) (r : Except Exn Nat)
      (q : linepeeker) (g1 : Globals),
      part_driver F dest_prefix hdr range_chrom range_beg range_end fuel part_num p g =
        some (r, q, g1) →
      ∃ new, g1.workers = g.workers ++ new ∧
        (∀ w ∈ new, part_num ≤ w.part_num ∧ w.header = hdr ∧ WriterCall.dest_prefix w = dest_prefix) ∧
        List.Pairwise (fun a b => a < b) (new.map WriterCall.part_num) := by
  intro fuel
  induction fuel with
  | zero => intro part_num p g r q g1 h; simp [part_driver] at h
  | succ fuel ih =>
    intro part_num p g r q g1 h
    simp only [part_driver, part] at h
    cases hl : part_loop F range_chrom range_beg range_end (p._input.data.length + 2) p [] 0 0
        g.records_skipped with
    | none => simp [hl] at h
    | some x =>
      obtain ⟨res, p1, skipped⟩ := x
      cases res with
      | error e =>
        simp only [hl, Option.some.injEq, Prod.mk.injEq] at h
        exact ⟨[], by simp [← h.2.2], by simp, by simp⟩
      | ok l =>
        simp only [hl] at h
        by_cases hz : l.lines = 0
        · simp only [hz, ne_eq, not_true_eq_false, if_false] at h
          by_cases hm : l.more = true
          · simp only [hm, if_true] at h
            obtain ⟨new, h1, h2, h3⟩ := ih _ _ _ _ _ _ h
            exact ⟨new, by simpa using h1, fun w hw => ⟨by have := (h2 w hw).1; omega,
              (h2 w hw).2⟩, h3⟩
          · simp only [hm, Bool.false_eq_true, if_false, Option.some.injEq, Prod.mk.injEq] at h
            exact ⟨[], by simp [← h.2.2], by simp, by simp⟩
        · by_cases ht : F.threads ≤ 0
          · simp [hz, ht] at h
          · simp only [hz, ne_eq, not_false_eq_true, if_true, ht, if_false] at h
            by_cases hm : l.more = true
            · simp only [hm, if_true] at h
              obtain ⟨new, h1, h2, h3⟩ := ih _ _ _ _ _ _ h
              refine ⟨⟨ dest_prefix, part_num, hdr, l.buf⟩ :: new, by simpa using h1, ?_, ?_⟩
              · intro w hw
                rcases List.mem_cons.mp hw with hw | hw
                · subst hw; simp
                · exact ⟨by have := (h2 w hw).1; omega, (h2 w hw).2⟩
              · simp only [List.map_cons, List.pairwise_cons]
                refine ⟨?_, h3⟩
                intro a ha
                obtain ⟨w, hw, rfl⟩ := List.mem_map.mp ha
                have := (h2 w hw).1
                omega
            · simp only [hm, Bool.false_eq_true, if_false, Option.some.injEq,
                Prod.mk.injEq] at h
              refine ⟨[⟨ dest_prefix, part_num, hdr, l.buf⟩], by simp [← h.2.2], ?_, by simp⟩
              intro w hw
              simp only [List.mem_singleton] at hw
              subst hw; simp

/-! ## Lossless partition -/

theorem lines_of_newlines (n : Nat) :
    lines_of (List.replicate n '\n') = List.replicate n [] := by
  induction n with
  | zero => simp [lines_of]
  | succ n ih => simp [List.replicate_succ, lines_of, ih]

theorem record_lines_header_newlines (n : Nat) :
    record_lines ('#' :: 'h' :: '\n' :: List.replicate n '\n') = List.replicate n [] ∧
      header_lines ('#' :: 'h' :: '\n' :: List.replicate n '\n') = [['#', 'h']] := by
  have h : lines_of ('#' :: 'h' :: '\n' :: List.replicate n '\n') =
      ['#', 'h'] :: List.replicate n [] := by
    simp [lines_of, lines_of_newlines]
  unfold record_lines header_lines
  rw [h]
  cases n with
  | zero => simp [is_header_line]
  | succ n =>
    simp [is_header_line, List.replicate_succ, List.dropWhile_cons, List.takeWhile_cons]

/-- The read loop in byte mode on `k` empty lines that fit under the
threshold: all of them are taken, and `lines` is their number modulo
`2 ^ 32`. -/
theorem batch_newlines (F : Flags) (range_beg range_end : Nat) (hMB : F.MB > 0) (k : Nat) :
    ∀ (buf : List Line) (lines bytes skipped : Nat),
      bytes + k ≤ F.MB.toNat * 1048576 → lines < 4294967296 →
      batch F [] range_beg range_end (List.replicate k []) buf lines bytes skipped =
        ({ buf := buf ++ List.replicate k [], lines := (lines + k) % 4294967296,
           bytes := bytes + k, more := decide (bytes + k ≥ F.MB.toNat * 1048576) }, [],
          skipped) := by
  induction k with
  | zero =>
    intro buf lines bytes skipped _ hl
    simp [batch, part_finished, hMB, Nat.mod_eq_of_lt hl]
  | succ k ih =>
    intro buf lines bytes skipped hb hl
    have hnf : part_finished F (toInt32 lines) bytes = false := by
      simp [part_finished, hMB]; omega
    have hin : in_range [] [] range_beg range_end = true := by simp [in_range]
    simp only [List.replicate_succ, batch, hnf, hin, Bool.false_eq_true, if_false,
      Bool.not_true]
    rw [ih _ _ _ _ (by simp; omega) (Nat.mod_lt _ (by decide))]
    simp only [List.length_nil, List.append_assoc, List.singleton_append, Prod.mk.injEq,
      PartLocals.mk.injEq, and_true, true_and]
    refine ⟨by omega, by omega, ?_⟩
    congr 1
    simp only [eq_iff_iff]
    omega

/-- In byte mode, when the threshold `n` is a multiple of `2 ^ 32` and the
line source has exactly `n` empty lines left, the driver loop takes them all
into one batch, finds `lines` at zero, launches no worker, and ends on the
next call: the globals are unchanged. -/
theorem byte_mode_drops_full_batch (F : Flags) ( dest_prefix : Line) (hdr : List Char)
    (range_beg range_end : Nat) (n part_num : Nat) (p : linepeeker) (g : Globals)
    (hMB : F.MB > 0) (hn : F.MB.toNat * 1048576 = n) (hmod : n % 4294967296 = 0)
    (hp : p.reachable) (hpend : pending p = List.replicate n []) :
    ∃ q, part_driver F dest_prefix hdr [] range_beg range_end 2 part_num p g =
      some (.ok (part_num + 2), q, g) := by
  have hpos : 0 < n := by omega
  obtain ⟨q1, h1, h2, h3⟩ := part_driver_succ F dest_prefix hdr [] range_beg range_end 1
    part_num p g hp
  have hb := batch_newlines F range_beg range_end hMB n [] 0 0 g.records_skipped
    (by omega) (by decide)
  rw [hpend, hb] at h2
  obtain ⟨q2, _, _, h6⟩ := part_driver_succ F dest_prefix hdr [] range_beg range_end 0
    (part_num + 1) q1 g h1
  refine ⟨q2, ?_⟩
  rw [h3, hpend]
  simp only [part_on, hb, Nat.zero_add, hmod, ne_eq, not_true_eq_false, if_false, hn,
    ge_iff_le, le_refl, decide_True, if_true]
  rw [h6, h2]
  have hnf : part_finished F (toInt32 0) 0 = false := by
    simp [part_finished, hMB]
  simp [part_on, batch, hnf]

/-- With `2 ^ 32`-aligned byte mode, an input of one header line and as many
empty record lines as the threshold has bytes passes header capture, the
driver loop ends after two calls of `part`, and no worker is launched although
every record line passes the (absent) filter; `main` returns 0. -/
theorem header_then_newlines_dropped (F : Flags) ( dest_prefix : Line)
    (range_beg range_end : Nat) (n : Nat)
    (hMB : F.MB > 0) (hn : F.MB.toNat * 1048576 = n) (hmod : n % 4294967296 = 0) :
    ∃ input q,
      read_header (linepeeker.mk_from (cin ('#' :: 'h' :: '\n' :: List.replicate n '\n'))) =
        some (.ok ['#', 'h', '\n'], input) ∧
      part_driver F dest_prefix ['#', 'h', '\n'] [] range_beg range_end 2 0 input
        Globals.init = some (.ok 2, q, Globals.init) ∧
      (Globals.init.workers.map WriterCall.buf).flatten ≠
        kept [] range_beg range_end
          (record_lines ('#' :: 'h' :: '\n' :: List.replicate n '\n')) ∧
      (F.range = [] →
        main F (some dest_prefix) false ('#' :: 'h' :: '\n' :: List.replicate n '\n') 2 =
          some (.success 2 ['#', 'h', '\n'] Globals.init [])) := by
  obtain ⟨hrec, hhead⟩ := record_lines_header_newlines n
  cases n with
  | zero => omega
  | succ m =>
    obtain ⟨input, h1, h2, _, _, h5⟩ := read_header_cin_ok
      ('#' :: 'h' :: '\n' :: List.replicate (m + 1) '\n') [] (List.replicate m [])
      (by rw [hrec, List.replicate_succ])
    obtain ⟨q, hq⟩ := byte_mode_drops_full_batch F dest_prefix ['#', 'h', '\n'] range_beg
      range_end (m + 1) 0 input Globals.init hMB hn hmod h2
      (by rw [h5, List.replicate_succ])
    obtain ⟨q1, hq1⟩ := byte_mode_drops_full_batch F dest_prefix ['#', 'h', '\n'] ULLONG_MAX
      ULLONG_MAX (m + 1) 0 input Globals.init hMB hn hmod h2
      (by rw [h5, List.replicate_succ])
    have hhdr : terminated (header_lines ('#' :: 'h' :: '\n' :: List.replicate (m + 1) '\n')) =
        ['#', 'h', '\n'] := by
      rw [hhead]; simp [terminated]
    rw [hhdr] at h1
    refine ⟨input, q, h1, hq, ?_, ?_⟩
    · rw [hrec, kept_no_range]
      simp [Globals.init, List.replicate_succ]
    · intro hr
      simp only [main, hr, parse_range, List.length_nil, if_true, Bool.false_eq_true, if_false,
        h1, hq1]
      simp [Globals.init]

/-- Lossless partition while the counter `lines` cannot wrap.  For every input on which header capture succeeds, every range setting and
every cutoff configuration on which the driver loop finishes, provided byte
mode is off (`MB <= 0`, `lines` an `int32`) or fewer than `2 ^ 32` record
lines pass the filter: the buffers of the workers launched, concatenated in
launch order, are exactly the record lines for which `in_range` is true, in
input order; launch order is increasing part-number order; and the bytes
each worker writes after the header, concatenated, are those lines each
followed by one newline. -/
theorem lossless_of_no_wrap (F : Flags) ( dest_prefix : Line) (range_chrom : Line)
    (range_beg range_end : Nat) (data hdr : List Char) (input : linepeeker) (fuel : Nat)
    (r : Except Exn Nat) (q : linepeeker) (g : Globals)
    (hh : read_header (linepeeker.mk_from (cin data)) = some (.ok hdr, input))
    (hw : (F.MB ≤ 0 ∧ F.lines ≤ 2147483647) ∨
      (kept range_chrom range_beg range_end (record_lines data)).length < 4294967296)
    (hd : part_driver F dest_prefix hdr range_chrom range_beg range_end fuel 0 input
      Globals.init = some (r, q, g)) :
    (g.workers.map WriterCall.buf).flatten =
        kept range_chrom range_beg range_end (record_lines data) ∧
      List.Pairwise (fun a b => a < b) (g.workers.map WriterCall.part_num) ∧
      (g.workers.map (fun w => (writer_thread F w).content.drop hdr.length)).flatten =
        terminated (kept range_chrom range_beg range_end (record_lines data)) := by
  obtain ⟨_, h2, h3, _⟩ := read_header_cin_inv data hdr input hh
  have h5 := part_driver_lossless F dest_prefix hdr range_chrom range_beg range_end fuel 0
    input Globals.init r q g h2 (by rw [h3]; exact hw) hd
  obtain ⟨new, h6, h7, h8⟩ := part_driver_workers F dest_prefix hdr range_chrom range_beg
    range_end fuel 0 input Globals.init r q g hd
  simp only [Globals.init, List.map_nil, List.flatten_nil, List.nil_append] at h5 h6
  rw [h3] at h5
  refine ⟨h5, by rw [h6]; exact h8, ?_⟩
  rw [← h5, terminated_flatten, List.map_map]
  congr 1
  apply List.map_congr_left
  intro w hw1
  rw [h6] at hw1
  simp [writer_thread_content, (h7 w hw1).2.1]

/-! ## Round trip -/

theorem lines_of_eq_nil (data : List Char) : lines_of data = [] ↔ data = [] := by
  cases data with
  | nil => simp [lines_of]
  | cons c cs =>
    by_cases hc : c = '\n'
    · simp [lines_of, hc]
    · simp only [lines_of, hc, if_false]
      cases lines_of cs <;> simp

/-- Writing every line of an input back with a newline gives the input, with
a newline added when the last line had none. -/
theorem terminated_lines_of (data : List Char) :
    terminated (lines_of data) =
      if data = [] ∨ data.getLast? = some '\n' then data else data ++ ['\n'] := by
  induction data with
  | nil => simp [lines_of, terminated]
  | cons c cs ih =>
    by_cases hc : c = '\n'
    · subst hc
      simp only [lines_of, if_true, terminated, List.nil_append, ih]
      cases cs with
      | nil => simp
      | cons d ds =>
        simp only [reduceCtorEq, false_or, List.getLast?_cons_cons, List.cons_append]
        split <;> simp
    · simp only [lines_of, hc, if_false]
      cases cs with
      | nil => simp [lines_of, terminated, hc]
      | cons d ds =>
        cases hl : lines_of (d :: ds) with
        | nil => simp [lines_of_eq_nil] at hl
        | cons l ls =>
          rw [hl] at ih
          simp only [terminated, List.cons_append] at ih ⊢
          rw [ih]
          simp only [List.getLast?_cons_cons]
          simp only [reduceCtorEq, false_or]
          split <;> simp

/-- What a successful run of `main` without a range went through. -/
theorem main_success_inv (F : Flags) ( dest_prefix : Line) (data : List Char) (fuel : Nat)
    (part_num : Nat) (hdr : List Char) (g : Globals) (files : List PartFile)
    (hrange : F.range = [])
    (hm : main F (some dest_prefix) false data fuel = some (.success part_num hdr g files)) :
    ∃ input q,
      read_header (linepeeker.mk_from (cin data)) = some (.ok hdr, input) ∧
      part_driver F dest_prefix hdr [] ULLONG_MAX ULLONG_MAX fuel 0 input Globals.init =
        some (.ok part_num, q, g) ∧
      files = g.workers.map (writer_thread F) := by
  simp only [main, hrange, parse_range, List.length_nil, if_true, Bool.false_eq_true,
    if_false] at hm
  cases hh : read_header (linepeeker.mk_from (cin data)) with
  | none => simp [hh] at hm
  | some x =>
    obtain ⟨res, input⟩ := x
    cases res with
    | error e => simp [hh] at hm
    | ok h =>
      simp only [hh] at hm
      cases hd : part_driver F dest_prefix h [] ULLONG_MAX ULLONG_MAX fuel 0 input
          Globals.init with
      | none => simp [hd] at hm
      | some y =>
        obtain ⟨res2, q, g1⟩ := y
        cases res2 with
        | error e => simp [hd] at hm
        | ok n =>
          simp only [hd] at hm
          split at hm
          · simp at hm
          · simp only [Option.some.injEq, MainResult.success.injEq] at hm
            obtain ⟨h1, h2, h3, h4⟩ := hm
            subst h1; subst h2; subst h3
            exact ⟨input, q, rfl, hd, h4.symm⟩

/-! ## Line mode -/

/-- The cutoff test in line mode, for a counter below `2 ^ 31`. -/
theorem part_finished_line_mode (F : Flags) (L n bytes : Nat) (hMB : F.MB ≤ 0)
    (hL : F.lines = (L : Int)) (hn : n < 2147483648) :
    part_finished F (toInt32 n) bytes = decide (L ≤ n) := by
  have hmb : ¬ F.MB > 0 := by omega
  have h4 : n % 4294967296 = n := Nat.mod_eq_of_lt (by omega)
  simp only [part_finished, hmb, if_false, toInt32, h4, hn, if_true, hL]
  simp

/-- The read loop in line mode: the buffer is filled up to `L` lines with the
next lines that pass the filter. -/
theorem batch_line_mode (F : Flags) (range_chrom : Line) (range_beg range_end : Nat)
    (L : Nat) (hMB : F.MB ≤ 0) (hL : F.lines = (L : Int)) (hL2 : L ≤ 2147483647)
    (ls : List Line) :
    ∀ (buf : List Line) (bytes skipped : Nat), buf.length ≤ L →
      (batch F range_chrom range_beg range_end ls buf buf.length bytes skipped).1.buf =
        buf ++ (kept range_chrom range_beg range_end ls).take (L - buf.length) ∧
      kept range_chrom range_beg range_end
          (batch F range_chrom range_beg range_end ls buf buf.length bytes skipped).2.1 =
        (kept range_chrom range_beg range_end ls).drop (L - buf.length) ∧
      (batch F range_chrom range_beg range_end ls buf buf.length bytes skipped).1.lines =
        (batch F range_chrom range_beg range_end ls buf buf.length bytes skipped).1.buf.length ∧
      (batch F range_chrom range_beg range_end ls buf buf.length bytes skipped).1.more =
        decide (L ≤ buf.length + (kept range_chrom range_beg range_end ls).length) := by
  induction ls with
  | nil =>
    intro buf bytes skipped hb
    have := part_finished_line_mode F L buf.length bytes hMB hL (by omega)
    simp [batch, kept, this]
  | cons l ls ih =>
    intro buf bytes skipped hb
    have hpf := part_finished_line_mode F L buf.length bytes hMB hL (by omega)
    by_cases hfin : L ≤ buf.length
    · have h0 : L - buf.length = 0 := by omega
      simp only [batch, hpf, hfin, decide_True, if_true, h0, List.take_zero, List.drop_zero,
        List.append_nil, true_and]
      simp
      omega
    · have hk : (buf.length + 1) % 4294967296 = (buf ++ [l]).length := by
        simp; omega
      have hsub : L - buf.length = (L - (buf ++ [l]).length) + 1 := by
        simp; omega
      by_cases hr : in_range l range_chrom range_beg range_end = true
      · simp only [batch, hpf, hfin, decide_False, Bool.false_eq_true, if_false, hr,
          Bool.not_true, kept_cons, if_true]
        rw [hk]
        obtain ⟨h1, h2, h3, h4⟩ := ih (buf ++ [l]) (bytes + (l.length + 1)) skipped
          (by simp; omega)
        refine ⟨?_, ?_, h3, ?_⟩
        · rw [h1, hsub, List.take_succ_cons]; simp
        · rw [h2, hsub, List.drop_succ_cons]
        · rw [h4]; simp; omega
      · simp only [batch, hpf, hfin, decide_False, Bool.false_eq_true, if_false, hr,
          Bool.not_false, kept_cons, if_true]
        exact ih buf bytes (skipped + 1) hb

/-- The driver loop in line mode on a line source with `k * L + r` lines that
pass the filter (`r < L`): it ends after `k + 1` calls of `part`, having
launched `k` workers with `L` lines each and then one with `r` lines when
`r` is not zero. -/
theorem part_driver_line_mode (F : Flags) ( dest_prefix : Line) (hdr : List Char)
    (range_chrom : Line) (range_beg range_end : Nat) (L r : Nat) (hMB : F.MB ≤ 0)
    (hL : F.lines = (L : Int)) (hL2 : L ≤ 2147483647) (hr : r < L) (ht : 1 ≤ F.threads) :
    ∀ (k fuel part_num : Nat) (p : linepeeker) (g : Globals),
      p.reachable → (kept range_chrom range_beg range_end (pending p)).length = k * L + r →
      k + 1 ≤ fuel →
      ∃ q g1,
        part_driver F dest_prefix hdr range_chrom range_beg range_end fuel part_num p g =
          some (.ok (part_num + k + 1), q, g1) ∧
        g1.workers.map (fun w => w.buf.length) =
          g.workers.map (fun w => w.buf.length) ++
            (List.replicate k L ++ if r = 0 then [] else [r]) := by
  intro k
  induction k with
  | zero =>
    intro fuel part_num p g hp hlen hf
    cases fuel with
    | zero => omega
    | succ fuel =>
      obtain ⟨q, _, _, h3⟩ := part_driver_succ F dest_prefix hdr range_chrom range_beg
        range_end fuel part_num p g hp
      obtain ⟨b1, _, b3, b4⟩ := batch_line_mode F range_chrom range_beg range_end L hMB hL hL2
        (pending p) [] 0 g.records_skipped (by simp)
      simp only [List.length_nil, Nat.sub_zero, List.nil_append, Nat.zero_add] at b1 b3 b4
      have hm : (batch F range_chrom range_beg range_end (pending p) [] 0 0
          g.records_skipped).1.more = false := by
        rw [b4]; simp; omega
      have hlen2 : (batch F range_chrom range_beg range_end (pending p) [] 0 0
          g.records_skipped).1.lines = r := by
        rw [b3, b1, List.length_take]; omega
      have hbl : (batch F range_chrom range_beg range_end (pending p) [] 0 0
          g.records_skipped).1.buf.length = r := by
        rw [← b3, hlen2]
      have hnt : ¬ F.threads ≤ 0 := by omega
      rw [h3]
      by_cases hr0 : r = 0
      · simp only [part_on, hlen2, hm, hnt, if_false, Bool.false_eq_true, hr0, ne_eq,
          not_true_eq_false]
        exact ⟨q, _, rfl, by simp⟩
      · simp only [part_on, hlen2, hm, hnt, if_false, Bool.false_eq_true, hr0, ne_eq,
          not_false_eq_true, if_true]
        exact ⟨q, _, rfl, by simp [hr0, hbl]⟩
  | succ k ih =>
    intro fuel part_num p g hp hlen hf
    cases fuel with
    | zero => omega
    | succ fuel =>
      obtain ⟨q, hq1, hq2, h3⟩ := part_driver_succ F dest_prefix hdr range_chrom range_beg
        range_end fuel part_num p g hp
      obtain ⟨b1, b2, b3, b4⟩ := batch_line_mode F range_chrom range_beg range_end L hMB hL
        hL2 (pending p) [] 0 g.records_skipped (by simp)
      simp only [List.length_nil, Nat.sub_zero, List.nil_append, Nat.zero_add] at b1 b2 b3 b4
      have hge : L ≤ (kept range_chrom range_beg range_end (pending p)).length := by
        rw [hlen, Nat.succ_mul]; omega
      have hm : (batch F range_chrom range_beg range_end (pending p) [] 0 0
          g.records_skipped).1.more = true := by
        rw [b4]; simpa using hge
      have hlen2 : (batch F range_chrom range_beg range_end (pending p) [] 0 0
          g.records_skipped).1.lines = L := by
        rw [b3, b1, List.length_take]; omega
      have hbl : (batch F range_chrom range_beg range_end (pending p) [] 0 0
          g.records_skipped).1.buf.length = L := by
        rw [← b3, hlen2]
      have hnt : ¬ F.threads ≤ 0 := by omega
      have hL0 : L ≠ 0 := by omega
      have hrest : (kept range_chrom range_beg range_end (pending q)).length = k * L + r := by
        rw [hq2, b2, List.length_drop, hlen, Nat.succ_mul]; omega
      rw [h3]
      simp only [part_on, hlen2, hm, hnt, if_false, hL0, ne_eq, not_false_eq_true, if_true]
      obtain ⟨q2, g2, h4, h5⟩ := ih fuel (part_num + 1) q _ hq1 hrest (by omega)
      refine ⟨q2, g2, ?_, ?_⟩
      · rw [h4]
        have : part_num + 1 + k + 1 = part_num + (k + 1) + 1 := by omega
        rw [this]
      · rw [h5]
        simp [hbl, List.replicate_succ]

/-! ## Byte mode -/

/-- The cutoff test in byte mode. -/
theorem part_finished_byte_mode (F : Flags) (lines : Int) (bytes : Nat) (hMB : 0 < F.MB) :
    part_finished F lines bytes = decide (F.MB.toNat * 1048576 ≤ bytes) := by
  simp [part_finished, hMB]

/-- The read loop in byte mode keeps `bytes` at the size of the buffer, and
the buffer without its last line below the threshold. -/
theorem batch_byte_mode (F : Flags) (range_chrom : Line) (range_beg range_end : Nat)
    (hMB : 0 < F.MB) (ls : List Line) :
    ∀ (buf : List Line) (lines bytes skipped : Nat),
      bytes = batch_bytes buf → batch_bytes buf.dropLast < F.MB.toNat * 1048576 →
      (batch F range_chrom range_beg range_end ls buf lines bytes skipped).1.bytes =
        batch_bytes
          (batch F range_chrom range_beg range_end ls buf lines bytes skipped).1.buf ∧
      batch_bytes
          (batch F range_chrom range_beg range_end ls buf lines bytes skipped).1.buf.dropLast <
        F.MB.toNat * 1048576 := by
  induction ls with
  | nil => intro buf lines bytes skipped h1 h2; simp [batch, h1, h2]
  | cons l ls ih =>
    intro buf lines bytes skipped h1 h2
    have hpf := part_finished_byte_mode F (toInt32 lines) bytes hMB
    by_cases hfin : F.MB.toNat * 1048576 ≤ bytes
    · simp only [batch, hpf, hfin, decide_True, if_true]
      exact ⟨h1, h2⟩
    · by_cases hr : in_range l range_chrom range_beg range_end = true
      · simp only [batch, hpf, hfin, decide_False, Bool.false_eq_true, if_false, hr,
          Bool.not_true]
        apply ih
        · rw [batch_bytes_append, h1]; simp [batch_bytes]
        · rw [List.dropLast_concat, ← h1]; omega
      · simp only [batch, hpf, hfin, decide_False, Bool.false_eq_true, if_false, hr,
          Bool.not_false, if_true]
        exact ih _ _ _ _ h1 h2

/-- In byte mode every batch the driver loop dispatches, except possibly the
last, has reached the threshold, and none reaches it without its last line. -/
theorem part_driver_byte_mode (F : Flags) ( dest_prefix : Line) (hdr : List Char)
    (range_chrom : Line) (range_beg range_end : Nat) (hMB : 0 < F.MB) :
    ∀ (fuel part_num : Nat) (p : linepeeker) (g : Globals) (r : Except Exn Nat)
      (q : linepeeker) (g1 : Globals),
      p.reachable →
      part_driver F dest_prefix hdr range_chrom range_beg range_end fuel part_num p g =
        some (r, q, g1) →
      ∃ new, g1.workers = g.workers ++ new ∧
        (∀ w ∈ new.dropLast, F.MB.toNat * 1048576 ≤ batch_bytes w.buf) ∧
        (∀ w ∈ new, batch_bytes w.buf.dropLast < F.MB.toNat * 1048576) := by
  have hT : 0 < F.MB.toNat * 1048576 := by omega
  intro fuel
  induction fuel with
  | zero => intro part_num p g r q g1 _ h; simp [part_driver] at h
  | succ fuel ih =>
    intro part_num p g r q g1 hp h
    obtain ⟨p1, hp1, _, hq3⟩ := part_driver_succ F dest_prefix hdr range_chrom range_beg
      range_end fuel part_num p g hp
    rw [hq3] at h
    obtain ⟨b1, b2⟩ := batch_byte_mode F range_chrom range_beg range_end hMB (pending p) [] 0 0
      g.records_skipped (by simp [batch_bytes]) (by simpa [batch_bytes] using hT)
    obtain ⟨_, _, _, _, _, _, _, b3, _⟩ := batch_facts F range_chrom range_beg range_end
      (pending p) [] 0 0 g.records_skipped _ rfl
    rw [part_finished_byte_mode F _ _ hMB, b1] at b3
    simp only [part_on] at h
    by_cases hl : (batch F range_chrom range_beg range_end (pending p) [] 0 0
        g.records_skipped).1.lines = 0
    · simp only [hl, ne_eq, not_true_eq_false, if_false] at h
      by_cases hm : (batch F range_chrom range_beg range_end (pending p) [] 0 0
          g.records_skipped).1.more = true
      · simp only [hm, if_true] at h
        obtain ⟨new, h1, h2, h3⟩ := ih _ _ _ _ _ _ hp1 h
        exact ⟨new, by simpa using h1, h2, h3⟩
      · simp only [hm, Bool.false_eq_true, if_false, Option.some.injEq, Prod.mk.injEq] at h
        exact ⟨[], by simp [← h.2.2], by simp, by simp⟩
    · by_cases ht : F.threads ≤ 0
      · simp [hl, ht] at h
      · simp only [hl, ne_eq, not_false_eq_true, if_true, ht, if_false] at h
        by_cases hm : (batch F range_chrom range_beg range_end (pending p) [] 0 0
            g.records_skipped).1.more = true
        · simp only [hm, if_true] at h
          obtain ⟨new, h1, h2, h3⟩ := ih _ _ _ _ _ _ hp1 h
          have hb3 := b3 hm
          simp only [decide_eq_true_eq] at hb3
          refine ⟨⟨ dest_prefix, part_num, hdr, (batch F range_chrom range_beg range_end
            (pending p) [] 0 0 g.records_skipped).1.buf⟩ :: new, by simpa using h1, ?_, ?_⟩
          · intro w hw
            cases new with
            | nil => simp at hw
            | cons x xs =>
              simp only [List.dropLast_cons₂, List.mem_cons] at hw
              rcases hw with hw | hw
              · subst hw; exact hb3
              · exact h2 w hw
          · intro w hw
            rcases List.mem_cons.mp hw with hw | hw
            · subst hw; exact b2
            · exact h3 w hw
        · simp only [hm, Bool.false_eq_true, if_false, Option.some.injEq, Prod.mk.injEq] at h
          refine ⟨[⟨ dest_prefix, part_num, hdr, (batch F range_chrom range_beg range_end
            (pending p) [] 0 0 g.records_skipped).1.buf⟩], by simp [← h.2.2], by simp, ?_⟩
          intro w hw
          simp only [List.mem_singleton] at hw
          subst hw; exact b2

/-- In byte mode the read loop does not look at `FLAGS_lines`. -/
theorem part_loop_lines_irrelevant (F : Flags) (x : Int) (range_chrom : Line)
    (range_beg range_end : Nat) (hMB : 0 < F.MB) :
    ∀ (fuel : Nat) (p : linepeeker) (buf : List Line) (lines bytes skipped : Nat),
      part_loop { F with lines := x } range_chrom range_beg range_end fuel p buf lines bytes
          skipped =
        part_loop F range_chrom range_beg range_end fuel p buf lines bytes skipped := by
  intro fuel
  induction fuel with
  | zero => intro p buf lines bytes skipped; simp [part_loop]
  | succ fuel ih =>
    intro p buf lines bytes skipped
    have h1 : part_finished { F with lines := x } (toInt32 lines) bytes =
        part_finished F (toInt32 lines) bytes := by
      simp [part_finished, hMB]
    simp only [part_loop, h1, ih]

/-- In byte mode the driver loop does not look at `FLAGS_lines`. -/
theorem part_driver_lines_irrelevant (F : Flags) (x : Int) ( dest_prefix : Line)
    (hdr : List Char) (range_chrom : Line) (range_beg range_end : Nat) (hMB : 0 < F.MB) :
    ∀ (fuel part_num : Nat) (p : linepeeker) (g : Globals),
      part_driver { F with lines := x } dest_prefix hdr range_chrom range_beg range_end fuel
          part_num p g =
        part_driver F dest_prefix hdr range_chrom range_beg range_end fuel part_num p g := by
  intro fuel
  induction fuel with
  | zero => intro part_num p g; simp [part_driver]
  | succ fuel ih =>
    intro part_num p g
    simp only [part_driver, part, part_loop_lines_irrelevant F x _ _ _ hMB, ih]

/-! ## The range filter -/

theorem find_at_append (ch : Char) (x y : Line) (h : ch ∉ x) :
    ∀ (i : Nat), find_at (x ++ ch :: y) ch i = some (i + x.length) := by
  induction x with
  | nil => intro i; simp [find_at]
  | cons c cs ih =>
    intro i
    have hc : ¬ c = ch := fun e => h (by simp [e])
    have hcs : ch ∉ cs := fun e => h (by simp [e])
    rw [List.cons_append]
    simp only [find_at, hc, if_false]
    rw [ih hcs]
    simp only [List.length_cons, Option.some.injEq]
    omega

theorem find_at_some_inv (ch : Char) (s : Line) :
    ∀ (i j : Nat), find_at s ch i = some j →
      ∃ x y, s = x ++ ch :: y ∧ ch ∉ x ∧ j = i + x.length := by
  induction s with
  | nil => intro i j h; simp [find_at] at h
  | cons c cs ih =>
    intro i j h
    by_cases hc : c = ch
    · simp only [find_at, hc, if_true, Option.some.injEq] at h
      exact ⟨[], cs, by simp [hc], by simp, by simp [h]⟩
    · simp only [find_at, hc, if_false] at h
      obtain ⟨x, y, h1, h2, h3⟩ := ih (i + 1) j h
      refine ⟨c :: x, y, by simp [h1], ?_, by simp [h3]; omega⟩
      intro hm
      rcases List.mem_cons.mp hm with e | e
      · exact hc e.symm
      · exact h2 e

theorem char_eq_of_toNat_eq (a b : Char) (h : a.toNat = b.toNat) : a = b := by
  rw [← Char.ofNat_toNat a, ← Char.ofNat_toNat b, h]

/-- The comparison `strncmp` of a string with a line that starts with it,
over the length of the string, is zero. -/
theorem strncmp_self (x y : Line) :
    strncmp (c_str x) (c_str (x ++ y)) x.length = 0 := by
  induction x with
  | nil => simp [strncmp]
  | cons c cs ih =>
    by_cases hc : c = Char.ofNat 0
    · simp [c_str, hc, strncmp]
    · have h1 : c_str (c :: cs) = c :: c_str cs := by simp [c_str, hc]
      have h2 : c_str (c :: cs ++ y) = c :: c_str (cs ++ y) := by simp [c_str, hc]
      rw [h1, h2]
      simp [strncmp, ih]

/-- When `strncmp` over the length of a NUL-free string finds it equal to the
start of a line, the line starts with that string. -/
theorem strncmp_inv (a : Line) :
    ∀ (x y : Line), Char.ofNat 0 ∉ a → x.length = a.length →
      strncmp (c_str a) (c_str (x ++ y)) a.length = 0 → x = a := by
  induction a with
  | nil => intro x y _ hl _; exact List.length_eq_zero.mp hl
  | cons c cs ih =>
    intro x y hn hl h
    have hc : ¬ c = Char.ofNat 0 := fun e => hn (by simp [e])
    have hcs : Char.ofNat 0 ∉ cs := fun e => hn (by simp [e])
    have h1 : c_str (c :: cs) = c :: c_str cs := by simp [c_str, hc]
    cases x with
    | nil => simp at hl
    | cons d ds =>
      by_cases hd : d = Char.ofNat 0
      · have h2 : c_str (d :: ds ++ y) = [] := by simp [c_str, hd]
        rw [h1, h2] at h
        simp only [List.length_cons, strncmp] at h
        have h3 : c.toNat = (Char.ofNat 0).toNat := by
          have h4 : (Char.ofNat 0).toNat = 0 := by decide
          rw [h4]; exact_mod_cast h
        exact absurd (char_eq_of_toNat_eq _ _ h3) hc
      · have h2 : c_str (d :: ds ++ y) = d :: c_str (ds ++ y) := by simp [c_str, hd]
        rw [h1, h2] at h
        simp only [List.length_cons, strncmp] at h
        by_cases hcd : c = d
        · simp only [hcd, if_true] at h
          rw [hcd, ih ds y hcs (by simpa using hl) h]
        · simp only [hcd, if_false] at h
          have h3 : c.toNat = d.toNat := by omega
          exact absurd (char_eq_of_toNat_eq _ _ h3) hcd

/-- A decimal digit is neither white space, a sign, a tab nor NUL. -/
theorem isdigit_char (c : Char) (h : isdigit c = true) :
    isspace c = false ∧ c ≠ '-' ∧ c ≠ '+' ∧ c ≠ Char.ofNat 0 := by
  simp only [isdigit, decide_eq_true_eq] at h
  refine ⟨?_, ?_, ?_, ?_⟩
  · simp only [isspace, Bool.or_eq_false_iff, decide_eq_false_iff_not]
    refine ⟨⟨⟨⟨⟨?_, ?_⟩, ?_⟩, ?_⟩, ?_⟩, ?_⟩ <;>
      (intro e; rw [e] at h; revert h; decide)
  · intro e; rw [e] at h; revert h; decide
  · intro e; rw [e] at h; revert h; decide
  · intro e; rw [e] at h; revert h; decide

/-- The function `strtoull` on a non-empty run of decimal digits whose value
fits in 64 bits returns that value without a range error. -/
theorem strtoull_digits (ds : Line) (hne : ds ≠ []) (hd : ∀ c ∈ ds, isdigit c = true)
    (hv : digits_value ds < 18446744073709551616) :
    strtoull (c_str ds) = (digits_value ds, false) := by
  have h1 : c_str ds = ds := by
    unfold c_str
    rw [List.takeWhile_eq_self_iff]
    intro c hc
    simpa using (isdigit_char c (hd c hc)).2.2.2
  cases ds with
  | nil => exact absurd rfl hne
  | cons d ds =>
    obtain ⟨h2, h3, h4, _⟩ := isdigit_char d (hd d (by simp))
    have h5 : List.dropWhile isspace (d :: ds) = d :: ds :=
      List.dropWhile_cons_of_neg (by simp [h2])
    have h6 : strtoull_sign (d :: ds) = (false, d :: ds) := by
      unfold strtoull_sign
      split
      · rename_i e; simp at e; exact absurd e.1 h3
      · rename_i e; simp at e; exact absurd e.1 h4
      · rfl
    have h7 : List.takeWhile isdigit (d :: ds) = d :: ds :=
      List.takeWhile_eq_self_iff.mpr hd
    rw [h1]
    simp only [strtoull, h5, h6, h7]
    have h8 : ¬ digits_value (d :: ds) ≥ 18446744073709551616 := by omega
    simp [h8]

/-- The function `in_range` on a line with two tab-terminated fields, the
first being the chromosome of the range. -/
theorem in_range_two_fields (chrom field rest : Line) (range_beg range_end : Nat)
    (hc : chrom ≠ []) (h1 : '\t' ∉ chrom) (h2 : '\t' ∉ field) :
    in_range (chrom ++ '\t' :: field ++ '\t' :: rest) chrom range_beg range_end =
      (decide (field ≠ []) && !(strtoull (c_str field)).2 &&
        decide (range_beg ≤ (strtoull (c_str field)).1) &&
        decide ((strtoull (c_str field)).1 ≤ range_end)) := by
  have hlen : ¬ chrom.length = 0 := by simpa using hc
  have hf1 : find (chrom ++ '\t' :: field ++ '\t' :: rest) '\t' 0 = some chrom.length := by
    have := find_at_append '\t' chrom (field ++ '\t' :: rest) h1 0
    simpa [find] using this
  have hf2 : find (chrom ++ '\t' :: field ++ '\t' :: rest) '\t' (chrom.length + 1) =
      some (chrom.length + 1 + field.length) := by
    have hdrop : List.drop (chrom.length + 1) (chrom ++ '\t' :: field ++ '\t' :: rest) =
        field ++ '\t' :: rest := by
      rw [List.append_assoc, List.drop_append]; simp
    simp only [find, hdrop]
    exact find_at_append '\t' field rest h2 _
  have hs : strncmp (c_str chrom) (c_str (chrom ++ '\t' :: field ++ '\t' :: rest))
      chrom.length = 0 := by
    rw [List.append_assoc]; exact strncmp_self chrom _
  have hsub : substr (chrom ++ '\t' :: field ++ '\t' :: rest) (chrom.length + 1)
      (chrom.length + 1 + field.length - chrom.length - 1) = field := by
    have hdrop : List.drop (chrom.length + 1) (chrom ++ '\t' :: field ++ '\t' :: rest) =
        field ++ '\t' :: rest := by
      rw [List.append_assoc, List.drop_append]; simp
    have hn : chrom.length + 1 + field.length - chrom.length - 1 = field.length := by omega
    simp only [substr, hdrop, hn, List.take_left]
  simp only [in_range, hlen, if_false, hf1, if_true, hs, hf2, hsub]
  by_cases hfe : field = []
  · simp [hfe]
  · have : chrom.length + 1 + field.length > chrom.length + 1 := by
      have := List.length_pos.mpr hfe; omega
    simp [this, hfe, Bool.and_assoc]

theorem find_at_none (ch : Char) (s : Line) (h : ch ∉ s) :
    ∀ (i : Nat), find_at s ch i = none := by
  induction s with
  | nil => intro i; simp [find_at]
  | cons c cs ih =>
    intro i
    have hc : ¬ c = ch := fun e => h (by simp [e])
    have hcs : ch ∉ cs := fun e => h (by simp [e])
    simp only [find_at, hc, if_false, ih hcs]

/-- A line splits in one way only at its first occurrence of a character. -/
theorem split_at_first (t : Char) (x : Line) :
    ∀ (x1 y y1 : Line), t ∉ x → t ∉ x1 → x ++ t :: y = x1 ++ t :: y1 → x = x1 ∧ y = y1 := by
  induction x with
  | nil =>
    intro x1 y y1 _ h2 h
    cases x1 with
    | nil => simpa using h
    | cons c cs =>
      simp only [List.nil_append, List.cons_append, List.cons.injEq] at h
      exact absurd (by simp [h.1]) h2
  | cons c cs ih =>
    intro x1 y y1 h1 h2 h
    cases x1 with
    | nil =>
      simp only [List.nil_append, List.cons_append, List.cons.injEq] at h
      exact absurd (by simp [h.1]) h1
    | cons d ds =>
      simp only [List.cons_append, List.cons.injEq] at h
      obtain ⟨h3, h4⟩ := ih ds y y1 (fun e => h1 (by simp [e])) (fun e => h2 (by simp [e])) h.2
      exact ⟨by rw [h.1, h3], h4⟩

/-- The function `strtoull` on a non-empty run of decimal digits whose value
does not fit in 64 bits reports a range error. -/
theorem strtoull_digits_large (ds : Line) (hd : ∀ c ∈ ds, isdigit c = true)
    (hv : 18446744073709551616 ≤ digits_value ds) :
    (strtoull (c_str ds)).2 = true := by
  have h1 : c_str ds = ds := by
    unfold c_str
    rw [List.takeWhile_eq_self_iff]
    intro c hc
    simpa using (isdigit_char c (hd c hc)).2.2.2
  cases ds with
  | nil => simp [digits_value] at hv
  | cons d ds =>
    obtain ⟨h2, h3, h4, _⟩ := isdigit_char d (hd d (by simp))
    have h5 : List.dropWhile isspace (d :: ds) = d :: ds :=
      List.dropWhile_cons_of_neg (by simp [h2])
    have h6 : strtoull_sign (d :: ds) = (false, d :: ds) := by
      unfold strtoull_sign
      split
      · rename_i e; simp at e; exact absurd e.1 h3
      · rename_i e; simp at e; exact absurd e.1 h4
      · rfl
    have h7 : List.takeWhile isdigit (d :: ds) = d :: ds :=
      List.takeWhile_eq_self_iff.mpr hd
    rw [h1]
    simp only [strtoull, h5, h6, h7]
    simp [hv]

/-- What a line accepted by `in_range` looks like, for a NUL-free chromosome. -/
theorem in_range_inv (line chrom : Line) (range_beg range_end : Nat) (hc : chrom ≠ [])
    (hnul : Char.ofNat 0 ∉ chrom) (h : in_range line chrom range_beg range_end = true) :
    ∃ field rest, line = chrom ++ '\t' :: field ++ '\t' :: rest ∧ '\t' ∉ chrom ∧
      field ≠ [] ∧ '\t' ∉ field ∧ (strtoull (c_str field)).2 = false ∧
      range_beg ≤ (strtoull (c_str field)).1 ∧ (strtoull (c_str field)).1 ≤ range_end := by
  have hlen : ¬ chrom.length = 0 := by simpa using hc
  simp only [in_range, hlen, if_false] at h
  cases hf1 : find line '\t' 0 with
  | none => simp [hf1] at h
  | some p =>
    simp only [hf1] at h
    obtain ⟨x, y1, hx1, hx2, hx3⟩ := find_at_some_inv '\t' line 0 p (by simpa [find] using hf1)
    by_cases hp : p = chrom.length
    · simp only [hp, if_true] at h
      by_cases hs : strncmp (c_str chrom) (c_str line) chrom.length = 0
      · simp only [hs, if_true] at h
        have hxc : x = chrom := by
          apply strncmp_inv chrom x ('\t' :: y1) hnul (by omega)
          rw [← hx1]; exact hs
        subst hxc
        cases hf2 : find line '\t' (x.length + 1) with
        | none => simp [hf2] at h
        | some p2 =>
          simp only [hf2] at h
          have hdrop : List.drop (x.length + 1) line = y1 := by
            rw [hx1, List.drop_append]; simp
          obtain ⟨field, rest, hy1, hy2, hy3⟩ := find_at_some_inv '\t' y1 (x.length + 1) p2
            (by simpa [find, hdrop] using hf2)
          by_cases hp2 : p2 > x.length + 1
          · simp only [hp2, if_true] at h
            have hsub : substr line (x.length + 1) (p2 - x.length - 1) = field := by
              have hn : p2 - x.length - 1 = field.length := by omega
              simp only [substr, hdrop, hn, hy1, List.take_left]
            rw [hsub] at h
            simp only [Bool.and_eq_true, Bool.not_eq_true', decide_eq_true_eq] at h
            refine ⟨field, rest, by rw [hx1, hy1]; simp, hx2, ?_, hy2, h.1.1, h.1.2, h.2⟩
            intro e
            rw [e] at hy3
            simp at hy3
            omega
          · simp [hp2] at h
      · simp [hs] at h
    · simp [hp] at h

/-! ## Runs that stop in header capture -/

/-- A run of `main` whose input has no record line ends in the premature-EOF
error leaving `main`, with nothing launched. -/
theorem main_header_only (F : Flags) ( dest_prefix : Line) (data : List Char) (fuel : Nat)
    (hall : ∀ l ∈ lines_of data, is_header_line l = true)
    (hrange : parse_range F.range ≠ none) :
    main F (some dest_prefix) false data fuel =
      some (.uncaught (.runtime_error "Premature EOF while reading VCF header")
        Globals.init) := by
  have hrec : record_lines data = [] := List.dropWhile_eq_nil_iff.mpr hall
  obtain ⟨q, hq⟩ := read_header_cin_eof data hrec
  cases hp : parse_range F.range with
  | none => exact absurd hp hrange
  | some t =>
    obtain ⟨rc, rb, re⟩ := t
    simp [main, hp, hq]

/-! ## Termination of the driver loop -/

theorem batch_rest_le (F : Flags) (range_chrom : Line) (range_beg range_end : Nat)
    (ls buf : List Line) (lines bytes skipped : Nat) :
    (batch F range_chrom range_beg range_end ls buf lines bytes skipped).2.1.length ≤
      ls.length := by
  obtain ⟨c, h1, _⟩ := batch_facts F range_chrom range_beg range_end ls buf lines bytes
    skipped _ rfl
  have h2 := congrArg List.length h1
  simp only [List.length_append] at h2
  omega

/-- A run of the read loop that starts below its cutoff either takes a line
or meets the end of input. -/
theorem batch_progress (F : Flags) (range_chrom : Line) (range_beg range_end : Nat)
    (ls buf : List Line) (lines bytes skipped : Nat)
    (hnf : part_finished F (toInt32 lines) bytes = false) :
    ((batch F range_chrom range_beg range_end ls buf lines bytes skipped).1.more = false ∧
        ls = []) ∨
      (batch F range_chrom range_beg range_end ls buf lines bytes skipped).2.1.length <
        ls.length := by
  cases ls with
  | nil => left; simp [batch, hnf]
  | cons l ls =>
    right
    by_cases hr : in_range l range_chrom range_beg range_end = true
    · simp only [batch, hnf, hr, Bool.false_eq_true, if_false, Bool.not_true, List.length_cons]
      have := batch_rest_le F range_chrom range_beg range_end ls (buf ++ [l])
        ((lines + 1) % 4294967296) (bytes + (l.length + 1)) skipped
      omega
    · simp only [batch, hnf, hr, Bool.false_eq_true, if_false, Bool.not_false, if_true,
        List.length_cons]
      have := batch_rest_le F range_chrom range_beg range_end ls buf lines bytes (skipped + 1)
      omega

/-- When the cutoff is not already reached by an empty batch and a worker
thread is allowed, the driver loop ends within one call of `part` per line
left, plus one. -/
theorem part_driver_terminates (F : Flags) ( dest_prefix : Line) (hdr : List Char)
    (range_chrom : Line) (range_beg range_end : Nat)
    (hact : part_finished F (toInt32 0) 0 = false) (ht : 1 ≤ F.threads) :
    ∀ (fuel part_num : Nat) (p : linepeeker) (g : Globals),
      p.reachable → (pending p).length + 1 ≤ fuel →
      ∃ n q g1,
        part_driver F dest_prefix hdr range_chrom range_beg range_end fuel part_num p g =
          some (.ok n, q, g1) := by
  have hnt : ¬ F.threads ≤ 0 := by omega
  intro fuel
  induction fuel with
  | zero => intro part_num p g _ hf; omega
  | succ fuel ih =>
    intro part_num p g hp hf
    obtain ⟨q, hq1, hq2, hq3⟩ := part_driver_succ F dest_prefix hdr range_chrom range_beg
      range_end fuel part_num p g hp
    rw [hq3]
    simp only [part_on]
    by_cases hm : (batch F range_chrom range_beg range_end (pending p) [] 0 0
        g.records_skipped).1.more = true
    · have hlt : (pending q).length + 1 ≤ fuel := by
        rcases batch_progress F range_chrom range_beg range_end (pending p) [] 0 0
          g.records_skipped hact with h | h
        · rw [h.1] at hm; simp at hm
        · rw [hq2]; omega
      by_cases hl : (batch F range_chrom range_beg range_end (pending p) [] 0 0
          g.records_skipped).1.lines = 0
      · simp only [hl, ne_eq, not_true_eq_false, if_false, hm, if_true]
        exact ih _ q _ hq1 hlt
      · simp only [hl, ne_eq, not_false_eq_true, if_true, hnt, if_false, hm]
        exact ih _ q _ hq1 hlt
    · by_cases hl : (batch F range_chrom range_beg range_end (pending p) [] 0 0
          g.records_skipped).1.lines = 0
      · simp only [hl, ne_eq, not_true_eq_false, if_false, hm, Bool.false_eq_true]
        exact ⟨_, _, _, rfl⟩
      · simp only [hl, ne_eq, not_false_eq_true, if_true, hnt, if_false, hm,
          Bool.false_eq_true]
        exact ⟨_, _, _, rfl⟩

/-! ## Output paths -/

theorem parse_range_no_colon (range : Line) (hne : range ≠ []) (h : ':' ∉ range) :
    parse_range range = none := by
  have hlen : ¬ range.length = 0 := by simpa using hne
  have hf : find range ':' 0 = none := by
    simpa [find] using find_at_none ':' range h 0
  simp [parse_range, hlen, hf]

theorem parse_range_colon_first (rest : Line) : parse_range (':' :: rest) = none := by
  simp [parse_range, find, find_at]

/-- The `--range` parser on a string with a non-empty chromosome, a colon, a
non-empty begin field, a dash and an end field. -/
theorem parse_range_shape (chrom X Y : Line) (hc : chrom ≠ []) (hcc : ':' ∉ chrom)
    (hX : X ≠ []) (hXd : '-' ∉ X) :
    parse_range (chrom ++ ':' :: X ++ '-' :: Y) =
      if (strtoull (c_str X)).1 = 0 ∨ (strtoull (c_str Y)).1 < (strtoull (c_str X)).1 ∨
          (strtoull (c_str X)).2 = true ∨ (strtoull (c_str Y)).2 = true then none
      else some (chrom, (strtoull (c_str X)).1, (strtoull (c_str Y)).1) := by
  have hlen : ¬ (chrom ++ ':' :: X ++ '-' :: Y).length = 0 := by simp
  have hclen : 0 < chrom.length := List.length_pos.mpr hc
  have hxlen : 0 < X.length := List.length_pos.mpr hX
  have hf1 : find (chrom ++ ':' :: X ++ '-' :: Y) ':' 0 = some chrom.length := by
    have := find_at_append ':' chrom (X ++ '-' :: Y) hcc 0
    simpa [find] using this
  have hdrop0 : List.drop chrom.length (chrom ++ ':' :: X ++ '-' :: Y) =
      ':' :: (X ++ '-' :: Y) := by
    rw [List.append_assoc, List.drop_left]; simp
  have hdrop : List.drop (chrom.length + 1) (chrom ++ ':' :: X ++ '-' :: Y) =
      X ++ '-' :: Y := by
    rw [List.append_assoc, List.drop_append]; simp
  have hf2 : find (chrom ++ ':' :: X ++ '-' :: Y) '-' chrom.length =
      some (chrom.length + 1 + X.length) := by
    simp only [find, hdrop0]
    have hne : ¬ ':' = '-' := by decide
    simp only [find_at, hne, if_false]
    exact find_at_append '-' X Y hXd _
  have hs0 : substr (chrom ++ ':' :: X ++ '-' :: Y) 0 chrom.length = chrom := by
    simp only [substr, List.drop_zero, List.append_assoc, List.take_left]
  have hs1 : substr (chrom ++ ':' :: X ++ '-' :: Y) (chrom.length + 1)
      (chrom.length + 1 + X.length - chrom.length - 1) = X := by
    have hn : chrom.length + 1 + X.length - chrom.length - 1 = X.length := by omega
    simp only [substr, hdrop, hn, List.take_left]
  have hd2 : List.drop (chrom.length + 1 + X.length + 1) (chrom ++ ':' :: X ++ '-' :: Y) =
      Y := by
    have : chrom.length + 1 + X.length + 1 = chrom.length + 1 + (X.length + 1) := by omega
    rw [this, ← List.drop_drop, hdrop, List.drop_append]
    simp
  have hgt : chrom.length + 1 + X.length > chrom.length + 1 := by omega
  have hcl : ¬ chrom.length = 0 := by omega
  simp only [parse_range, hlen, if_false, hf1, hclen, gt_iff_lt, if_true, hf2, hs0, hs1, hd2]
  have hgt2 : chrom.length + 1 < chrom.length + 1 + X.length := hgt
  simp only [hgt2, if_true, hcl, decide_False, Bool.false_or, Nat.le_zero_eq,
    Bool.or_eq_true, decide_eq_true_eq]
  by_cases h1 : (strtoull (c_str X)).1 = 0
  · simp [h1]
  · by_cases h2 : (strtoull (c_str Y)).1 < (strtoull (c_str X)).1
    · simp [h2]
    · by_cases h3 : (strtoull (c_str X)).2 = true
      · simp [h3]
      · by_cases h4 : (strtoull (c_str Y)).2 = true
        · simp [h4]
        · simp [h1, h2, h3, h4]

/-- A run of `main` whose `--range` does not parse stops with the range
error, whatever is on standard input. -/
theorem main_range_error (F : Flags) ( dest_prefix : Line) (stdin : List Char) (fuel : Nat)
    (h : parse_range F.range = none) :
    main F (some dest_prefix) false stdin fuel = some .range_error := by
  simp [main, h]


/-! ## One call of `part` -/

/-- What a call of `part` that returns has done, in terms of the read loop on
the lines the source had left: it returns `more`, leaves the lines not taken,
and either found `lines` at zero and launched nothing, or launched one worker
with the buffer. -/
theorem part_facts (F : Flags) ( dest_prefix : Line) (part_num : Nat) (hdr : List Char)
    (range_chrom : Line) (range_beg range_end : Nat) (p q : linepeeker) (g g1 : Globals)
    (res : Except Exn Bool) (b : PartLocals × List Line × Nat) (hp : p.reachable)
    (hb : batch F range_chrom range_beg range_end (pending p) [] 0 0 g.records_skipped = b)
    (h : part F dest_prefix part_num hdr p range_chrom range_beg range_end g =
      some (res, q, g1)) :
    q.reachable ∧ pending q = b.2.1 ∧ res = .ok b.1.more ∧
      ((b.1.lines = 0 ∧ g1 = { g with records_skipped := b.2.2 }) ∨
        (b.1.lines ≠ 0 ∧ 0 < F.threads ∧
          g1 = { threads_launched := g.threads_launched + 1
                 records_read := g.records_read + b.1.lines
                 records_skipped := b.2.2
                 workers := g.workers ++ [⟨ dest_prefix, part_num, hdr, b.1.buf⟩] })) := by
  obtain ⟨q1, h1, h2, h3⟩ := part_eq F dest_prefix part_num hdr range_chrom range_beg
    range_end p g hp
  rw [h3] at h
  rw [hb] at h2
  simp only [part_on] at h
  rw [hb] at h
  by_cases hl : b.1.lines = 0
  · simp only [hl, ne_eq, not_true_eq_false, if_false, Option.map_some', Option.some.injEq,
      Prod.mk.injEq] at h
    obtain ⟨h4, h5, h6⟩ := h
    subst h5
    exact ⟨h1, h2, h4.symm, Or.inl ⟨hl, h6.symm⟩⟩
  · by_cases ht : F.threads ≤ 0
    · simp [hl, ht] at h
    · simp only [hl, ne_eq, not_false_eq_true, if_true, ht, if_false, Option.map_some',
        Option.some.injEq, Prod.mk.injEq] at h
      obtain ⟨h4, h5, h6⟩ := h
      subst h5
      exact ⟨h1, h2, h4.symm, Or.inr ⟨hl, by omega, h6.symm⟩⟩

/-- The counter `lines` after the read loop, started at zero on an empty
buffer, is the size of the buffer modulo `2 ^ 32`. -/
theorem batch_lines_mod (F : Flags) (range_chrom : Line) (range_beg range_end : Nat)
    (ls : List Line) (skipped : Nat) :
    (batch F range_chrom range_beg range_end ls [] 0 0 skipped).1.lines =
      (batch F range_chrom range_beg range_end ls [] 0 0 skipped).1.buf.length %
        4294967296 := by
  obtain ⟨c, _, h2, _, _, h5, _, _, h8⟩ := batch_facts F range_chrom range_beg range_end ls
    [] 0 0 skipped _ rfl
  have h9 := h8 (by decide)
  rw [h2]
  simp only [List.nil_append, Nat.zero_add] at h5 ⊢
  rw [← h5]
  exact (Nat.mod_eq_of_lt h9).symm

/-- A batch that is dispatched is not empty. -/
theorem batch_nonempty_of_lines (F : Flags) (range_chrom : Line) (range_beg range_end : Nat)
    (ls : List Line) (skipped : Nat)
    (h : (batch F range_chrom range_beg range_end ls [] 0 0 skipped).1.lines ≠ 0) :
    (batch F range_chrom range_beg range_end ls [] 0 0 skipped).1.buf ≠ [] := by
  intro e
  apply h
  rw [batch_lines_mod, e]
  rfl


/-! ## Induction over the calls of the driver loop -/

/-- A property of the states before and after the driver loop holds for every
finished run on a reachable line source when it holds for a last call of
`part` (one that returns `false`) and is carried back over a call that
returns `true`. -/
theorem part_driver_ind (F : Flags) ( dest_prefix : Line) (hdr : List Char)
    (range_chrom : Line) (range_beg range_end : Nat)
    (P : Nat → linepeeker → Globals → Nat → linepeeker → Globals → Prop)
    (hlast : ∀ (pn : Nat) (p q : linepeeker) (g g1 : Globals), p.reachable →
      part F dest_prefix pn hdr p range_chrom range_beg range_end g =
        some (.ok false, q, g1) → P pn p g (pn + 1) q g1)
    (hstep : ∀ (pn n : Nat) (p q q2 : linepeeker) (g g1 g2 : Globals), p.reachable →
      part F dest_prefix pn hdr p range_chrom range_beg range_end g =
        some (.ok true, q, g1) → P (pn + 1) q g1 n q2 g2 → P pn p g n q2 g2) :
    ∀ (fuel pn : Nat) (p : linepeeker) (g : Globals) (r : Except Exn Nat) (q : linepeeker)
      (g1 : Globals), p.reachable →
      part_driver F dest_prefix hdr range_chrom range_beg range_end fuel pn p g =
        some (r, q, g1) →
      ∃ n, r = .ok n ∧ P pn p g n q g1 := by
  intro fuel
  induction fuel with
  | zero => intro pn p g r q g1 _ h; simp [part_driver] at h
  | succ fuel ih =>
    intro pn p g r q g1 hp h
    simp only [part_driver] at h
    cases hpart : part F dest_prefix pn hdr p range_chrom range_beg range_end g with
    | none => simp [hpart] at h
    | some x =>
      obtain ⟨res, q1, g2⟩ := x
      obtain ⟨hq1, _, hres, _⟩ := part_facts F dest_prefix pn hdr range_chrom range_beg
        range_end p q1 g g2 res _ hp rfl hpart
      subst hres
      simp only [hpart] at h
      by_cases hm : (batch F range_chrom range_beg range_end (pending p) [] 0 0
          g.records_skipped).1.more = true
      · rw [hm] at hpart
        simp only [hm, if_true] at h
        obtain ⟨n, hn, hP⟩ := ih (pn + 1) q1 g2 r q g1 hq1 h
        exact ⟨n, hn, hstep pn n p q1 q g g2 g1 hp hpart hP⟩
      · have hm2 : (batch F range_chrom range_beg range_end (pending p) [] 0 0
            g.records_skipped).1.more = false := by simpa using hm
        rw [hm2] at hpart
        simp only [hm2, Bool.false_eq_true, if_false, Option.some.injEq, Prod.mk.injEq] at h
        obtain ⟨h1, h2, h3⟩ := h
        subst h2; subst h3
        exact ⟨pn + 1, h1.symm, hlast pn p q1 g g2 hp hpart⟩


/-! ## Record accounting -/

/-- One call of `part`, while the counter `lines` cannot wrap: the lines it
takes from the line source are added to `records_read` or to
`records_skipped`; a call that returns `false` has emptied the source. -/
theorem part_accounting (F : Flags) ( dest_prefix : Line) (part_num : Nat) (hdr : List Char)
    (range_chrom : Line) (range_beg range_end : Nat) (p q : linepeeker) (g g1 : Globals)
    (res : Except Exn Bool) (hp : p.reachable)
    (hw : (F.MB ≤ 0 ∧ F.lines ≤ 2147483647) ∨
      (kept range_chrom range_beg range_end (pending p)).length < 4294967296)
    (h : part F dest_prefix part_num hdr p range_chrom range_beg range_end g =
      some (res, q, g1)) :
    g1.records_read + g1.records_skipped + (pending q).length =
        g.records_read + g.records_skipped + (pending p).length ∧
      ((F.MB ≤ 0 ∧ F.lines ≤ 2147483647) ∨
        (kept range_chrom range_beg range_end (pending q)).length < 4294967296) ∧
      (res = .ok false → pending q = []) := by
  obtain ⟨_, h2, h3, h4⟩ := part_facts F dest_prefix part_num hdr range_chrom range_beg
    range_end p q g g1 res _ hp rfl h
  obtain ⟨c, hc1, hc2, hc3, _, _, hc6, _, _⟩ := batch_facts F range_chrom range_beg range_end
    (pending p) [] 0 0 g.records_skipped _ rfl
  have hex := batch_lines_exact F range_chrom range_beg range_end (pending p) [] 0 0
    g.records_skipped (by
      rcases hw with hw | hw
      · left; exact ⟨hw.1, hw.2, by decide⟩
      · right; simpa using hw) rfl
  have hlen := congrArg List.length hc1
  have hblen := congrArg List.length hc2
  simp only [List.length_append, List.nil_append] at hlen hblen
  refine ⟨?_, ?_, ?_⟩
  · rw [h2]
    rcases h4 with ⟨hl, hg⟩ | ⟨hl, _, hg⟩
    · rw [hg]; simp only; omega
    · rw [hg]; simp only; omega
  · rcases hw with hw | hw
    · left; exact hw
    · right
      rw [hc1, kept_append] at hw
      rw [h2]
      simp at hw; omega
  · intro hres
    rw [h3] at hres
    simp only [Except.ok.injEq] at hres
    rw [h2]
    exact hc6 hres

/-- Record accounting over a finished run of the driver loop, while the
counter `lines` cannot wrap: every line the source had left has been counted
in `records_read` or in `records_skipped`, and the source is empty. -/
theorem part_driver_accounting (F : Flags) ( dest_prefix : Line) (hdr : List Char)
    (range_chrom : Line) (range_beg range_end : Nat) (fuel pn : Nat) (p : linepeeker)
    (g : Globals) (r : Except Exn Nat) (q : linepeeker) (g1 : Globals) (hp : p.reachable)
    (hw : (F.MB ≤ 0 ∧ F.lines ≤ 2147483647) ∨
      (kept range_chrom range_beg range_end (pending p)).length < 4294967296)
    (h : part_driver F dest_prefix hdr range_chrom range_beg range_end fuel pn p g =
      some (r, q, g1)) :
    g1.records_read + g1.records_skipped =
        g.records_read + g.records_skipped + (pending p).length ∧
      pending q = [] := by
  obtain ⟨n, _, hP⟩ := part_driver_ind F dest_prefix hdr range_chrom range_beg range_end
    (fun _ p g _ q g1 =>
      ((F.MB ≤ 0 ∧ F.lines ≤ 2147483647) ∨
        (kept range_chrom range_beg range_end (pending p)).length < 4294967296) →
      g1.records_read + g1.records_skipped =
          g.records_read + g.records_skipped + (pending p).length ∧
        pending q = [])
    (by
      intro pn p q g g1 hp hpart hw
      obtain ⟨h1, _, h3⟩ := part_accounting F dest_prefix pn hdr range_chrom range_beg
        range_end p q g g1 _ hp hw hpart
      have h4 := h3 rfl
      rw [h4] at h1
      exact ⟨by simpa using h1, h4⟩)
    (by
      intro pn n p q q2 g g1 g2 hp hpart hP hw
      obtain ⟨h1, h2, _⟩ := part_accounting F dest_prefix pn hdr range_chrom range_beg
        range_end p q g g1 _ hp hw hpart
      obtain ⟨h5, h6⟩ := hP h2
      exact ⟨by omega, h6⟩)
    fuel pn p g r q g1 hp h
  exact hP hw


/-! ## Batches of `2 ^ 32` lines and more -/

theorem writer_thread_ct (F : Flags) (w : WriterCall) :
    (writer_thread F w).ct = w.buf.length := by
  have h : ∀ (buf : List Line) (n : Nat),
      buf.foldl (fun ct _ => ct + 1) n = n + buf.length := by
    intro buf
    induction buf with
    | nil => intro n; simp
    | cons l ls ih => intro n; simp only [List.foldl_cons, ih, List.length_cons]; omega
  simp only [writer_thread, h, Nat.zero_add]

theorem lines_of_newlines_append (n : Nat) (rest : List Char) :
    lines_of (List.replicate n '\n' ++ rest) = List.replicate n [] ++ lines_of rest := by
  induction n with
  | zero => simp
  | succ n ih => simp [List.replicate_succ, lines_of, ih]

/-- The read loop in byte mode on `k` empty lines that fit under the
threshold, followed by other lines: the empty lines are all taken and the
loop goes on with the other lines. -/
theorem batch_newlines_append (F : Flags) (range_beg range_end : Nat) (hMB : F.MB > 0)
    (rest : List Line) (k : Nat) :
    ∀ (buf : List Line) (lines bytes skipped : Nat),
      bytes + k ≤ F.MB.toNat * 1048576 → lines < 4294967296 →
      batch F [] range_beg range_end (List.replicate k [] ++ rest) buf lines bytes skipped =
        batch F [] range_beg range_end rest (buf ++ List.replicate k [])
          ((lines + k) % 4294967296) (bytes + k) skipped := by
  induction k with
  | zero =>
    intro buf lines bytes skipped _ hl
    simp [Nat.mod_eq_of_lt hl]
  | succ k ih =>
    intro buf lines bytes skipped hb hl
    have hnf : part_finished F (toInt32 lines) bytes = false := by
      simp [part_finished, hMB]; omega
    have hin : in_range [] [] range_beg range_end = true := by simp [in_range]
    simp only [List.replicate_succ, List.cons_append, batch, hnf, hin, Bool.false_eq_true,
      if_false, Bool.not_true]
    have hih := ih (buf ++ [[]]) ((lines + 1) % 4294967296) (bytes + (([] : Line).length + 1))
      skipped (by simp; omega) (Nat.mod_lt _ (by decide))
    have h1 : buf ++ [[]] ++ List.replicate k [] = buf ++ [] :: List.replicate k [] := by simp
    have h2 : ((lines + 1) % 4294967296 + k) % 4294967296 =
        (lines + (k + 1)) % 4294967296 := by omega
    have h3 : bytes + (([] : Line).length + 1) + k = bytes + (k + 1) := by simp; omega
    rw [h1, h2, h3] at hih
    exact hih

/-- In byte mode, when the line source has `n` empty lines left, fewer than
the threshold has bytes, the driver loop puts them all in one batch; when `n`
is not a multiple of `2 ^ 32` it launches a worker with these `n` lines and
adds `n` modulo `2 ^ 32` to `records_read`. -/
theorem byte_mode_long_batch (F : Flags) ( dest_prefix : Line) (hdr : List Char)
    (range_beg range_end : Nat) (n part_num : Nat) (p : linepeeker) (g : Globals)
    (hMB : F.MB > 0) (hn : n < F.MB.toNat * 1048576) (hmod : n % 4294967296 ≠ 0)
    (ht : 1 ≤ F.threads) (hp : p.reachable) (hpend : pending p = List.replicate n []) :
    ∃ q, part_driver F dest_prefix hdr [] range_beg range_end 1 part_num p g =
      some (.ok (part_num + 1), q,
        { threads_launched := g.threads_launched + 1
          records_read := g.records_read + n % 4294967296
          records_skipped := g.records_skipped
          workers := g.workers ++ [⟨ dest_prefix, part_num, hdr, List.replicate n []⟩] }) := by
  obtain ⟨q1, _, _, h3⟩ := part_driver_succ F dest_prefix hdr [] range_beg range_end 0
    part_num p g hp
  have hb := batch_newlines F range_beg range_end hMB n [] 0 0 g.records_skipped
    (by omega) (by decide)
  have hnt : ¬ F.threads ≤ 0 := by omega
  have hge : ¬ n ≥ F.MB.toNat * 1048576 := by omega
  refine ⟨q1, ?_⟩
  rw [h3, hpend]
  simp only [part_on, hb, Nat.zero_add, hmod, ne_eq, not_false_eq_true, if_true, hnt, if_false,
    hge, decide_False, Bool.false_eq_true, List.nil_append]

/-- In byte mode, when the threshold `n` is a multiple of `2 ^ 32` and the
line source has `n` empty lines and then the line `x` left, the first call of
`part` launches nothing and the second launches the worker for `x`, with the
part number after the one the first call was given. -/
theorem byte_mode_skips_index (F : Flags) ( dest_prefix : Line) (hdr : List Char)
    (range_beg range_end : Nat) (n part_num : Nat) (p : linepeeker) (g : Globals)
    (hMB : F.MB > 0) (hn : F.MB.toNat * 1048576 = n) (hmod : n % 4294967296 = 0)
    (ht : 1 ≤ F.threads) (hp : p.reachable)
    (hpend : pending p = List.replicate n [] ++ [['x']]) :
    ∃ q, part_driver F dest_prefix hdr [] range_beg range_end 2 part_num p g =
      some (.ok (part_num + 2), q,
        { threads_launched := g.threads_launched + 1
          records_read := g.records_read + 1
          records_skipped := g.records_skipped
          workers := g.workers ++ [⟨ dest_prefix, part_num + 1, hdr, [['x']]⟩] }) := by
  have hbig : 2 < F.MB.toNat * 1048576 := by omega
  obtain ⟨q1, h1, h2, h3⟩ := part_driver_succ F dest_prefix hdr [] range_beg range_end 1
    part_num p g hp
  have hfin : part_finished F (toInt32 0) n = true := by
    simp [part_finished, hMB, hn]
  have hb : batch F [] range_beg range_end (List.replicate n [] ++ [['x']]) [] 0 0
      g.records_skipped =
      ({ buf := List.replicate n [], lines := 0, bytes := n, more := true }, [['x']],
        g.records_skipped) := by
    rw [batch_newlines_append F range_beg range_end hMB [['x']] n [] 0 0 g.records_skipped
      (by omega) (by decide)]
    simp only [batch, Nat.zero_add, hfin, if_true, List.nil_append, hmod]
  rw [hpend, hb] at h2
  obtain ⟨q2, _, _, h6⟩ := part_driver_succ F dest_prefix hdr [] range_beg range_end 0
    (part_num + 1) q1 g h1
  have hnt : ¬ F.threads ≤ 0 := by omega
  refine ⟨q2, ?_⟩
  rw [h3, hpend]
  simp only [part_on, hb, ne_eq, not_true_eq_false, if_false, if_true]
  rw [h6, h2]
  have hnf0 : part_finished F (toInt32 0) 0 = false := by
    simp [part_finished, hMB]
  have hnf1 : part_finished F (toInt32 (1 % 4294967296)) 2 = false := by
    simp [part_finished, hMB]; omega
  have hin : in_range ['x'] [] range_beg range_end = true := by simp [in_range]
  simp [part_on, batch, hnf0, hnf1, hin, hnt]


theorem record_lines_after_header (rest : List Char) (l : Line) (ls : List Line)
    (h : lines_of rest = l :: ls) (hl : is_header_line l = false) :
    record_lines ('#' :: 'h' :: '\n' :: rest) = l :: ls ∧
      header_lines ('#' :: 'h' :: '\n' :: rest) = [['#', 'h']] := by
  have h1 : lines_of ('#' :: 'h' :: '\n' :: rest) = ['#', 'h'] :: l :: ls := by
    simp [lines_of, h]
  unfold record_lines header_lines
  rw [h1]
  simp [is_header_line, List.dropWhile_cons, List.takeWhile_cons] at hl ⊢
  simp [hl]

/-- With byte mode at a threshold above `n`, on an input of one header line
and `n` empty record lines, where `n` is at least `2 ^ 32` and not a multiple
of it: the driver loop launches one worker with all `n` lines, adds `n`
modulo `2 ^ 32` to `records_read`, and `main` ends in its "BUG!!!" branch. -/
theorem header_then_long_batch (F : Flags) ( dest_prefix : Line) (n : Nat)
    (hMB : F.MB > 0) (hn : n < F.MB.toNat * 1048576) (hmod : n % 4294967296 ≠ 0)
    (hbig : n % 4294967296 ≠ n) (ht : 1 ≤ F.threads) (hr : F.range = []) :
    ∃ input q,
      read_header (linepeeker.mk_from (cin ('#' :: 'h' :: '\n' :: List.replicate n '\n'))) =
        some (.ok ['#', 'h', '\n'], input) ∧
      part_driver F dest_prefix ['#', 'h', '\n'] [] ULLONG_MAX ULLONG_MAX 1 0 input
          Globals.init =
        some (.ok 1, q,
          { threads_launched := 1, records_read := n % 4294967296, records_skipped := 0
            workers := [⟨ dest_prefix, 0, ['#', 'h', '\n'], List.replicate n []⟩] }) ∧
      main F (some dest_prefix) false ('#' :: 'h' :: '\n' :: List.replicate n '\n') 1 =
        some (.bug
          { threads_launched := 1, records_read := n % 4294967296, records_skipped := 0
            workers := [⟨ dest_prefix, 0, ['#', 'h', '\n'], List.replicate n []⟩] }
          [writer_thread F ⟨ dest_prefix, 0, ['#', 'h', '\n'], List.replicate n []⟩]) := by
  cases n with
  | zero => simp at hmod
  | succ m =>
    obtain ⟨hrec, hhead⟩ := record_lines_after_header (List.replicate (m + 1) '\n') []
      (List.replicate m []) (by rw [lines_of_newlines, List.replicate_succ]) (by decide)
    obtain ⟨input, h1, h2, _, _, h5⟩ := read_header_cin_ok
      ('#' :: 'h' :: '\n' :: List.replicate (m + 1) '\n') [] (List.replicate m []) hrec
    have hhdr : terminated (header_lines ('#' :: 'h' :: '\n' :: List.replicate (m + 1) '\n')) =
        ['#', 'h', '\n'] := by
      rw [hhead]; simp [terminated]
    rw [hhdr] at h1
    obtain ⟨q, hq⟩ := byte_mode_long_batch F dest_prefix ['#', 'h', '\n'] ULLONG_MAX
      ULLONG_MAX (m + 1) 0 input Globals.init hMB hn hmod ht h2
      (by rw [h5, List.replicate_succ])
    simp only [Globals.init, Nat.zero_add, List.nil_append] at hq
    refine ⟨input, q, h1, hq, ?_⟩
    have hct := writer_thread_ct F ⟨ dest_prefix, 0, ['#', 'h', '\n'], List.replicate (m + 1) []⟩
    simp only [List.length_replicate] at hct
    simp only [main, hr, parse_range, List.length_nil, if_true, Bool.false_eq_true, if_false,
      h1, Globals.init, hq, List.map_cons, List.map_nil, List.length_singleton, List.sum_cons,
      List.sum_nil, Nat.add_zero, hct]
    simp [hbig]

/-- With byte mode at a threshold `n` that is a multiple of `2 ^ 32`, on an
input of one header line, `n` empty record lines and the record line `x`: the
driver loop ends after two calls of `part`, the only worker launched is the
one for `x`, and it is given part number 1; `main` returns 0. -/
theorem header_then_skipped_index (F : Flags) ( dest_prefix : Line) (n : Nat)
    (hMB : F.MB > 0) (hn : F.MB.toNat * 1048576 = n) (hmod : n % 4294967296 = 0)
    (ht : 1 ≤ F.threads) (hr : F.range = []) :
    ∃ input q,
      read_header (linepeeker.mk_from
          (cin ('#' :: 'h' :: '\n' :: (List.replicate n '\n' ++ ['x', '\n'])))) =
        some (.ok ['#', 'h', '\n'], input) ∧
      part_driver F dest_prefix ['#', 'h', '\n'] [] ULLONG_MAX ULLONG_MAX 2 0 input
          Globals.init =
        some (.ok 2, q,
          { threads_launched := 1, records_read := 1, records_skipped := 0
            workers := [⟨ dest_prefix, 1, ['#', 'h', '\n'], [['x']]⟩] }) ∧
      main F (some dest_prefix) false
          ('#' :: 'h' :: '\n' :: (List.replicate n '\n' ++ ['x', '\n'])) 2 =
        some (.success 2 ['#', 'h', '\n']
          { threads_launched := 1, records_read := 1, records_skipped := 0
            workers := [⟨ dest_prefix, 1, ['#', 'h', '\n'], [['x']]⟩] }
          [writer_thread F ⟨ dest_prefix, 1, ['#', 'h', '\n'], [['x']]⟩]) := by
  cases n with
  | zero => omega
  | succ m =>
    have hl : lines_of (List.replicate (m + 1) '\n' ++ ['x', '\n']) =
        [] :: (List.replicate m [] ++ [['x']]) := by
      rw [lines_of_newlines_append, List.replicate_succ]
      simp [lines_of]
    obtain ⟨hrec, hhead⟩ := record_lines_after_header
      (List.replicate (m + 1) '\n' ++ ['x', '\n']) [] (List.replicate m [] ++ [['x']]) hl
      (by decide)
    obtain ⟨input, h1, h2, _, _, h5⟩ := read_header_cin_ok
      ('#' :: 'h' :: '\n' :: (List.replicate (m + 1) '\n' ++ ['x', '\n'])) []
      (List.replicate m [] ++ [['x']]) hrec
    have hhdr : terminated (header_lines
        ('#' :: 'h' :: '\n' :: (List.replicate (m + 1) '\n' ++ ['x', '\n']))) =
        ['#', 'h', '\n'] := by
      rw [hhead]; simp [terminated]
    rw [hhdr] at h1
    obtain ⟨q, hq⟩ := byte_mode_skips_index F dest_prefix ['#', 'h', '\n'] ULLONG_MAX
      ULLONG_MAX (m + 1) 0 input Globals.init hMB hn hmod ht h2
      (by rw [h5, List.replicate_succ]; simp)
    simp only [Globals.init, Nat.zero_add, List.nil_append] at hq
    refine ⟨input, q, h1, hq, ?_⟩
    have hct := writer_thread_ct F ⟨ dest_prefix, 1, ['#', 'h', '\n'], [['x']]⟩
    simp only [List.length_singleton] at hct
    simp only [main, hr, parse_range, List.length_nil, if_true, Bool.false_eq_true, if_false,
      h1, Globals.init, hq, List.map_cons, List.map_nil, List.length_singleton, List.sum_cons,
      List.sum_nil, Nat.add_zero, hct]
    simp


/-! ## The pool of worker threads -/

theorem sum_length_eraseIdx (l : List (List Line)) :
    ∀ (i : Nat) (buf : List Line), l[i]? = some buf →
      (l.map List.length).sum = ((l.eraseIdx i).map List.length).sum + buf.length ∧
      l.length = (l.eraseIdx i).length + 1 := by
  induction l with
  | nil => intro i buf h; simp at h
  | cons x xs ih =>
    intro i buf h
    cases i with
    | zero =>
      simp only [List.getElem?_cons_zero, Option.some.injEq] at h
      subst h
      simp only [List.eraseIdx_cons_zero, List.map_cons, List.sum_cons, List.length_cons]
      constructor
      · exact Nat.add_comm _ _
      · trivial
    | succ i =>
      simp only [List.getElem?_cons_succ] at h
      obtain ⟨h1, h2⟩ := ih i buf h
      simp only [List.eraseIdx_cons_succ, List.map_cons, List.sum_cons, List.length_cons]
      constructor
      · rw [h1]; exact (Nat.add_assoc _ _ _).symm
      · rw [h2]

/-- One step of the pool keeps the counters of threads consistent:
`launched = completed + active`, `active` is the number of running workers,
and it is at most `FLAGS_threads` unless it is zero. -/
theorem pool_exec_counters (T : Int) (s t : Pool) (e : PoolEvent)
    (h : Pool.exec T s e = some t)
    (hinv : s.threads_launched = s.threads_completed + s.threads_active ∧
      s.threads_active = (s.running.length : Int) ∧
      (s.threads_active ≤ T ∨ s.threads_active = 0)) :
    t.threads_launched = t.threads_completed + t.threads_active ∧
      t.threads_active = (t.running.length : Int) ∧
      (t.threads_active ≤ T ∨ t.threads_active = 0) := by
  obtain ⟨h1, h2, h3⟩ := hinv
  cases e with
  | read lines buf =>
    simp only [Pool.exec] at h
    split at h
    · simp only [Option.some.injEq] at h
      subst h
      exact ⟨h1, h2, h3⟩
    · simp at h
  | launch =>
    simp only [Pool.exec] at h
    cases hw : s.waiting with
    | none => simp [hw] at h
    | some buf =>
      simp only [hw] at h
      split at h
      · rename_i hlt
        simp only [Option.some.injEq] at h
        subst h
        simp only [List.length_append, List.length_singleton, Nat.cast_add, Nat.cast_one]
        exact ⟨by omega, by omega, Or.inl (by omega)⟩
      · simp at h
  | finish i =>
    simp only [Pool.exec, List.get?_eq_getElem?] at h
    cases hg : s.running[i]? with
    | none => simp [hg] at h
    | some buf =>
      simp only [hg, Option.some.injEq] at h
      subst h
      have h4 := (sum_length_eraseIdx s.running i buf hg).2
      simp only
      refine ⟨by omega, by omega, ?_⟩
      rcases h3 with h3 | h3
      · left; omega
      · omega

/-- One step of the pool, with a batch of fewer than `2 ^ 32` lines when it
is a `read`, keeps `records_read` equal to `records_written` plus the sizes
of the buffers held by `part` and by the running workers. -/
theorem pool_exec_records (T : Int) (s t : Pool) (e : PoolEvent)
    (h : Pool.exec T s e = some t)
    (hsmall : ∀ lines buf, e = .read lines buf → buf.length < 4294967296)
    (hinv : s.records_read = s.records_written + (s.running.map List.length).sum +
      (match s.waiting with | none => 0 | some b => b.length)) :
    t.records_read = t.records_written + (t.running.map List.length).sum +
      (match t.waiting with | none => 0 | some b => b.length) := by
  cases e with
  | read lines buf =>
    simp only [Pool.exec] at h
    split at h
    · rename_i hc
      obtain ⟨hc1, _, hc3⟩ := hc
      simp only [Option.some.injEq] at h
      subst h
      have hlt := hsmall lines buf rfl
      have hw : s.waiting = none := by
        cases hws : s.waiting with
        | none => rfl
        | some b => rw [hws] at hc1; simp at hc1
      rw [hw] at hinv
      simp only at hinv ⊢
      rw [Nat.mod_eq_of_lt hlt] at hc3
      omega
    · simp at h
  | launch =>
    simp only [Pool.exec] at h
    cases hw : s.waiting with
    | none => simp [hw] at h
    | some buf =>
      simp only [hw] at h hinv
      split at h
      · simp only [Option.some.injEq] at h
        subst h
        simp only [List.map_append, List.map_cons, List.map_nil, List.sum_append, List.sum_cons,
          List.sum_nil]
        omega
      · simp at h
  | finish i =>
    simp only [Pool.exec, List.get?_eq_getElem?] at h
    cases hg : s.running[i]? with
    | none => simp [hg] at h
    | some buf =>
      simp only [hg, Option.some.injEq] at h
      subst h
      have h4 := (sum_length_eraseIdx s.running i buf hg).1
      simp only
      omega

/-- The pool invariants over a sequence of steps from the initial pool, all
of whose batches have fewer than `2 ^ 32` lines: the thread counters are
consistent, and when no worker is active and `part` holds no batch,
`launched = completed` and `records_read = records_written`. -/
theorem pool_run_invariant (T : Int) (evs : List PoolEvent) :
    ∀ (s t : Pool), Pool.run T s evs = some t →
      (s.threads_launched = s.threads_completed + s.threads_active ∧
        s.threads_active = (s.running.length : Int) ∧
        (s.threads_active ≤ T ∨ s.threads_active = 0)) →
      (t.threads_launched = t.threads_completed + t.threads_active ∧
          t.threads_active = (t.running.length : Int) ∧
          (t.threads_active ≤ T ∨ t.threads_active = 0)) ∧
        ((∀ lines buf, PoolEvent.read lines buf ∈ evs → buf.length < 4294967296) →
          s.records_read = s.records_written + (s.running.map List.length).sum +
            (match s.waiting with | none => 0 | some b => b.length) →
          t.records_read = t.records_written + (t.running.map List.length).sum +
            (match t.waiting with | none => 0 | some b => b.length)) := by
  induction evs with
  | nil =>
    intro s t h hinv
    simp only [Pool.run, Option.some.injEq] at h
    subst h
    exact ⟨hinv, fun _ hr => hr⟩
  | cons e es ih =>
    intro s t h hinv
    simp only [Pool.run] at h
    cases he : Pool.exec T s e with
    | none => simp [he] at h
    | some u =>
      simp only [he] at h
      have hu := pool_exec_counters T s u e he hinv
      obtain ⟨h1, h2⟩ := ih u t h hu
      refine ⟨h1, ?_⟩
      intro hsmall hr
      apply h2 (fun lines buf hm => hsmall lines buf (by simp [hm]))
      exact pool_exec_records T s u e he
        (fun lines buf hm => hsmall lines buf (by simp [hm])) hr

/-- The pool after a batch is read, launched and finished. -/
theorem pool_run_one_batch (T : Int) (lines : Nat) (buf : List Line) (hT : 0 < T)
    (hl : lines ≠ 0) (hb : lines = buf.length % 4294967296) :
    Pool.run T Pool.init [.read lines buf, .launch, .finish 0] =
      some { threads_launched := 1, threads_completed := 1, threads_active := 0,
             records_read := lines, records_written := buf.length, waiting := none,
             running := [] } := by
  simp [Pool.run, Pool.exec, Pool.init, hT, hl, ← hb]


/-! ## Dispatched batches and their part numbers -/

/-- Every worker the driver loop launches is given a buffer with at least one
line. -/
theorem part_driver_nonempty (F : Flags) ( dest_prefix : Line) (hdr : List Char)
    (range_chrom : Line) (range_beg range_end : Nat) (fuel pn : Nat) (p : linepeeker)
    (g : Globals) (r : Except Exn Nat) (q : linepeeker) (g1 : Globals) (hp : p.reachable)
    (h : part_driver F dest_prefix hdr range_chrom range_beg range_end fuel pn p g =
      some (r, q, g1)) :
    ∀ w ∈ g1.workers, w ∈ g.workers ∨ w.buf ≠ [] := by
  have hpart : ∀ (pn : Nat) (p q : linepeeker) (g g1 : Globals) (res : Except Exn Bool),
      p.reachable →
      part F dest_prefix pn hdr p range_chrom range_beg range_end g = some (res, q, g1) →
      ∀ w ∈ g1.workers, w ∈ g.workers ∨ w.buf ≠ [] := by
    intro pn p q g g1 res hp hpart w hw
    obtain ⟨_, _, _, h4⟩ := part_facts F dest_prefix pn hdr range_chrom range_beg range_end
      p q g g1 res _ hp rfl hpart
    rcases h4 with ⟨_, hg⟩ | ⟨hl, _, hg⟩
    · rw [hg] at hw; exact Or.inl hw
    · rw [hg] at hw
      simp only [List.mem_append, List.mem_singleton] at hw
      rcases hw with hw | hw
      · exact Or.inl hw
      · right
        rw [hw]
        exact batch_nonempty_of_lines F range_chrom range_beg range_end _ _ hl
  obtain ⟨n, _, hP⟩ := part_driver_ind F dest_prefix hdr range_chrom range_beg range_end
    (fun _ _ g _ _ g1 => ∀ w ∈ g1.workers, w ∈ g.workers ∨ w.buf ≠ [])
    (fun pn p q g g1 hp hpt => hpart pn p q g g1 _ hp hpt)
    (by
      intro pn n p q q2 g g1 g2 hp hpt hP w hw
      rcases hP w hw with h1 | h1
      · exact hpart pn p q g g1 _ hp hpt w h1
      · exact Or.inr h1)
    fuel pn p g r q g1 hp h
  exact hP

/-- When the cutoff is already reached by an empty batch (`MB <= 0` and
`lines <= 0`), a call of `part` reads nothing and returns `true` with the
line source and the globals as they were. -/
theorem part_no_progress (F : Flags) ( dest_prefix : Line) (pn : Nat) (hdr : List Char)
    (range_chrom : Line) (range_beg range_end : Nat) (p : linepeeker) (g : Globals)
    (hfin : part_finished F (toInt32 0) 0 = true) :
    part F dest_prefix pn hdr p range_chrom range_beg range_end g = some (.ok true, p, g) := by
  simp [part, part_loop, hfin]

/-- When the cutoff is already reached by an empty batch, the driver loop
does not end, whatever the number of calls it is allowed. -/
theorem part_driver_never_ends (F : Flags) ( dest_prefix : Line) (hdr : List Char)
    (range_chrom : Line) (range_beg range_end : Nat)
    (hfin : part_finished F (toInt32 0) 0 = true) :
    ∀ (fuel pn : Nat) (p : linepeeker) (g : Globals),
      part_driver F dest_prefix hdr range_chrom range_beg range_end fuel pn p g = none := by
  intro fuel
  induction fuel with
  | zero => intro pn p g; simp [part_driver]
  | succ fuel ih =>
    intro pn p g
    simp only [part_driver,
      part_no_progress F dest_prefix pn hdr range_chrom range_beg range_end p g hfin, if_true]
    exact ih _ _ _

/-- When the cutoff is not reached by an empty batch and a worker thread is
allowed, a call of `part` returns, and it has taken a line from the source
unless it returns `false`. -/
theorem part_progress (F : Flags) ( dest_prefix : Line) (pn : Nat) (hdr : List Char)
    (range_chrom : Line) (range_beg range_end : Nat) (p : linepeeker) (g : Globals)
    (hp : p.reachable) (hact : part_finished F (toInt32 0) 0 = false) (ht : 1 ≤ F.threads) :
    ∃ more q g1,
      part F dest_prefix pn hdr p range_chrom range_beg range_end g = some (.ok more, q, g1) ∧
      q.reachable ∧ (more = false ∨ (pending q).length < (pending p).length) := by
  obtain ⟨q, h1, h2, h3⟩ := part_eq F dest_prefix pn hdr range_chrom range_beg range_end p g hp
  have hnt : ¬ F.threads ≤ 0 := by omega
  have hprog := batch_progress F range_chrom range_beg range_end (pending p) [] 0 0
    g.records_skipped hact
  have hq : (batch F range_chrom range_beg range_end (pending p) [] 0 0
      g.records_skipped).1.more = false ∨ (pending q).length < (pending p).length := by
    rcases hprog with h | h
    · exact Or.inl h.1
    · right; rw [h2]; exact h
  rw [h3]
  simp only [part_on]
  by_cases hl : (batch F range_chrom range_beg range_end (pending p) [] 0 0
      g.records_skipped).1.lines = 0
  · simp only [hl, ne_eq, not_true_eq_false, if_false, Option.map_some']
    exact ⟨_, q, _, rfl, h1, hq⟩
  · simp only [hl, ne_eq, not_false_eq_true, if_true, hnt, if_false, Option.map_some']
    exact ⟨_, q, _, rfl, h1, hq⟩

/-- When the cutoff is not reached by an empty batch and a worker thread is
allowed, the driver loop ends after at most one call of `part` per line left
in the source, plus one. -/
theorem part_driver_terminates_within (F : Flags) ( dest_prefix : Line) (hdr : List Char)
    (range_chrom : Line) (range_beg range_end : Nat)
    (hact : part_finished F (toInt32 0) 0 = false) (ht : 1 ≤ F.threads) :
    ∀ (fuel part_num : Nat) (p : linepeeker) (g : Globals),
      p.reachable → (pending p).length + 1 ≤ fuel →
      ∃ n q g1,
        part_driver F dest_prefix hdr range_chrom range_beg range_end fuel part_num p g =
          some (.ok n, q, g1) ∧
        n ≤ part_num + (pending p).length + 1 := by
  intro fuel
  induction fuel with
  | zero => intro part_num p g _ hf; omega
  | succ fuel ih =>
    intro part_num p g hp hf
    obtain ⟨more, q, g1, h1, h2, h3⟩ := part_progress F dest_prefix part_num hdr range_chrom
      range_beg range_end p g hp hact ht
    simp only [part_driver, h1]
    cases more with
    | false => exact ⟨_, _, _, rfl, by omega⟩
    | true =>
      have hlt : (pending q).length < (pending p).length := by
        rcases h3 with h | h
        · simp at h
        · exact h
      obtain ⟨n, q2, g2, h4, h5⟩ := ih (part_num + 1) q g1 h2 (by omega)
      simp only [if_true]
      exact ⟨n, q2, g2, h4, by omega⟩


/-! ## The pool as a relation of dispatch and finish steps -/

theorem pool_exec_launch_waiting (T : Int) (s t : Pool)
    (h : Pool.exec T s .launch = some t) : t.waiting = none := by
  simp only [Pool.exec] at h
  cases hw : s.waiting with
  | none => simp [hw] at h
  | some buf =>
    simp only [hw] at h
    split at h
    · simp only [Option.some.injEq] at h
      subst h
      rfl
    · simp at h

theorem pool_exec_finish_waiting (T : Int) (s t : Pool) (i : Nat)
    (h : Pool.exec T s (.finish i) = some t) : t.waiting = s.waiting := by
  simp only [Pool.exec, List.get?_eq_getElem?] at h
  cases hg : s.running[i]? with
  | none => simp [hg] at h
  | some buf =>
    simp only [hg, Option.some.injEq] at h
    subst h
    rfl

/-- One step of the two-step pool keeps the thread counters consistent and
leaves no batch waiting; when the batch of a `dispatch` has fewer than
`2 ^ 32` lines it keeps `records_read` equal to `records_written` plus the
sizes of the buffers held by the running workers. -/
theorem pool_step_invariant (T : Int) (s t : Pool) (e : PoolStep)
    (h : Pool.step T s e = some t)
    (hinv : s.threads_launched = s.threads_completed + s.threads_active ∧
      s.threads_active = (s.running.length : Int) ∧
      (s.threads_active ≤ T ∨ s.threads_active = 0) ∧ s.waiting = none) :
    (t.threads_launched = t.threads_completed + t.threads_active ∧
        t.threads_active = (t.running.length : Int) ∧
        (t.threads_active ≤ T ∨ t.threads_active = 0) ∧ t.waiting = none) ∧
      ((∀ lines buf, e = .dispatch lines buf → buf.length < 4294967296) →
        s.records_read = s.records_written + (s.running.map List.length).sum →
        t.records_read = t.records_written + (t.running.map List.length).sum) := by
  obtain ⟨h1, h2, h3, h4⟩ := hinv
  cases e with
  | dispatch lines buf =>
    simp only [Pool.step] at h
    split at h
    · cases hr : Pool.exec T s (.read lines buf) with
      | none => simp [hr] at h
      | some u =>
        simp only [hr] at h
        have hu := pool_exec_counters T s u _ hr ⟨h1, h2, h3⟩
        obtain ⟨k1, k2, k3⟩ := pool_exec_counters T u t _ h hu
        have hw := pool_exec_launch_waiting T u t h
        refine ⟨⟨k1, k2, k3, hw⟩, ?_⟩
        intro hsmall hrec
        have r1 := pool_exec_records T s u _ hr
          (fun l b he => by
            simp only [PoolEvent.read.injEq] at he
            obtain ⟨e1, e2⟩ := he
            subst e1; subst e2
            exact hsmall _ _ rfl)
          (by rw [h4]; simpa using hrec)
        have r2 := pool_exec_records T u t _ h (fun l b he => by simp at he) r1
        rw [hw] at r2
        simpa using r2
    · simp at h
  | finish i =>
    simp only [Pool.step] at h
    obtain ⟨k1, k2, k3⟩ := pool_exec_counters T s t _ h ⟨h1, h2, h3⟩
    have hw : t.waiting = none := by rw [pool_exec_finish_waiting T s t i h, h4]
    refine ⟨⟨k1, k2, k3, hw⟩, ?_⟩
    intro _ hrec
    have r := pool_exec_records T s t _ h (fun l b he => by simp at he)
      (by rw [h4]; simpa using hrec)
    rw [hw] at r
    simpa using r

/-- The invariants of the two-step pool over a sequence of steps. -/
theorem pool_steps_invariant (T : Int) (evs : List PoolStep) :
    ∀ (s t : Pool), Pool.steps T s evs = some t →
      (s.threads_launched = s.threads_completed + s.threads_active ∧
        s.threads_active = (s.running.length : Int) ∧
        (s.threads_active ≤ T ∨ s.threads_active = 0) ∧ s.waiting = none) →
      (t.threads_launched = t.threads_completed + t.threads_active ∧
          t.threads_active = (t.running.length : Int) ∧
          (t.threads_active ≤ T ∨ t.threads_active = 0) ∧ t.waiting = none) ∧
        ((∀ lines buf, PoolStep.dispatch lines buf ∈ evs → buf.length < 4294967296) →
          s.records_read = s.records_written + (s.running.map List.length).sum →
          t.records_read = t.records_written + (t.running.map List.length).sum) := by
  induction evs with
  | nil =>
    intro s t h hinv
    simp only [Pool.steps, Option.some.injEq] at h
    subst h
    exact ⟨hinv, fun _ hr => hr⟩
  | cons e es ih =>
    intro s t h hinv
    simp only [Pool.steps] at h
    cases he : Pool.step T s e with
    | none => simp [he] at h
    | some u =>
      simp only [he] at h
      obtain ⟨hu, hrec⟩ := pool_step_invariant T s u e he hinv
      obtain ⟨k1, k2⟩ := ih u t h hu
      refine ⟨k1, ?_⟩
      intro hsmall hr
      apply k2 (fun lines buf hm => hsmall lines buf (by simp [hm]))
      exact hrec (fun lines buf hm => hsmall lines buf (by simp [hm])) hr

/-- While every batch has fewer than `2 ^ 32` lines, every state the two-step
pool reaches from the initial one, for `FLAGS_threads >= 1`, has
`launched = completed + active`, `0 <= active <= FLAGS_threads` and
`records_read` equal to `records_written` plus the record counts of the
batches held by the active workers; so with no worker active
`launched = completed` and `records_read = records_written`. -/
theorem pool_steps_from_init (T : Int) (evs : List PoolStep) (t : Pool) (hT : 1 ≤ T)
    (hsmall : ∀ lines buf, PoolStep.dispatch lines buf ∈ evs → buf.length < 4294967296)
    (h : Pool.steps T Pool.init evs = some t) :
    t.threads_launched = t.threads_completed + t.threads_active ∧
      0 ≤ t.threads_active ∧ t.threads_active ≤ T ∧
      t.records_read = t.records_written + (t.running.map List.length).sum ∧
      (t.threads_active = 0 →
        t.threads_launched = t.threads_completed ∧ t.records_read = t.records_written) := by
  obtain ⟨⟨h1, h2, h3, _⟩, h4⟩ := pool_steps_invariant T evs Pool.init t h
    (by simp [Pool.init])
  have h5 := h4 hsmall (by simp [Pool.init])
  refine ⟨h1, by omega, by omega, h5, ?_⟩
  intro ha
  have hr : t.running = [] := by
    rw [ha] at h2
    exact List.length_eq_zero.mp (by exact_mod_cast h2.symm)
  rw [hr] at h5
  exact ⟨by omega, by simpa using h5⟩

/-- The two-step pool after one batch is dispatched and its worker has
finished: `records_read` has the counter `lines`, `records_written` the size
of the buffer. -/
theorem pool_steps_one_batch (T : Int) (lines : Nat) (buf : List Line) (hT : 0 < T)
    (hl : lines ≠ 0) (hb : lines = buf.length % 4294967296) :
    Pool.steps T Pool.init [.dispatch lines buf, .finish 0] =
      some { threads_launched := 1, threads_completed := 1, threads_active := 0,
             records_read := lines, records_written := buf.length, waiting := none,
             running := [] } := by
  simp [Pool.steps, Pool.step, Pool.exec, Pool.init, hT, hl, ← hb]

/-! ## Laws of the line source -/

/-- One operation gives the same result on two states with the same
behaviour, and leaves two such states. -/
theorem same_behaviour_apply (p q : linepeeker) (h : linepeeker.same_behaviour p q)
    (op : LineOp) :
    (p.apply op).1 = (q.apply op).1 ∧
      linepeeker.same_behaviour (p.apply op).2 (q.apply op).2 := by
  obtain ⟨inp, n1, full, last⟩ := p
  obtain ⟨inp2, n2, full2, last2⟩ := q
  obtain ⟨h1, h2, h3, h4⟩ := h
  simp only at h1 h2 h3 h4
  subst h1; subst h2; subst h3
  cases full with
  | true =>
    have := h4 rfl
    subst this
    exact ⟨rfl, rfl, rfl, rfl, fun _ => rfl⟩
  | false =>
    obtain ⟨data, eofbit, failbit⟩ := inp
    cases op with
    | drop => simp [linepeeker.apply, linepeeker.drop, linepeeker.same_behaviour]
    | peek =>
      cases eofbit <;> cases failbit <;>
        simp [linepeeker.apply, linepeeker.peek, getline, linepeeker.same_behaviour]
    | get =>
      cases eofbit <;> cases failbit <;>
        simp [linepeeker.apply, linepeeker.get, linepeeker.peek, getline,
          linepeeker.same_behaviour]

/-- Two states with the same behaviour answer every sequence of operations
alike. -/
theorem same_behaviour_run_ops (ops : List LineOp) :
    ∀ p q : linepeeker, linepeeker.same_behaviour p q →
      linepeeker.run_ops p ops = linepeeker.run_ops q ops := by
  induction ops with
  | nil => intro p q _; rfl
  | cons op ops ih =>
    intro p q h
    obtain ⟨h1, h2⟩ := same_behaviour_apply p q h op
    simp only [linepeeker.run_ops, h1, ih _ _ h2]

/-- A successful `peek` returns the line it leaves cached. -/
theorem peek_ok_inv (p : linepeeker) (l : Line) (q : linepeeker)
    (h : p.peek = (.ok l, q)) : q._full = true ∧ q._next = l := by
  unfold linepeeker.peek at h
  split at h
  · simp only at h
    split at h
    · split at h <;> simp at h
    · simp only [Prod.mk.injEq, Except.ok.injEq] at h
      obtain ⟨h1, h2⟩ := h
      subst h2
      exact ⟨rfl, h1⟩
  · rename_i hf
    simp only [Prod.mk.injEq, Except.ok.injEq] at h
    obtain ⟨h1, h2⟩ := h
    subst h2
    exact ⟨by simpa using hf, h1⟩

/-- The method `get()` and the sequence `peek(); drop();` return the same
and leave states with the same behaviour. -/
theorem get_peek_drop (p : linepeeker) :
    p.get.1 = p.peek_drop.1 ∧ linepeeker.same_behaviour p.get.2 p.peek_drop.2 := by
  rcases hp : p.peek with ⟨_ | l, q⟩
  · simp [linepeeker.get, linepeeker.peek_drop, hp, linepeeker.same_behaviour]
  · obtain ⟨h1, h2⟩ := peek_ok_inv p l q hp
    simp [linepeeker.get, linepeeker.peek_drop, hp, linepeeker.same_behaviour,
      linepeeker.drop, h2]

/-- A second `peek()` in a row returns what the first returned and leaves the
state the first left. -/
theorem peek_peek (p : linepeeker) : p.peek.2.peek = p.peek := by
  obtain ⟨inp, n1, full, last⟩ := p
  obtain ⟨data, eofbit, failbit⟩ := inp
  cases full with
  | true => simp [linepeeker.peek]
  | false =>
    cases eofbit <;> cases failbit <;> simp [linepeeker.peek, getline]
    all_goals
      rcases hx : extract data with ⟨l1, _ | rest⟩
      · simp; split <;> simp [*]
      · simp

/-- Successive `get()` calls hand out the pending lines in order, then throw
`end_of_file` every time. -/
theorem gets_pending (ls : List Line) :
    ∀ (p : linepeeker) (k : Nat), p.reachable → pending p = ls →
      linepeeker.gets (ls.length + k) p =
        ls.map Except.ok ++ List.replicate k (Except.error Exn.end_of_file) := by
  induction ls with
  | nil =>
    intro p k
    induction k generalizing p with
    | zero => intro _ _; rfl
    | succ k ih =>
      intro hp h
      obtain ⟨q, h1, h2, h3⟩ := get_nil p hp h
      have := ih q h2 h3
      simp only [List.length_nil, Nat.zero_add, List.map_nil, List.nil_append] at this ⊢
      simp only [linepeeker.gets, h1, this, List.replicate_succ]
  | cons l ls ih =>
    intro p k hp h
    obtain ⟨q, h1, h2, h3⟩ := get_cons p l ls hp h
    have := ih q k h2 h3
    have e : (l :: ls).length + k = (ls.length + k) + 1 := by simp; omega
    rw [e]
    simp only [linepeeker.gets, h1, this, List.map_cons, List.cons_append]

/-- No line of an input holds a newline. -/
theorem lines_of_no_newline (data : List Char) :
    ∀ l ∈ lines_of data, '\n' ∉ l := by
  induction data with
  | nil => simp [lines_of]
  | cons c cs ih =>
    by_cases hc : c = '\n'
    · simp only [lines_of, hc, if_true, List.mem_cons]
      rintro l (h | h)
      · subst h; simp
      · exact ih l h
    · simp only [lines_of, hc, if_false]
      cases hl : lines_of cs with
      | nil =>
        simp only [List.mem_singleton]
        rintro l rfl
        simp [Ne.symm hc]
      | cons l1 ls =>
        rw [hl] at ih
        simp only [List.mem_cons]
        rintro l (h | h)
        · subst h
          have := ih l1 (by simp)
          simp [Ne.symm hc, this]
        · exact ih l (by simp [h])

/-- C1 (lossless partition) fails on the code at a batch of `2 ^ 32` lines:
with `MB=4096` (a threshold of `2 ^ 32` bytes) and an input of one header line followed by `2 ^ 32` empty record
lines, header capture succeeds and the driver loop finishes after two calls of
`part`, yet no batch is dispatched: the counter `lines` has wrapped to zero
when the test `if (lines)` is made, so the `2 ^ 32` records are lost, and
`main` ends as a success with no part written. -/
theorem lossless_partition_fails_at_2_32_lines :
    ∃ input q,
      read_header (linepeeker.mk_from (cin input_2_32_empty_lines)) =
        some (.ok ['#', 'h', '\n'], input) ∧
      part_driver flags_4096MB [] ['#', 'h', '\n'] [] 0 0 2 0 input Globals.init =
        some (.ok 2, q, Globals.init) ∧
      (Globals.init.workers.map WriterCall.buf).flatten ≠
        kept [] 0 0 (record_lines input_2_32_empty_lines) ∧
      main flags_4096MB (some []) false input_2_32_empty_lines 2 =
        some (.success 2 ['#', 'h', '\n'] Globals.init []) := by
  obtain ⟨input, q, h1, h2, h3, h4⟩ := header_then_newlines_dropped flags_4096MB [] 0 0
    4294967296 (by decide) (by decide) (by decide)
  exact ⟨input, q, h1, h2, h3, h4 rfl⟩

/-- C2 (round trip), amended: for every input on which the program succeeds
with no range configured, in line mode or with fewer than `2 ^ 32` record
lines, the header blob returned by `read_header` followed by the bodies of all
parts in part-index order is byte-for-byte the input when the input ends with
a newline, and the input with one newline appended when its last line has no
terminating newline. -/
theorem round_trip (F : Flags) ( dest_prefix : Line) (data : List Char) (fuel : Nat)
    (part_num : Nat) (hdr : List Char) (g : Globals) (files : List PartFile)
    (hrange : F.range = [])
    (hw : (F.MB ≤ 0 ∧ F.lines ≤ 2147483647) ∨ (record_lines data).length < 4294967296)
    (hm : main F (some dest_prefix) false data fuel = some (.success part_num hdr g files)) :
    hdr ++ (files.map (fun f => f.content.drop hdr.length)).flatten =
      if data.getLast? = some '\n' then data else data ++ ['\n'] := by
  obtain ⟨input, q, hh, hd, hf⟩ := main_success_inv F dest_prefix data fuel part_num hdr g
    files hrange hm
  obtain ⟨h1, _, _, h4⟩ := read_header_cin_inv data hdr input hh
  have h5 := (lossless_of_no_wrap F dest_prefix [] ULLONG_MAX ULLONG_MAX data hdr input fuel
    (.ok part_num) q g hh (by rw [kept_no_range]; exact hw) hd).2.2
  rw [hf, List.map_map]
  rw [kept_no_range] at h5
  have h6 : (fun f => List.drop hdr.length f.content) ∘ writer_thread F =
      fun w => List.drop hdr.length (writer_thread F w).content := rfl
  rw [h6, h5, h1, ← terminated_append, ← header_record_lines, terminated_lines_of]
  have hne : data ≠ [] := by
    intro h
    apply h4
    simp [h, record_lines, lines_of]
  simp [hne]

/-- Witness of C2: the first scenario of the specification, whose input ends
with a newline, is reproduced byte for byte. -/
theorem round_trip_witness :
    scenario_flags.range = [] ∧
      ((scenario_flags.MB ≤ 0 ∧ scenario_flags.lines ≤ 2147483647) ∨
        (record_lines scenario_input).length < 4294967296) ∧
      main scenario_flags (some []) false scenario_input 5 =
        some (.success 2 scenario_header scenario_globals scenario_files) ∧
      scenario_header ++
          (scenario_files.map (fun f => f.content.drop scenario_header.length)).flatten =
        if scenario_input.getLast? = some '\n' then scenario_input
        else scenario_input ++ ['\n'] :=
  ⟨rfl, Or.inl ⟨by decide, by decide⟩, rfl,
    round_trip scenario_flags [] scenario_input 5 2 scenario_header scenario_globals
      scenario_files rfl (Or.inl ⟨by decide, by decide⟩) rfl⟩

/-- Counterexample to C2 as stated: on the input `#h\nA`, whose last line has
no terminating newline, the program succeeds with no range configured, and the
header followed by the body of its single part is `#h\nA\n`, not the input. -/
theorem round_trip_counterexample :
    main scenario_flags (some []) false unterminated_input 5 =
        some (.success 1 "#h\n".toList
          { threads_launched := 1, records_read := 1, records_skipped := 0
            workers := [{ dest_prefix := [], part_num := 0, header := "#h\n".toList,
                          buf := ["A".toList] }] }
          [{ path := "000000.vcf.gz".toList, content := "#h\nA\n".toList,
             outstr := "000000.vcf.gz\n".toList, ct := 1, sz := 5 }]) ∧
      "#h\n".toList ++ ("#h\nA\n".toList).drop ("#h\n".toList).length ≠ unterminated_input := by
  refine ⟨rfl, by decide⟩

/-- C3 (header capture): for every input that has a line after its maximal
prefix of header lines (lines beginning with `#`; an empty line is not one),
`read_header` returns exactly that prefix with each line followed by one
newline, leaves a line source that holds exactly the remaining lines, the next
`get()` returns the first non-header line, and every worker the driver loop
then launches is given this header and writes it unchanged at the start of its
part. -/
theorem header_capture (data : List Char) (l : Line) (rest : List Line)
    (hrec : record_lines data = l :: rest) :
    ∃ input,
      read_header (linepeeker.mk_from (cin data)) =
        some (.ok (terminated (header_lines data)), input) ∧
      pending input = l :: rest ∧
      (∃ input1, input.get = (.ok l, input1) ∧ pending input1 = rest) ∧
      ∀ (F : Flags) ( dest_prefix : Line) (range_chrom : Line) (range_beg range_end : Nat)
        (fuel : Nat) (r : Except Exn Nat) (q : linepeeker) (g : Globals),
        part_driver F dest_prefix (terminated (header_lines data)) range_chrom range_beg
          range_end fuel 0 input Globals.init = some (r, q, g) →
        ∀ w ∈ g.workers, w.header = terminated (header_lines data) ∧
          (writer_thread F w).content.take (terminated (header_lines data)).length =
            terminated (header_lines data) := by
  obtain ⟨input, h1, h2, _, _, h5⟩ := read_header_cin_ok data l rest hrec
  obtain ⟨input1, h6, _, h8⟩ := get_cons input l rest h2 h5
  refine ⟨input, h1, h5, ⟨input1, h6, h8⟩, ?_⟩
  intro F dest_prefix range_chrom range_beg range_end fuel r q g hd w hw
  obtain ⟨new, h9, h10, _⟩ := part_driver_workers F dest_prefix _ range_chrom range_beg
    range_end fuel 0 input Globals.init r q g hd
  rw [h9] at hw
  simp only [Globals.init, List.nil_append] at hw
  have h11 := (h10 w hw).2.1
  refine ⟨h11, ?_⟩
  rw [writer_thread_content, h11]
  simp

/-- Witness of C3: the scenario input has the record line `chr1\t10` after
its three header lines. -/
theorem header_capture_witness :
    record_lines scenario_input =
        "chr1\t10".toList :: ["chr1\t20".toList, "chr1\t30".toList] ∧
      ∃ input,
        read_header (linepeeker.mk_from (cin scenario_input)) =
          some (.ok (terminated (header_lines scenario_input)), input) ∧
        pending input = "chr1\t10".toList :: ["chr1\t20".toList, "chr1\t30".toList] ∧
        (∃ input1, input.get = (.ok "chr1\t10".toList, input1) ∧
          pending input1 = ["chr1\t20".toList, "chr1\t30".toList]) ∧
        ∀ (F : Flags) ( dest_prefix : Line) (range_chrom : Line) (range_beg range_end : Nat)
          (fuel : Nat) (r : Except Exn Nat) (q : linepeeker) (g : Globals),
          part_driver F dest_prefix (terminated (header_lines scenario_input)) range_chrom
            range_beg range_end fuel 0 input Globals.init = some (r, q, g) →
          ∀ w ∈ g.workers, w.header = terminated (header_lines scenario_input) ∧
            (writer_thread F w).content.take
                (terminated (header_lines scenario_input)).length =
              terminated (header_lines scenario_input) :=
  ⟨by decide, header_capture scenario_input "chr1\t10".toList
    ["chr1\t20".toList, "chr1\t30".toList] (by decide)⟩

/-- C4 (line-mode part sizes): when `MB <= 0` and the line limit is an
`int32` `L >= 1`, with at least one worker thread allowed, and `n` record
lines pass the range filter, the driver loop ends (after `n / L + 1` calls of
`part`) and the batches dispatched have sizes `L` (`n / L` times) followed by
`n % L` when that is not zero; every part except the last has exactly `L`
records, the number of parts is `ceil(n / L)`, and `L = 1` gives one part per
record. -/
theorem line_mode_part_sizes (F : Flags) ( dest_prefix : Line) (range_chrom : Line)
    (range_beg range_end : Nat) (data hdr : List Char) (input : linepeeker) (L n fuel : Nat)
    (hh : read_header (linepeeker.mk_from (cin data)) = some (.ok hdr, input))
    (hMB : F.MB ≤ 0) (hL : F.lines = (L : Int)) (hL1 : 1 ≤ L) (hL2 : L ≤ 2147483647)
    (ht : 1 ≤ F.threads)
    (hn : (kept range_chrom range_beg range_end (record_lines data)).length = n)
    (hf : n / L + 1 ≤ fuel) :
    ∃ q g,
      part_driver F dest_prefix hdr range_chrom range_beg range_end fuel 0 input
        Globals.init = some (.ok (n / L + 1), q, g) ∧
      g.workers.map (fun w => w.buf.length) =
        List.replicate (n / L) L ++ (if n % L = 0 then [] else [n % L]) ∧
      (∀ w ∈ g.workers.dropLast, w.buf.length = L) ∧
      g.workers.length = (n + L - 1) / L ∧
      (L = 1 → g.workers.map (fun w => w.buf.length) = List.replicate n 1) := by
  obtain ⟨_, h2, h3, _⟩ := read_header_cin_inv data hdr input hh
  have hLpos : 0 < L := by omega
  have hdm := Nat.div_add_mod n L
  obtain ⟨q, g, h5, h6⟩ := part_driver_line_mode F dest_prefix hdr range_chrom range_beg
    range_end L (n % L) hMB hL hL2 (Nat.mod_lt n hLpos) ht (n / L) fuel 0 input Globals.init
    h2 (by rw [h3, hn, Nat.mul_comm]; exact hdm.symm) hf
  simp only [Globals.init, List.map_nil, List.nil_append, Nat.zero_add] at h5 h6
  refine ⟨q, g, h5, h6, ?_, ?_, ?_⟩
  · intro w hw
    have hmem : w.buf.length ∈ (g.workers.map (fun w => w.buf.length)).dropLast := by
      rw [← List.map_dropLast]
      exact List.mem_map_of_mem (fun w => w.buf.length) hw
    rw [h6] at hmem
    by_cases h0 : n % L = 0
    · simp only [h0, if_true, List.append_nil] at hmem
      exact (List.mem_replicate.mp (List.mem_of_mem_dropLast hmem)).2
    · simp only [h0, if_false, List.dropLast_concat] at hmem
      exact (List.mem_replicate.mp hmem).2
  · have hlen := congrArg List.length h6
    simp only [List.length_map, List.length_append, List.length_replicate] at hlen
    rw [hlen]
    by_cases h0 : n % L = 0
    · have h7 : n + L - 1 = (L - 1) + L * (n / L) := by omega
      have h9 : (L - 1) / L = 0 := Nat.div_eq_of_lt (by omega)
      rw [h7, Nat.add_mul_div_left _ _ hLpos, h9]
      simp [h0]
    · have h7 : n + L - 1 = (n % L - 1) + L * (n / L + 1) := by
        rw [Nat.mul_add]; omega
      have h8 : n % L < L := Nat.mod_lt n hLpos
      have h9 : (n % L - 1) / L = 0 := Nat.div_eq_of_lt (by omega)
      rw [h7, Nat.add_mul_div_left _ _ hLpos, h9]
      simp [h0]
  · intro h1
    subst h1
    rw [h6]
    simp [Nat.mod_one]

/-- Witness of C4: ten records with `lines=3` and `threads=4` give parts of
sizes 3, 3, 3 and 1. -/
theorem line_mode_part_sizes_witness :
    read_header (linepeeker.mk_from (cin ten_records_input)) =
        some (.ok "#h\n".toList, ten_records) ∧
      scenario4_flags.MB ≤ 0 ∧ scenario4_flags.lines = ((3 : Nat) : Int) ∧
      1 ≤ scenario4_flags.threads ∧
      (kept [] 0 0 (record_lines ten_records_input)).length = 10 ∧
      ∃ q g,
        part_driver scenario4_flags [] "#h\n".toList [] 0 0 4 0 ten_records Globals.init =
          some (.ok 4, q, g) ∧
        g.workers.map (fun w => w.buf.length) = [3, 3, 3, 1] ∧
        (∀ w ∈ g.workers.dropLast, w.buf.length = 3) ∧
        g.workers.length = 4 ∧
        ((3 : Nat) = 1 → g.workers.map (fun w => w.buf.length) = List.replicate 10 1) :=
  ⟨rfl, by decide, rfl, by decide, by decide,
    line_mode_part_sizes scenario4_flags [] [] 0 0 ten_records_input "#h\n".toList ten_records
      3 10 4 rfl (by decide) rfl (by decide) (by decide) (by decide) (by decide) (by decide)⟩

/-- C5 (byte-mode cutoff): when `MB = m > 0`, with threshold
`T = m * 1048576` and the size of a batch the sum over its lines of length
plus one, on every run of the driver loop that finishes: every dispatched
batch other than the last one has size at least `T`; every dispatched batch
has size below `T` once its final line is removed; so a record with
length + 1 >= `T` that begins a batch is the only record of its part; the
line limit plays no role (any other value of `lines` gives the same run); and
with a worker thread allowed the driver loop does finish, within one call of
`part` per record line plus one. -/
theorem byte_mode_cutoff (F : Flags) ( dest_prefix : Line) (range_chrom : Line)
    (range_beg range_end : Nat) (data hdr : List Char) (input : linepeeker) (fuel : Nat)
    (r : Except Exn Nat) (q : linepeeker) (g : Globals)
    (hh : read_header (linepeeker.mk_from (cin data)) = some (.ok hdr, input))
    (hMB : 0 < F.MB)
    (hd : part_driver F dest_prefix hdr range_chrom range_beg range_end fuel 0 input
      Globals.init = some (r, q, g)) :
    (∀ w ∈ g.workers.dropLast, F.MB.toNat * 1048576 ≤ batch_bytes w.buf) ∧
      (∀ w ∈ g.workers, batch_bytes w.buf.dropLast < F.MB.toNat * 1048576) ∧
      (∀ w ∈ g.workers, ∀ (l : Line) (rest : List Line), w.buf = l :: rest →
        F.MB.toNat * 1048576 ≤ l.length + 1 → rest = []) ∧
      (∀ x : Int, part_driver { F with lines := x } dest_prefix hdr range_chrom range_beg
        range_end fuel 0 input Globals.init = some (r, q, g)) ∧
      (1 ≤ F.threads → ∀ fuel1 : Nat, (record_lines data).length + 1 ≤ fuel1 →
        ∃ n q1 g1, part_driver F dest_prefix hdr range_chrom range_beg range_end fuel1 0 input
          Globals.init = some (.ok n, q1, g1)) := by
  obtain ⟨_, h2, h3, _⟩ := read_header_cin_inv data hdr input hh
  obtain ⟨new, h5, h6, h7⟩ := part_driver_byte_mode F dest_prefix hdr range_chrom range_beg
    range_end hMB fuel 0 input Globals.init r q g h2 hd
  simp only [Globals.init, List.nil_append] at h5
  subst h5
  refine ⟨h6, h7, ?_, ?_, ?_⟩
  · intro w hw l rest hbuf hl
    have h8 := h7 w hw
    rw [hbuf] at h8
    cases rest with
    | nil => rfl
    | cons x xs =>
      simp only [List.dropLast_cons₂, batch_bytes] at h8
      omega
  · intro x
    rw [part_driver_lines_irrelevant F x dest_prefix hdr range_chrom range_beg range_end hMB]
    exact hd
  · intro ht fuel1 hf
    have hact : part_finished F (toInt32 0) 0 = false := by
      rw [part_finished_byte_mode F _ _ hMB]
      simp; omega
    exact part_driver_terminates F dest_prefix hdr range_chrom range_beg range_end hact ht
      fuel1 0 input Globals.init h2 (by rw [h3]; exact hf)

/-- Witness of C5: the scenario input in byte mode at one MiB per part. -/
theorem byte_mode_cutoff_witness :
    read_header (linepeeker.mk_from (cin scenario_input)) =
        some (.ok scenario_header, scenario_records) ∧
      0 < flags_1MB.MB ∧
      part_driver flags_1MB [] scenario_header [] 0 0 5 0 scenario_records Globals.init =
        some (.ok 1, scenario_end, scenario_globals_1MB) ∧
      ((∀ w ∈ scenario_globals_1MB.workers.dropLast,
          flags_1MB.MB.toNat * 1048576 ≤ batch_bytes w.buf) ∧
        (∀ w ∈ scenario_globals_1MB.workers,
          batch_bytes w.buf.dropLast < flags_1MB.MB.toNat * 1048576) ∧
        (∀ w ∈ scenario_globals_1MB.workers, ∀ (l : Line) (rest : List Line),
          w.buf = l :: rest → flags_1MB.MB.toNat * 1048576 ≤ l.length + 1 → rest = []) ∧
        (∀ x : Int, part_driver { flags_1MB with lines := x } [] scenario_header [] 0 0 5 0
          scenario_records Globals.init = some (.ok 1, scenario_end, scenario_globals_1MB)) ∧
        (1 ≤ flags_1MB.threads → ∀ fuel1 : Nat,
          (record_lines scenario_input).length + 1 ≤ fuel1 →
          ∃ n q1 g1, part_driver flags_1MB [] scenario_header [] 0 0 fuel1 0 scenario_records
            Globals.init = some (.ok n, q1, g1))) :=
  ⟨rfl, by decide, rfl,
    byte_mode_cutoff flags_1MB [] [] 0 0 scenario_input scenario_header scenario_records 5
      (.ok 1) scenario_end scenario_globals_1MB rfl (by decide) rfl⟩

/-- C6 (range filter accepts matching records), amended: for every range with
a non-empty chromosome and `end` an `unsigned long long`, and every line whose
first tab-delimited field is the chromosome and whose second field is a
non-empty string of decimal digits with value in `[begin, end]`, `in_range`
returns true when a tab follows the second field, whatever comes after that
tab; when the line ends with its second field (no tab after it), `in_range`
returns false. -/
theorem in_range_accepts (chrom digits rest : Line) (range_beg range_end : Nat)
    (hc : chrom ≠ []) (hct : '\t' ∉ chrom) (hd : digits ≠ [])
    (hdd : ∀ c ∈ digits, isdigit c = true) (hb : range_beg ≤ digits_value digits)
    (he : digits_value digits ≤ range_end) (hmax : range_end ≤ ULLONG_MAX) :
    in_range (chrom ++ '\t' :: digits ++ '\t' :: rest) chrom range_beg range_end = true ∧
      in_range (chrom ++ '\t' :: digits) chrom range_beg range_end = false := by
  have hdt : '\t' ∉ digits := by
    intro hm
    have := hdd _ hm
    revert this
    decide
  constructor
  · rw [in_range_two_fields chrom digits rest range_beg range_end hc hct hdt,
      strtoull_digits digits hd hdd (by unfold ULLONG_MAX at hmax; omega)]
    simp [hd, hb, he]
  · have hlen : ¬ chrom.length = 0 := by simpa using hc
    have hf1 : find (chrom ++ '\t' :: digits) '\t' 0 = some chrom.length := by
      have := find_at_append '\t' chrom digits hct 0
      simpa [find] using this
    have hf2 : find (chrom ++ '\t' :: digits) '\t' (chrom.length + 1) = none := by
      have hdrop : List.drop (chrom.length + 1) (chrom ++ '\t' :: digits) = digits := by
        rw [List.drop_append]; simp
      simp only [find, hdrop]
      exact find_at_none '\t' digits hdt _
    simp only [in_range, hlen, if_false, hf1, if_true, hf2]
    split <;> rfl

/-- Witness of C6: the record `chr1\t20\t.` is kept by the range chr1:15-25,
and `chr1\t20` is not. -/
theorem in_range_accepts_witness :
    "chr1".toList ≠ [] ∧ '\t' ∉ "chr1".toList ∧ "20".toList ≠ [] ∧
      (∀ c ∈ "20".toList, isdigit c = true) ∧ 15 ≤ digits_value "20".toList ∧
      digits_value "20".toList ≤ 25 ∧ 25 ≤ ULLONG_MAX ∧
      in_range ("chr1".toList ++ '\t' :: "20".toList ++ '\t' :: ".".toList) "chr1".toList
        15 25 = true ∧
      in_range ("chr1".toList ++ '\t' :: "20".toList) "chr1".toList 15 25 = false :=
  ⟨by decide, by decide, by decide, by decide, by decide, by decide, by decide,
    in_range_accepts "chr1".toList "20".toList ".".toList 15 25 (by decide) (by decide)
      (by decide) (by decide) (by decide) (by decide) (by decide)⟩

/-- Counterexample to C6 as stated: the line `chr1\t20`, whose second field
is not followed by a tab, is rejected by the range chr1:15-25, and the second
scenario of the specification writes no part and skips all three records. -/
theorem in_range_accepts_counterexample :
    in_range "chr1\t20".toList "chr1".toList 15 25 = false ∧
      parse_range scenario2_flags.range = some ("chr1".toList, 15, 25) ∧
      main scenario2_flags (some []) false scenario_input 5 =
        some (.success 1 scenario_header
          { threads_launched := 0, records_read := 0, records_skipped := 3, workers := [] }
          []) :=
  ⟨rfl, rfl, rfl⟩

/-- C7 (range filter rejects everything else), amended: for every range with a
non-empty, NUL-free chromosome and every line, if `in_range` returns true then
the first tab-delimited field of the line is the chromosome, its second field
is not empty and is followed by a tab, and `strtoull` reads from the second
field, without a range error, a value in `[begin, end]` (it skips leading
white space, takes an optional sign and stops at the first character that is
not a digit).  An empty second field, a second field that is not followed by
a tab, a line without a tab, and a second field of digits whose value does
not fit in 64 bits all yield false. -/
theorem in_range_rejects (line chrom : Line) (range_beg range_end : Nat) (hc : chrom ≠ [])
    (hnul : Char.ofNat 0 ∉ chrom) (h : in_range line chrom range_beg range_end = true) :
    (∃ field rest, line = chrom ++ '\t' :: field ++ '\t' :: rest ∧ '\t' ∉ chrom ∧
      field ≠ [] ∧ '\t' ∉ field ∧ (strtoull (c_str field)).2 = false ∧
      range_beg ≤ (strtoull (c_str field)).1 ∧ (strtoull (c_str field)).1 ≤ range_end) ∧
    (∀ rest : Line, in_range (chrom ++ '\t' :: '\t' :: rest) chrom range_beg range_end = false) ∧
    (∀ field : Line, '\t' ∉ field →
      in_range (chrom ++ '\t' :: field) chrom range_beg range_end = false) ∧
    (∀ l : Line, '\t' ∉ l → in_range l chrom range_beg range_end = false) ∧
    (∀ digits rest : Line, (∀ c ∈ digits, isdigit c = true) →
      18446744073709551616 ≤ digits_value digits →
      in_range (chrom ++ '\t' :: digits ++ '\t' :: rest) chrom range_beg range_end = false) := by
  refine ⟨in_range_inv line chrom range_beg range_end hc hnul h, ?_, ?_, ?_, ?_⟩
  · intro rest
    cases hv : in_range (chrom ++ '\t' :: '\t' :: rest) chrom range_beg range_end with
    | false => rfl
    | true =>
      exfalso
      obtain ⟨field, rest1, h1, _, h3, h4, _⟩ := in_range_inv _ chrom range_beg range_end hc
        hnul hv
      rw [List.append_assoc] at h1
      have h5 := List.append_cancel_left h1
      simp only [List.cons_append, List.cons.injEq, true_and] at h5
      have h6 := split_at_first '\t' [] field rest rest1 (by simp) h4 (by simpa using h5)
      exact h3 h6.1.symm
  · intro field hf
    cases hv : in_range (chrom ++ '\t' :: field) chrom range_beg range_end with
    | false => rfl
    | true =>
      exfalso
      obtain ⟨field1, rest1, h1, _, _, _, _⟩ := in_range_inv _ chrom range_beg range_end hc
        hnul hv
      rw [List.append_assoc] at h1
      have h5 := List.append_cancel_left h1
      simp only [List.cons_append, List.cons.injEq, true_and] at h5
      apply hf
      rw [h5]
      simp
  · intro l hl
    cases hv : in_range l chrom range_beg range_end with
    | false => rfl
    | true =>
      exfalso
      obtain ⟨field1, rest1, h1, _, _, _, _⟩ := in_range_inv _ chrom range_beg range_end hc
        hnul hv
      apply hl
      rw [h1]
      simp
  · intro digits rest hd hv2
    cases hv : in_range (chrom ++ '\t' :: digits ++ '\t' :: rest) chrom range_beg
        range_end with
    | false => rfl
    | true =>
      exfalso
      obtain ⟨field, rest1, h1, _, _, h4, h5, _⟩ := in_range_inv _ chrom range_beg range_end
        hc hnul hv
      have hdt : '\t' ∉ digits := by
        intro hm
        have := hd _ hm
        revert this
        decide
      rw [List.append_assoc, List.append_assoc] at h1
      have h6 := List.append_cancel_left h1
      simp only [List.cons_append, List.cons.injEq, true_and] at h6
      have h7 := split_at_first '\t' digits field rest rest1 hdt h4 h6
      rw [← h7.1, strtoull_digits_large digits hd hv2] at h5
      simp at h5

/-- Witness of C7: the line `chr1\t20abc\t.` is accepted by the range
chr1:15-25. -/
theorem in_range_rejects_witness :
    "chr1".toList ≠ [] ∧ Char.ofNat 0 ∉ "chr1".toList ∧
      in_range "chr1\t20abc\t.".toList "chr1".toList 15 25 = true ∧
      (∃ field rest, "chr1\t20abc\t.".toList = "chr1".toList ++ '\t' :: field ++ '\t' :: rest ∧
        '\t' ∉ "chr1".toList ∧ field ≠ [] ∧ '\t' ∉ field ∧
        (strtoull (c_str field)).2 = false ∧
        15 ≤ (strtoull (c_str field)).1 ∧ (strtoull (c_str field)).1 ≤ 25) :=
  ⟨by decide, by decide, rfl,
    (in_range_rejects "chr1\t20abc\t.".toList "chr1".toList 15 25 (by decide) (by decide)
      rfl).1⟩

/-- Counterexample to C7 as stated: with the range chr1:15-25, `in_range`
accepts lines whose second field is `20abc` (digits followed by other
characters), `+20` (a leading sign) and ` 20` (leading white space), none of
which consists only of decimal digits. -/
theorem in_range_rejects_counterexample :
    in_range ("chr1".toList ++ '\t' :: "20abc".toList ++ '\t' :: ".".toList) "chr1".toList
        15 25 = true ∧
      ¬ (∀ c ∈ "20abc".toList, isdigit c = true) ∧
      in_range ("chr1".toList ++ '\t' :: "+20".toList ++ '\t' :: ".".toList) "chr1".toList
        15 25 = true ∧
      ¬ (∀ c ∈ "+20".toList, isdigit c = true) ∧
      in_range ("chr1".toList ++ '\t' :: " 20".toList ++ '\t' :: ".".toList) "chr1".toList
        15 25 = true ∧
      ¬ (∀ c ∈ " 20".toList, isdigit c = true) :=
  ⟨rfl, by decide, rfl, by decide, rfl, by decide⟩

/-- C8 (header-only input is an error): for every input all of whose lines
begin with `#` (the empty input included, and whether or not the last line
ends with a newline), `read_header` fails with the fatal error "Premature EOF
while reading VCF header", and a run of `main` on it (with a usable `--range`)
ends with that exception and no part produced. -/
theorem header_only_is_error (data : List Char)
    (hall : ∀ l ∈ lines_of data, is_header_line l = true) :
    (∃ q, read_header (linepeeker.mk_from (cin data)) =
      some (.error (.runtime_error "Premature EOF while reading VCF header"), q)) ∧
    ∀ (F : Flags) ( dest_prefix : Line) (fuel : Nat), parse_range F.range ≠ none →
      main F (some dest_prefix) false data fuel =
        some (.uncaught (.runtime_error "Premature EOF while reading VCF header")
          Globals.init) ∧
      Globals.init.workers = [] :=
  ⟨read_header_cin_eof data (List.dropWhile_eq_nil_iff.mpr hall),
    fun F dest_prefix fuel hr => ⟨main_header_only F dest_prefix data fuel hall hr, rfl⟩⟩

/-- Witness of C8: a header whose last line has no newline. -/
theorem header_only_is_error_witness :
    (∀ l ∈ lines_of header_only_input, is_header_line l = true) ∧
      (∃ q, read_header (linepeeker.mk_from (cin header_only_input)) =
        some (.error (.runtime_error "Premature EOF while reading VCF header"), q)) ∧
      ∀ (F : Flags) ( dest_prefix : Line) (fuel : Nat), parse_range F.range ≠ none →
        main F (some dest_prefix) false header_only_input fuel =
          some (.uncaught (.runtime_error "Premature EOF while reading VCF header")
            Globals.init) ∧
        Globals.init.workers = [] :=
  ⟨by decide, header_only_is_error header_only_input (by decide)⟩

/-- C9 (empty body), amended: for every input made of one or more header lines
followed by no record line at all, the run does not end with exit status 0:
`read_header` throws "Premature EOF while reading VCF header", the exception
leaves `main` (the process is terminated), and zero parts are dispatched. -/
theorem empty_body_is_error (F : Flags) ( dest_prefix : Line) (data : List Char) (fuel : Nat)
    (_hne : lines_of data ≠ [])
    (hall : ∀ l ∈ lines_of data, is_header_line l = true)
    (hrange : parse_range F.range ≠ none) :
    ∃ res, main F (some dest_prefix) false data fuel = some res ∧
      res = .uncaught (.runtime_error "Premature EOF while reading VCF header")
        Globals.init ∧
      res.exit_status ≠ some 0 ∧ Globals.init.workers = [] :=
  ⟨_, main_header_only F dest_prefix data fuel hall hrange, rfl, by simp [MainResult.exit_status],
    rfl⟩

/-- Witness of C9: two header lines and nothing else. -/
theorem empty_body_is_error_witness :
    lines_of empty_body_input ≠ [] ∧
      (∀ l ∈ lines_of empty_body_input, is_header_line l = true) ∧
      parse_range scenario_flags.range ≠ none ∧
      ∃ res, main scenario_flags (some []) false empty_body_input 5 = some res ∧
        res = .uncaught (.runtime_error "Premature EOF while reading VCF header")
          Globals.init ∧
        res.exit_status ≠ some 0 ∧ Globals.init.workers = [] :=
  ⟨by decide, by decide, by decide,
    empty_body_is_error scenario_flags [] empty_body_input 5 (by decide) (by decide)
      (by decide)⟩

/-- Counterexample to C9 as stated: on two header lines followed by no record
line the run ends in the uncaught premature-EOF error, which is not exit
status 0. -/
theorem empty_body_counterexample :
    main scenario_flags (some []) false empty_body_input 5 =
        some (.uncaught (.runtime_error "Premature EOF while reading VCF header")
          Globals.init) ∧
      (MainResult.uncaught (.runtime_error "Premature EOF while reading VCF header")
        Globals.init).exit_status ≠ some 0 :=
  ⟨rfl, by decide⟩

/-- C10 (missing header), amended: for every non-empty input whose first line
is empty or does not begin with `#`, header capture does not fail: it returns
the empty header blob, consumes nothing, and leaves that first line as the
line the next `get()` returns; the workers the driver loop then launches are
given the empty header and write their lines only. -/
theorem missing_header_is_accepted (data : List Char) (l : Line) (rest : List Line)
    (hlines : lines_of data = l :: rest) (hl : is_header_line l = false) :
    ∃ input, read_header (linepeeker.mk_from (cin data)) = some (.ok [], input) ∧
      pending input = lines_of data ∧
      (∃ input1, input.get = (.ok l, input1) ∧ pending input1 = rest) ∧
      ∀ (F : Flags) ( dest_prefix : Line) (range_chrom : Line) (range_beg range_end : Nat)
        (fuel : Nat) (r : Except Exn Nat) (q : linepeeker) (g : Globals),
        part_driver F dest_prefix [] range_chrom range_beg range_end fuel 0 input
          Globals.init = some (r, q, g) →
        ∀ w ∈ g.workers, w.header = [] ∧ (writer_thread F w).content = terminated w.buf := by
  have hrec : record_lines data = l :: rest := by
    simp [record_lines, hlines, List.dropWhile_cons, hl]
  have hhead : header_lines data = [] := by
    simp [header_lines, hlines, List.takeWhile_cons, hl]
  obtain ⟨input, h1, h2, _, _, h5⟩ := read_header_cin_ok data l rest hrec
  obtain ⟨input1, h6, _, h8⟩ := get_cons input l rest h2 h5
  rw [hhead] at h1
  refine ⟨input, h1, by rw [h5, hlines], ⟨input1, h6, h8⟩, ?_⟩
  intro F dest_prefix range_chrom range_beg range_end fuel r q g hd w hw
  obtain ⟨new, h9, h10, _⟩ := part_driver_workers F dest_prefix [] range_chrom range_beg
    range_end fuel 0 input Globals.init r q g hd
  rw [h9] at hw
  simp only [Globals.init, List.nil_append] at hw
  have h11 := (h10 w hw).2.1
  exact ⟨h11, by rw [writer_thread_content, h11]; simp⟩

/-- Witness of C10: an input that starts with a record line. -/
theorem missing_header_is_accepted_witness :
    lines_of no_header_input = "chr1\t10".toList :: [] ∧
      is_header_line "chr1\t10".toList = false ∧
      ∃ input, read_header (linepeeker.mk_from (cin no_header_input)) = some (.ok [], input) ∧
        pending input = lines_of no_header_input ∧
        (∃ input1, input.get = (.ok "chr1\t10".toList, input1) ∧ pending input1 = []) ∧
        ∀ (F : Flags) ( dest_prefix : Line) (range_chrom : Line) (range_beg range_end : Nat)
          (fuel : Nat) (r : Except Exn Nat) (q : linepeeker) (g : Globals),
          part_driver F dest_prefix [] range_chrom range_beg range_end fuel 0 input
            Globals.init = some (r, q, g) →
          ∀ w ∈ g.workers, w.header = [] ∧ (writer_thread F w).content = terminated w.buf :=
  ⟨by decide, by decide,
    missing_header_is_accepted no_header_input "chr1\t10".toList [] (by decide) (by decide)⟩

/-- Counterexample to C10 as stated: on an input without any header line,
`read_header` returns the empty header blob and the run succeeds, writing one
part that holds the record and no header. -/
theorem missing_header_counterexample :
    main scenario_flags (some []) false no_header_input 5 =
      some (.success 1 []
        { threads_launched := 1, records_read := 1, records_skipped := 0
          workers := [{ dest_prefix := [], part_num := 0, header := [],
                        buf := ["chr1\t10".toList] }] }
        [{ path := "000000.vcf.gz".toList, content := "chr1\t10\n".toList,
           outstr := "000000.vcf.gz\n".toList, ct := 1, sz := 8 }]) :=
  rfl

/-- C12 (the range parser rejects invalid syntax), amended: a non-empty
`--range` string is rejected when it has no colon, when it starts with the
colon (empty chromosome), and, when it reads `chrom:X-Y` with `chrom` not
empty and without colon and `X` not empty and without dash, whenever
`strtoull` reads zero from `X` (so also when `X` does not start with a
number), reads from `Y` a smaller value than from `X` (so also when `Y` is
empty), or reports a range error for either.  The startup code of `main` then
reports "Unable to parse --range as chr:beg-end" and returns -1 whatever is on
standard input.  Nothing is said of a string without a dash after the begin
field, and text after the digits of `X` or `Y` is not rejected. -/
theorem range_parser_rejects (F : Flags) ( dest_prefix : Line) (stdin : List Char)
    (fuel : Nat) (hne : F.range ≠ [])
    (hbad : ':' ∉ F.range ∨ F.range.head? = some ':' ∨
      ∃ chrom X Y, F.range = chrom ++ ':' :: X ++ '-' :: Y ∧ chrom ≠ [] ∧ ':' ∉ chrom ∧
        X ≠ [] ∧ '-' ∉ X ∧
        ((strtoull (c_str X)).1 = 0 ∨ (strtoull (c_str Y)).1 < (strtoull (c_str X)).1 ∨
          (strtoull (c_str X)).2 = true ∨ (strtoull (c_str Y)).2 = true)) :
    parse_range F.range = none ∧
      main F (some dest_prefix) false stdin fuel = some .range_error ∧
      MainResult.range_error.exit_status = some (-1) := by
  have hp : parse_range F.range = none := by
    rcases hbad with h | h | ⟨chrom, X, Y, h1, h2, h3, h4, h5, h6⟩
    · exact parse_range_no_colon _ hne h
    · cases hr : F.range with
      | nil => exact absurd hr hne
      | cons c cs =>
        rw [hr] at h
        simp only [List.head?_cons, Option.some.injEq] at h
        rw [h]
        exact parse_range_colon_first cs
    · rw [h1, parse_range_shape chrom X Y h2 h3 h4 h5]
      simp [h6]
  exact ⟨hp, main_range_error F dest_prefix stdin fuel hp, rfl⟩

/-- Witness of C12: `--range chr1:9-3`, an end below the begin. -/
theorem range_parser_rejects_witness :
    (flags_with_range "chr1:9-3".toList).range ≠ [] ∧
      (∃ chrom X Y, (flags_with_range "chr1:9-3".toList).range = chrom ++ ':' :: X ++ '-' :: Y ∧
        chrom ≠ [] ∧ ':' ∉ chrom ∧ X ≠ [] ∧ '-' ∉ X ∧
        ((strtoull (c_str X)).1 = 0 ∨ (strtoull (c_str Y)).1 < (strtoull (c_str X)).1 ∨
          (strtoull (c_str X)).2 = true ∨ (strtoull (c_str Y)).2 = true)) ∧
      parse_range (flags_with_range "chr1:9-3".toList).range = none ∧
      main (flags_with_range "chr1:9-3".toList) (some []) false scenario_input 5 =
        some .range_error ∧
      MainResult.range_error.exit_status = some (-1) :=
  ⟨by decide,
    ⟨"chr1".toList, "9".toList, "3".toList, by decide, by decide, by decide, by decide,
      by decide, Or.inr (Or.inl (by decide))⟩,
    range_parser_rejects (flags_with_range "chr1:9-3".toList) [] scenario_input 5 (by decide)
      (Or.inr (Or.inr ⟨"chr1".toList, "9".toList, "3".toList, by decide, by decide,
        by decide, by decide, by decide, Or.inr (Or.inl (by decide))⟩))⟩

/-- Counterexample to C12 as stated: `--range chr1:5-10xyz` is accepted as
chr1:5-10 and the run goes on to read its input; the strings `chrX:`,
`chr1:5` and `chr1:-5`, which have no dash after a begin field, are accepted
too, with both bounds at `ULLONG_MAX`. -/
theorem range_parser_rejects_counterexample :
    parse_range "chr1:5-10xyz".toList = some ("chr1".toList, 5, 10) ∧
      main (flags_with_range "chr1:5-10xyz".toList) (some []) false scenario_input 5 =
        some (.success 1 scenario_header
          { threads_launched := 0, records_read := 0, records_skipped := 3, workers := [] }
          []) ∧
      parse_range "chrX:".toList = some ("chrX".toList, ULLONG_MAX, ULLONG_MAX) ∧
      parse_range "chr1:5".toList = some ("chr1".toList, ULLONG_MAX, ULLONG_MAX) ∧
      parse_range "chr1:-5".toList = some ("chr1".toList, ULLONG_MAX, ULLONG_MAX) :=
  ⟨rfl, rfl, rfl, rfl, rfl⟩

/-- C13 (the range parser accepts valid syntax), amended: for every string
`chrom:begin-end` where `chrom` is not empty and contains no colon, and
`begin` and `end` are non-empty strings of decimal digits whose values fit in
64 bits with `1 <= begin <= end`, the startup code of `main` accepts it and
configures exactly `(chrom, begin, end)`: a run does not stop with the range
error, and it is this triple that the driver loop is given for `in_range`.
A begin of zero is rejected. -/
theorem range_parser_accepts (chrom B E : Line) (hc : chrom ≠ []) (hcc : ':' ∉ chrom)
    (hB : B ≠ []) (hBd : ∀ c ∈ B, isdigit c = true) (hE : E ≠ [])
    (hEd : ∀ c ∈ E, isdigit c = true) (h1 : 1 ≤ digits_value B)
    (h2 : digits_value B ≤ digits_value E) (h3 : digits_value E ≤ ULLONG_MAX) :
    parse_range (chrom ++ ':' :: B ++ '-' :: E) =
        some (chrom, digits_value B, digits_value E) ∧
      ∀ (F : Flags) ( dest_prefix : Line) (stdin : List Char) (fuel : Nat),
        F.range = chrom ++ ':' :: B ++ '-' :: E →
        main F (some dest_prefix) false stdin fuel ≠ some .range_error ∧
        ∀ (hdr : List Char) (input q : linepeeker) (n : Nat) (g : Globals),
          read_header (linepeeker.mk_from (cin stdin)) = some (.ok hdr, input) →
          part_driver F dest_prefix hdr chrom (digits_value B) (digits_value E) fuel 0 input
            Globals.init = some (.ok n, q, g) →
          main F (some dest_prefix) false stdin fuel =
              some (.success n hdr g (g.workers.map (writer_thread F))) ∨
            main F (some dest_prefix) false stdin fuel =
              some (.bug g (g.workers.map (writer_thread F))) := by
  have hBdash : '-' ∉ B := by
    intro hm
    have := hBd _ hm
    revert this
    decide
  have hmax : digits_value E < 18446744073709551616 := by
    unfold ULLONG_MAX at h3; omega
  have hp : parse_range (chrom ++ ':' :: B ++ '-' :: E) =
      some (chrom, digits_value B, digits_value E) := by
    rw [parse_range_shape chrom B E hc hcc hB hBdash,
      strtoull_digits B hB hBd (by omega), strtoull_digits E hE hEd hmax]
    have h4 : ¬ digits_value B = 0 := by omega
    have h5 : ¬ digits_value E < digits_value B := by omega
    simp [h4, h5]
  refine ⟨hp, ?_⟩
  intro F dest_prefix stdin fuel hr
  rw [← hr] at hp
  constructor
  · simp only [main, hp, Bool.false_eq_true, if_false]
    cases read_header (linepeeker.mk_from (cin stdin)) with
    | none => simp
    | some x =>
      obtain ⟨res, input⟩ := x
      cases res with
      | error e => simp
      | ok hdr =>
        simp only
        cases part_driver F dest_prefix hdr chrom (digits_value B) (digits_value E) fuel 0
            input Globals.init with
        | none => simp
        | some y =>
          obtain ⟨res2, q, g⟩ := y
          cases res2 with
          | error e => simp
          | ok n =>
            simp only
            split <;> simp
  · intro hdr input q n g hh hd
    simp only [main, hp, Bool.false_eq_true, if_false, hh, hd]
    split
    · right; rfl
    · left; rfl

/-- Witness of C13: `--range chr1:15-25`. -/
theorem range_parser_accepts_witness :
    "chr1".toList ≠ [] ∧ ':' ∉ "chr1".toList ∧ "15".toList ≠ [] ∧
      (∀ c ∈ "15".toList, isdigit c = true) ∧ "25".toList ≠ [] ∧
      (∀ c ∈ "25".toList, isdigit c = true) ∧ 1 ≤ digits_value "15".toList ∧
      digits_value "15".toList ≤ digits_value "25".toList ∧
      digits_value "25".toList ≤ ULLONG_MAX ∧
      parse_range ("chr1".toList ++ ':' :: "15".toList ++ '-' :: "25".toList) =
        some ("chr1".toList, digits_value "15".toList, digits_value "25".toList) :=
  ⟨by decide, by decide, by decide, by decide, by decide, by decide, by decide, by decide,
    by decide,
    (range_parser_accepts "chr1".toList "15".toList "25".toList (by decide) (by decide)
      (by decide) (by decide) (by decide) (by decide) (by decide) (by decide)
      (by decide)).1⟩

/-- Counterexample to C13 as stated: `--range chr1:0-100`, with begin zero, is
rejected and the run stops with the range error. -/
theorem range_parser_accepts_counterexample :
    parse_range "chr1:0-100".toList = none ∧
      main (flags_with_range "chr1:0-100".toList) (some []) false scenario_input 5 =
        some .range_error :=
  ⟨rfl, rfl⟩

/-- C14 (record accounting) fails on the code at a batch of `2 ^ 32` lines:
with `MB=4096` and an input of one header line followed by `2 ^ 32` empty
record lines, the run is successful and has consumed all `2 ^ 32` record lines,
yet `records_read` and `records_skipped` are both zero: the batch reached the
end of the read loop with the counter `lines` wrapped to zero, so
`records_read += lines` was skipped with the dispatch. -/
theorem record_accounting_fails_at_2_32_lines :
    main flags_4096MB (some []) false input_2_32_empty_lines 2 =
        some (.success 2 ['#', 'h', '\n'] Globals.init []) ∧
      (record_lines input_2_32_empty_lines).length = 4294967296 ∧
      Globals.init.records_read + Globals.init.records_skipped = 0 := by
  obtain ⟨_, _, _, _, _, h4⟩ := header_then_newlines_dropped flags_4096MB [] 0 0
    4294967296 (by decide) (by decide) (by decide)
  refine ⟨h4 rfl, ?_, rfl⟩
  unfold input_2_32_empty_lines
  rw [(record_lines_header_newlines 4294967296).1, List.length_replicate]

/-- C15 (pool-state invariant) fails on the code at a batch of more than
`2 ^ 32` lines: with `MB=4097` and an input of one header line followed by
`2 ^ 32 + 1` empty record lines, `part` dispatches the batch with its counter
`lines` at 1, so the pool, after that dispatch step and the finish step of the
worker, has no active worker, `records_read = 1` and
`records_written = 2 ^ 32 + 1`: `records_read` is not `records_written` plus
the records held by active workers, and `main`, which observes
`threads_active == 0` there, takes its "BUG!!!" branch and returns -1. -/
theorem pool_invariant_fails_above_2_32_lines :
    Pool.steps flags_4097MB.threads Pool.init
        [.dispatch 1 (List.replicate 4294967297 []), .finish 0] =
      some { threads_launched := 1, threads_completed := 1, threads_active := 0,
             records_read := 1, records_written := 4294967297, waiting := none,
             running := [] } ∧
      (1 : Nat) ≠ 4294967297 + (([] : List (List Line)).map List.length).sum ∧
      main flags_4097MB (some []) false input_2_32_plus_1_empty_lines 1 =
        some (.bug
          { threads_launched := 1, records_read := 1, records_skipped := 0
            workers := [⟨[], 0, ['#', 'h', '\n'], List.replicate 4294967297 []⟩] }
          [writer_thread flags_4097MB
            ⟨[], 0, ['#', 'h', '\n'], List.replicate 4294967297 []⟩]) ∧
      (MainResult.bug
          { threads_launched := 1, records_read := 1, records_skipped := 0
            workers := [⟨[], 0, ['#', 'h', '\n'], List.replicate 4294967297 []⟩] }
          [writer_thread flags_4097MB
            ⟨[], 0, ['#', 'h', '\n'], List.replicate 4294967297 []⟩]).exit_status =
        some (-1) := by
  have h := pool_steps_one_batch flags_4097MB.threads 1 (List.replicate 4294967297 [])
    (by decide) (by decide) (by rw [List.length_replicate])
  rw [List.length_replicate] at h
  obtain ⟨_, _, _, _, h3⟩ := header_then_long_batch flags_4097MB [] 4294967297
    (by decide) (by decide) (by decide) (by decide) (by decide) rfl
  exact ⟨h, by decide, h3, rfl⟩

/-- C16 (batches at dispatch) fails on the code at a batch of more than
`2 ^ 32` lines: with `MB=4097` and an input of one header line followed by
`2 ^ 32 + 1` empty record lines, the single call of `part` hands
`writer_thread` a buffer of `2 ^ 32 + 1` strings while its counter `lines`,
which it adds to `records_read`, is 1; the worker counts `2 ^ 32 + 1` records
and `main` ends in its "BUG!!!" branch. -/
theorem batch_counter_fails_above_2_32_lines :
    ∃ input q,
      read_header (linepeeker.mk_from (cin input_2_32_plus_1_empty_lines)) =
        some (.ok ['#', 'h', '\n'], input) ∧
      part_driver flags_4097MB [] ['#', 'h', '\n'] [] ULLONG_MAX ULLONG_MAX 1 0 input
          Globals.init =
        some (.ok 1, q,
          { threads_launched := 1, records_read := 1, records_skipped := 0
            workers := [⟨[], 0, ['#', 'h', '\n'], List.replicate 4294967297 []⟩] }) ∧
      (List.replicate 4294967297 ([] : Line)).length = 4294967297 ∧
      main flags_4097MB (some []) false input_2_32_plus_1_empty_lines 1 =
        some (.bug
          { threads_launched := 1, records_read := 1, records_skipped := 0
            workers := [⟨[], 0, ['#', 'h', '\n'], List.replicate 4294967297 []⟩] }
          [writer_thread flags_4097MB
            ⟨[], 0, ['#', 'h', '\n'], List.replicate 4294967297 []⟩]) := by
  obtain ⟨input, q, h1, h2, h3⟩ := header_then_long_batch flags_4097MB [] 4294967297
    (by decide) (by decide) (by decide) (by decide) (by decide) rfl
  exact ⟨input, q, h1, h2, List.length_replicate _ _, h3⟩

/-- C17 (progress and termination of the driver), amended: for every
configuration with `MB > 0` or `lines > 0`, and a worker thread allowed, and
every input on which header capture succeeds: each call of `part` returns,
and either takes at least one line from the line source or returns no-more;
and the driver loop ends after at most (number of record lines + 1) calls.
With `lines <= 0` and `MB <= 0` a call of `part` takes no line and returns
`true`, and the loop does not end. -/
theorem driver_terminates (F : Flags) ( dest_prefix : Line) (range_chrom : Line)
    (range_beg range_end : Nat) (data hdr : List Char) (input : linepeeker)
    (hh : read_header (linepeeker.mk_from (cin data)) = some (.ok hdr, input))
    (hlim : 0 < F.MB ∨ 0 < F.lines) (ht : 1 ≤ F.threads) :
    (∀ (pn : Nat) (p : linepeeker) (g : Globals), p.reachable →
      ∃ more q g1,
        part F dest_prefix pn hdr p range_chrom range_beg range_end g =
          some (.ok more, q, g1) ∧
        q.reachable ∧ (more = false ∨ (pending q).length < (pending p).length)) ∧
    (∀ fuel : Nat, (record_lines data).length + 1 ≤ fuel →
      ∃ n q g,
        part_driver F dest_prefix hdr range_chrom range_beg range_end fuel 0 input
          Globals.init = some (.ok n, q, g) ∧
        n ≤ (record_lines data).length + 1) := by
  have hact : part_finished F (toInt32 0) 0 = false := by
    by_cases hMB : 0 < F.MB
    · rw [part_finished_byte_mode F _ _ hMB]
      simp; omega
    · have hl : 0 < F.lines := by
        rcases hlim with h | h
        · exact absurd h hMB
        · exact h
      simp only [part_finished, gt_iff_lt, hMB, if_false, toInt32]
      simp; omega
  obtain ⟨_, h2, h3, _⟩ := read_header_cin_inv data hdr input hh
  refine ⟨fun pn p g hp => part_progress F dest_prefix pn hdr range_chrom range_beg
    range_end p g hp hact ht, ?_⟩
  intro fuel hf
  obtain ⟨n, q, g, h4, h5⟩ := part_driver_terminates_within F dest_prefix hdr range_chrom
    range_beg range_end hact ht fuel 0 input Globals.init h2 (by rw [h3]; exact hf)
  exact ⟨n, q, g, h4, by rw [h3] at h5; omega⟩

/-- Witness of C17: the first scenario of the specification. -/
theorem driver_terminates_witness :
    read_header (linepeeker.mk_from (cin scenario_input)) =
        some (.ok scenario_header, scenario_records) ∧
      (0 < scenario_flags.MB ∨ 0 < scenario_flags.lines) ∧ 1 ≤ scenario_flags.threads ∧
      (∀ (pn : Nat) (p : linepeeker) (g : Globals), p.reachable →
        ∃ more q g1,
          part scenario_flags [] pn scenario_header p [] 0 0 g = some (.ok more, q, g1) ∧
          q.reachable ∧ (more = false ∨ (pending q).length < (pending p).length)) ∧
      (∀ fuel : Nat, (record_lines scenario_input).length + 1 ≤ fuel →
        ∃ n q g,
          part_driver scenario_flags [] scenario_header [] 0 0 fuel 0 scenario_records
            Globals.init = some (.ok n, q, g) ∧
          n ≤ (record_lines scenario_input).length + 1) :=
  ⟨rfl, Or.inr (by decide), by decide,
    driver_terminates scenario_flags [] [] 0 0 scenario_input scenario_header scenario_records
      rfl (Or.inr (by decide)) (by decide)⟩

/-- Counterexample to C17 as stated: with `lines=0` and `MB=0`, on the
scenario input, the first call of `part` takes no line and returns `true`
with the line source unchanged, and no number of calls ends the driver loop or
the run of `main`. -/
theorem driver_terminates_counterexample :
    read_header (linepeeker.mk_from (cin scenario_input)) =
        some (.ok scenario_header, scenario_records) ∧
      part flags_lines_0 [] 0 scenario_header scenario_records [] ULLONG_MAX ULLONG_MAX
          Globals.init = some (.ok true, scenario_records, Globals.init) ∧
      (¬ ∃ fuel res, part_driver flags_lines_0 [] scenario_header [] ULLONG_MAX ULLONG_MAX
        fuel 0 scenario_records Globals.init = some res) ∧
      ¬ ∃ fuel res, main flags_lines_0 (some []) false scenario_input fuel = some res := by
  have hfin : part_finished flags_lines_0 (toInt32 0) 0 = true := by decide
  have hnone := part_driver_never_ends flags_lines_0 [] scenario_header [] ULLONG_MAX
    ULLONG_MAX hfin
  have hread : read_header (linepeeker.mk_from (cin scenario_input)) =
      some (.ok scenario_header, scenario_records) := rfl
  refine ⟨hread, part_no_progress flags_lines_0 [] 0 scenario_header [] ULLONG_MAX ULLONG_MAX
    scenario_records Globals.init hfin, ?_, ?_⟩
  · rintro ⟨fuel, res, h⟩
    rw [hnone] at h
    simp at h
  · rintro ⟨fuel, res, h⟩
    have hp : parse_range flags_lines_0.range = some ([], ULLONG_MAX, ULLONG_MAX) := rfl
    simp only [main, hp, Bool.false_eq_true, if_false, hread, hnone] at h
    simp at h

/-- C18 (gap-free part indices) fails on the code at a batch of `2 ^ 32`
lines: with `MB=4096` and an input of one header line, `2 ^ 32` empty record
lines and the record line `x`, the first call of `part` dispatches nothing
(its counter `lines` has wrapped to zero) and returns `true`; the second call
dispatches the only batch of the run, which is given part index 1, not 0. -/
theorem part_indices_fail_at_2_32_lines :
    ∃ input q,
      read_header (linepeeker.mk_from (cin input_2_32_empty_lines_and_x)) =
        some (.ok ['#', 'h', '\n'], input) ∧
      part_driver flags_4096MB [] ['#', 'h', '\n'] [] ULLONG_MAX ULLONG_MAX 2 0 input
          Globals.init =
        some (.ok 2, q,
          { threads_launched := 1, records_read := 1, records_skipped := 0
            workers := [⟨[], 1, ['#', 'h', '\n'], [['x']]⟩] }) ∧
      main flags_4096MB (some []) false input_2_32_empty_lines_and_x 2 =
        some (.success 2 ['#', 'h', '\n']
          { threads_launched := 1, records_read := 1, records_skipped := 0
            workers := [⟨[], 1, ['#', 'h', '\n'], [['x']]⟩] }
          [writer_thread flags_4096MB ⟨[], 1, ['#', 'h', '\n'], [['x']]⟩]) :=
  header_then_skipped_index flags_4096MB [] 4294967296 (by decide) (by decide) (by decide)
    (by decide) rfl

/-- C19 (the summary reports the true part count) fails on the code: with
`lines=2` and four records the run is successful and launches two workers,
but `part_num` after the driver loop, which the summary prints as the number
of parts, is 3; with the range chr2:1-100 on the scenario input no part is
produced and `part_num` is 1. -/
theorem summary_part_count_off_by_one :
    main scenario_flags (some []) false four_records_input 5 =
        some (.success 3 "#h\n".toList
          { threads_launched := 2, records_read := 4, records_skipped := 0
            workers := [⟨[], 0, "#h\n".toList, ["r0".toList, "r1".toList]⟩,
                        ⟨[], 1, "#h\n".toList, ["r2".toList, "r3".toList]⟩] }
          [writer_thread scenario_flags ⟨[], 0, "#h\n".toList, ["r0".toList, "r1".toList]⟩,
           writer_thread scenario_flags
             ⟨[], 1, "#h\n".toList, ["r2".toList, "r3".toList]⟩]) ∧
      main (flags_with_range "chr2:1-100".toList) (some []) false scenario_input 5 =
        some (.success 1 scenario_header
          { threads_launched := 0, records_read := 0, records_skipped := 3, workers := [] }
          []) :=
  ⟨rfl, rfl⟩

/-- C20 (line source laws): for every state of a `linepeeker`, `get()`
returns what `peek()` followed by `drop()` returns (the line, `end_of_file`
or the input-failure error) and every later sequence of operations returns
the same results after either; a second `peek()` in a row returns what the
first returned and leaves the state unchanged; and successive `get()` calls
on an input return its lines in order, then throw `end_of_file`, where the
lines hold no newline and, each followed by one newline, spell the input
byte for byte (with a newline added after an unterminated last line), so a
carriage return before a newline stays in its line. -/
theorem line_source_laws :
    (∀ p : linepeeker, p.get.1 = p.peek_drop.1 ∧
      ∀ ops, linepeeker.run_ops p.get.2 ops = linepeeker.run_ops p.peek_drop.2 ops) ∧
    (∀ p : linepeeker, p.peek.2.peek = p.peek) ∧
    (∀ (data : List Char) (k : Nat),
      linepeeker.gets ((lines_of data).length + k) (linepeeker.mk_from (cin data)) =
        (lines_of data).map Except.ok ++
          List.replicate k (Except.error Exn.end_of_file)) ∧
    (∀ data : List Char,
      terminated (lines_of data) =
          (if data = [] ∨ data.getLast? = some '\n' then data else data ++ ['\n']) ∧
        ∀ l ∈ lines_of data, '\n' ∉ l) ∧
    linepeeker.gets 3 (linepeeker.mk_from (cin ['a', '\r', '\n', 'b'])) =
      [.ok ['a', '\r'], .ok ['b'], .error .end_of_file] := by
  refine ⟨?_, peek_peek, ?_, ?_, rfl⟩
  · intro p
    exact ⟨(get_peek_drop p).1,
      fun ops => same_behaviour_run_ops ops _ _ (get_peek_drop p).2⟩
  · intro data k
    exact gets_pending (lines_of data) _ k (mk_from_cin_reachable data)
      (pending_mk_from_cin data)
  · intro data
    exact ⟨terminated_lines_of data, lines_of_no_newline data⟩

end VcfLineSplitter
